import Mathlib

set_option maxHeartbeats 1000000

/-!
Verification of the split-planning and object-reconstruction subsystem of
decomp-toolkit (src/obj/split.rs, src/util/config.rs), via a shallow
embedding of the Rust source into Lean.  Machine integers are modelled as
`Nat` with explicit `% 2^32` at the places the source casts to `u32`;
fallible code returns `Except`/`Option`; Rust panics are modelled by a
dedicated error value, kept distinct from ordinary `Result` errors.
-/

namespace DT

/-- `2^32`, the modulus for `as u32` casts in the source. -/
def U32 : Nat := 2 ^ 32

/-- Kind of an object file: fully linked executable or relocatable. -/
inductive ObjKind where
  | Executable
  | Relocatable
deriving DecidableEq, Repr

/-- Architecture tag (the tool targets PowerPC only). -/
inductive ObjArchitecture where
  | PowerPc
deriving DecidableEq, Repr

/-- Section kinds. -/
inductive ObjSectionKind where
  | Code
  | Data
  | ReadOnlyData
  | Bss
deriving DecidableEq, Repr

/-- Symbol kinds. -/
inductive ObjSymbolKind where
  | Unknown
  | Function
  | Object
  | Section
deriving DecidableEq, Repr

/-- Data kinds attached to symbols. -/
inductive ObjDataKind where
  | Unknown
  | Byte
  | Byte2
  | Byte4
  | Byte8
  | Float
  | Double
  | DString
  | String16
  | StringTable
  | String16Table
deriving DecidableEq, Repr

/-- Modelled from the spec: the symbol flag set carries scope bits
(Global, Local, Weak, Common) plus modifiers (Hidden, ExternallyReferenced);
the concrete bit-set type lives in the missing `src/obj` module. -/
structure ObjSymbolFlagSet where
  isGlobal : Bool := false
  isLocal : Bool := false
  isWeak : Bool := false
  isCommon : Bool := false
  isHidden : Bool := false
  isExternallyReferenced : Bool := false
deriving DecidableEq, Repr

/-- Modelled from the spec: `ObjSymbolFlagSet::is_local` tests the Local scope bit. -/
def ObjSymbolFlagSet.is_local (f : ObjSymbolFlagSet) : Bool := f.isLocal

/-- Modelled from the spec: `set_scope(ObjSymbolScope::Global)` replaces the
scope bits (one of Local/Global/Weak/Common) with Global. -/
def ObjSymbolFlagSet.setScopeGlobal (f : ObjSymbolFlagSet) : ObjSymbolFlagSet :=
  { f with isGlobal := true, isLocal := false, isWeak := false, isCommon := false }

/-- The flag set holding exactly the Common flag
(`ObjSymbolFlagSet(ObjSymbolFlags::Common.into())`). -/
def commonFlagSet : ObjSymbolFlagSet :=
  { isCommon := true }

/-- A symbol of the image.  Field `sectionIdx` embeds the source field
`section` (a Lean keyword).  Defaults give Rust's `Default::default()`. -/
structure ObjSymbol where
  name : String := ""
  demangled_name : Option String := none
  address : Nat := 0
  sectionIdx : Option Nat := none
  size : Nat := 0
  size_known : Bool := false
  flags : ObjSymbolFlagSet := {}
  kind : ObjSymbolKind := .Unknown
  align : Option Nat := none
  data_kind : ObjDataKind := .Unknown
deriving DecidableEq, Repr

/-- Relocation kinds. -/
inductive ObjRelocKind where
  | Absolute
  | PpcAddr16Hi
  | PpcAddr16Ha
  | PpcAddr16Lo
  | PpcRel24
  | PpcRel14
  | PpcEmbSda21
deriving DecidableEq, Repr

/-- A relocation; `target_symbol` is an index into the owning object's
symbol table. -/
structure ObjReloc where
  kind : ObjRelocKind := .Absolute
  address : Nat := 0
  target_symbol : Nat := 0
  addend : Int := 0
deriving DecidableEq, Repr

/-- A section of the image. -/
structure ObjSection where
  name : String
  kind : ObjSectionKind
  address : Nat
  size : Nat
  data : List Nat := []
  align : Nat := 0
  index : Nat := 0
  elf_index : Nat := 0
  relocations : List ObjReloc := []
  original_address : Nat := 0
  file_offset : Nat := 0
  section_known : Bool := true
deriving DecidableEq, Repr

/-- A split record; `endAddr` embeds the source field `end` (a Lean keyword):
the exclusive end address, with `0` meaning "extends to the start of the
next split, or to the section end". -/
structure ObjSplit where
  unit : String
  endAddr : Nat
  align : Option Nat := none
  common : Bool := false
  autogenerated : Bool := false
deriving DecidableEq, Repr

/-- A unit (translation unit) descriptor of the link order. -/
structure ObjUnit where
  name : String
  autogenerated : Bool := false
  comment_version : Option Nat := none
deriving DecidableEq, Repr

/-- Modelled from the spec: the compiler-comment metadata blob is opaque and
tagged with a version; `MWComment::new(version)` builds one from a version. -/
structure MWComment where
  version : Nat
deriving DecidableEq, Repr

/-- The in-memory image.  `splits` models the source's
`BTreeMap<u32, Vec<ObjSplit>>` as an address-keyed association list kept in
ascending key order (the map invariant from the spec: within a section splits
are strictly ordered by start address). -/
structure ObjInfo where
  kind : ObjKind
  architecture : ObjArchitecture := .PowerPc
  name : String := ""
  sections : List ObjSection := []
  symbols : List ObjSymbol := []
  splits : List (Nat × ObjSplit) := []
  link_order : List ObjUnit := []
  named_sections : List (Nat × String) := []
  mw_comment : Option MWComment := none
  blocked_ranges : List (Nat × Nat) := []
deriving DecidableEq, Repr

/-- The split map is strictly sorted by start address. -/
def SplitsSorted (l : List (Nat × ObjSplit)) : Prop :=
  l.Pairwise (fun p q => p.1 < q.1)

instance (l : List (Nat × ObjSplit)) : Decidable (SplitsSorted l) := by
  unfold SplitsSorted
  exact List.instDecidablePairwise l

/-- Modelled from the spec: `obj.splits_for_range(lo..hi)` iterates the
splits whose start address lies in the half-open range, in address order. -/
def splits_for_range (obj : ObjInfo) (lo hi : Nat) : List (Nat × ObjSplit) :=
  obj.splits.filter (fun p => lo ≤ p.1 && p.1 < hi)

/-- Insert a `(key, split)` pair in front of the first entry with a key
`≥` its own (so fresh keys keep the list sorted). -/
def insertSplit (p : Nat × ObjSplit) : List (Nat × ObjSplit) → List (Nat × ObjSplit)
  | [] => [p]
  | q :: rest => if p.1 ≤ q.1 then p :: q :: rest else q :: insertSplit p rest

/-- Modelled from the spec: `obj.add_split(addr, split)` records a split in
the address-keyed split map. -/
def add_split (obj : ObjInfo) (addr : Nat) (split : ObjSplit) : ObjInfo :=
  { obj with splits := insertSplit (addr, split) obj.splits }

/-- Stable insertion by symbol address (ties keep earlier elements first). -/
def insertByAddr (p : Nat × ObjSymbol) :
    List (Nat × ObjSymbol) → List (Nat × ObjSymbol)
  | [] => [p]
  | q :: rest =>
    if p.2.address ≤ q.2.address then p :: q :: rest else q :: insertByAddr p rest

/-- Stable insertion sort by symbol address. -/
def sortByAddr : List (Nat × ObjSymbol) → List (Nat × ObjSymbol)
  | [] => []
  | p :: rest => insertByAddr p (sortByAddr rest)

/-- Modelled from the spec: `obj.symbols.for_range(lo..hi)` iterates the
symbols with address in the half-open range, in address order, each paired
with its symbol-table index. -/
def symbols_for_range (syms : List ObjSymbol) (lo hi : Nat) :
    List (Nat × ObjSymbol) :=
  sortByAddr (syms.enum.filter (fun p => lo ≤ p.2.address && p.2.address < hi))

/-- Linker generated objects to strip entirely. -/
def is_linker_generated_object (name : String) : Bool :=
  ["_eti_init_info", "_rom_copy_info", "_bss_init_info", "_ctors$99",
   "_dtors$99"].contains name

/-- Linker-generated symbols to extern. -/
def is_linker_generated_label (name : String) : Bool :=
  ["_ctors", "_dtors", "_f_init", "_f_init_rom", "_e_init", "_fextab",
   "_fextab_rom", "_eextab", "_fextabindex", "_fextabindex_rom",
   "_eextabindex", "_f_text", "_f_text_rom", "_e_text", "_f_ctors",
   "_f_ctors_rom", "_e_ctors", "_f_dtors", "_f_dtors_rom", "_e_dtors",
   "_f_rodata", "_f_rodata_rom", "_e_rodata", "_f_data", "_f_data_rom",
   "_e_data", "_f_sdata", "_f_sdata_rom", "_e_sdata", "_f_sbss",
   "_f_sbss_rom", "_e_sbss", "_f_sdata2", "_f_sdata2_rom", "_e_sdata2",
   "_f_sbss2", "_f_sbss2_rom", "_e_sbss2", "_f_bss", "_f_bss_rom",
   "_e_bss", "_f_stack", "_f_stack_rom", "_e_stack", "_stack_addr",
   "_stack_end", "_db_stack_addr", "_db_stack_end", "_heap_addr",
   "_heap_end", "_nbfunctions", "SIZEOF_HEADERS", "_SDA_BASE_",
   "_SDA2_BASE_", "_ABS_SDA_BASE_", "_ABS_SDA2_BASE_"].contains name

/-- The last Object symbol with known positive size in
`[sectionStart, sectionEnd)` (the `filter(...).last()` of the source). -/
def lastSizedObject (syms : List ObjSymbol) (sectionStart sectionEnd : Nat) :
    Option (Nat × ObjSymbol) :=
  ((symbols_for_range syms sectionStart sectionEnd).filter
    (fun p => p.2.kind == ObjSymbolKind.Object && p.2.size_known
      && decide (0 < p.2.size))).getLast?

/-- The retry loop of `end_for_section`: while the last sized Object symbol
in range is a linker-generated object, move the section end down to its
address.  The loop strictly shrinks the candidate set, so
`syms.length + 1` fuel always suffices; `none` marks exhausted fuel. -/
def endForSectionLoop (syms : List ObjSymbol) (sectionStart : Nat) :
    Nat → Nat → Option Nat
  | 0, _ => none
  | fuel + 1, sectionEnd =>
    match lastSizedObject syms sectionStart sectionEnd with
    | some (_, s) =>
      if is_linker_generated_object s.name then
        endForSectionLoop syms sectionStart fuel (s.address % U32)
      else some sectionEnd
    | none => some sectionEnd

/-- Locate the end address of a section when excluding linker generated
objects (`end_for_section`).  `none` models a Rust panic — in particular the
`section.data[section.data.len() - 4..]` slice whose index underflows when a
`.ctors`/`.dtors` section holds fewer than 4 data bytes — or an
out-of-bounds section index, or exhausted loop fuel. -/
def end_for_section (obj : ObjInfo) (section_index : Nat) : Option Nat :=
  match obj.sections.get? section_index with
  | none => none
  | some sec =>
    let sectionStart := sec.address % U32
    let sectionEnd := (sec.address + sec.size) % U32
    if sec.name == ".ctors" || sec.name == ".dtors" then
      if sec.data.length < 4 then none
      else if sec.data.drop (sec.data.length - 4) == [0, 0, 0, 0] then
        some (sectionEnd - 4)
      else endForSectionLoop obj.symbols sectionStart (syms_fuel obj) sectionEnd
    else endForSectionLoop obj.symbols sectionStart (syms_fuel obj) sectionEnd
where
  syms_fuel (obj : ObjInfo) : Nat := obj.symbols.length + 1

/-- `section.address as u32`. -/
def secStart (s : ObjSection) : Nat := s.address % U32

/-- `(section.address + section.size) as u32`. -/
def secEnd (s : ObjSection) : Nat := (s.address + s.size) % U32

/-- Ensures that all `.bss` splits following a common split are also marked
as common (`update_common_splits`; its `Result` is always `Ok`). -/
def update_common_splits (obj : ObjInfo) : ObjInfo :=
  match obj.sections.find? (fun s => s.name == ".bss") with
  | none => obj
  | some bss =>
    match (splits_for_range obj (secStart bss) (secEnd bss)).find?
        (fun p => p.2.common) with
    | none => obj
    | some (commonBssStart, _) =>
      { obj with splits := obj.splits.map (fun p =>
          if commonBssStart ≤ p.1 ∧ p.1 < secEnd bss then
            (p.1, { p.2 with common := true })
          else p) }

/-- Error outcomes of the split passes.  `err` is an ordinary `anyhow`
error (`bail!`/`ensure!`), `panicked` models a Rust panic, and `noFuel`
models a source loop that never terminates (reachable only on inputs on
which the source loops forever, e.g. a zero-length gap split repeatedly
re-created at the same address). -/
inductive SplitError where
  | err (msg : String)
  | panicked
  | noFuel
deriving DecidableEq, Repr

/-- Uppercase hexadecimal digit for `n < 16`. -/
def hexDigitChar (n : Nat) : Char :=
  if n < 10 then Char.ofNat (48 + n) else Char.ofNat (55 + n)

/-- Hex digits of `n`, least significant first, with explicit fuel
(`fuel ≥ n` always suffices). -/
def hexDigitsRev : Nat → Nat → List Char
  | 0, _ => []
  | fuel + 1, n =>
    if n = 0 then [] else hexDigitChar (n % 16) :: hexDigitsRev fuel (n / 16)

/-- Rust `{:0width$X}`: uppercase hex, left-padded with zeros to at least
`width` characters (wider numbers keep all their digits). -/
def hexUpperPad (width n : Nat) : List Char :=
  let ds := (hexDigitsRev n n).reverse
  List.replicate (width - ds.length) '0' ++ ds

/-- `hexUpperPad` as a `String`. -/
def hexUpperPadS (width n : Nat) : String := ⟨hexUpperPad width n⟩

/-- `section.name.trim_start_matches('.')`. -/
def trimLeadingDots (s : String) : String := ⟨s.data.dropWhile (· == '.')⟩

/-- The unit name `format!("{:08X}_{}", addr, name.trim_start_matches('.'))`
given to an autogenerated gap split. -/
def gapUnitName (addr : Nat) (sectionName : String) : String :=
  hexUpperPadS 8 addr ++ "_" ++ trimLeadingDots sectionName

/-- The duplicate-symbol scan of `create_gap_splits`: walk the gap's symbols
in address order; fail the sanity check if one lies outside the scanned
section; on the first repeated name return that symbol's address (`as u32`)
as the truncated gap end; otherwise return the gap end `splitStart`. -/
def gapSplitEnd (sectionIdx : Nat) (splitStart : Nat) :
    List (Nat × ObjSymbol) → List String → Except SplitError Nat
  | [], _ => .ok splitStart
  | (_, sym) :: rest, seen =>
    if sym.sectionIdx ≠ some sectionIdx then
      .error (.err "Expected symbol to be in section")
    else if seen.contains sym.name then .ok (sym.address % U32)
    else gapSplitEnd sectionIdx splitStart rest (sym.name :: seen)

/-- The peeked start of the next split, or the section end once the split
iterator is exhausted. -/
def nextSplitStart (splits : List (Nat × ObjSplit)) (sectionEnd : Nat) : Nat :=
  match splits with
  | (addr, _) :: _ => addr
  | [] => sectionEnd

/-- The effective end of a split: its own `end` when nonzero, else the start
of the next split (clamped to the section end), else the section end.  This
is the `file_end` computation shared by `create_gap_splits` and
`split_obj`. -/
def effEnd (sectionEnd : Nat) (s : ObjSplit) (rest : List (Nat × ObjSplit)) :
    Nat :=
  if 0 < s.endAddr then s.endAddr
  else
    match rest with
    | (nextAddr, _) :: _ => min nextAddr sectionEnd
    | [] => sectionEnd

/-- The effective half-open interval of every split of an address-ordered
split list. -/
def effList (sectionEnd : Nat) : List (Nat × ObjSplit) → List (Nat × Nat)
  | [] => []
  | (a, s) :: rest => (a, effEnd sectionEnd s rest) :: effList sectionEnd rest

/-- The per-section loop of `create_gap_splits`.  `cur` is
`current_address`, `splits` the unconsumed tail of the section's
`splits_for_range` iterator; the result lists this section's new gap
splits in creation order (ascending addresses whenever the call succeeds,
matching the source's address-keyed accumulator map). -/
def gapWalk (syms : List ObjSymbol) (sectionIdx : Nat) (sectionName : String)
    (sectionEnd : Nat) :
    Nat → Nat → List (Nat × ObjSplit) →
    Except SplitError (List (Nat × ObjSplit))
  | 0, _, _ => .error .noFuel
  | fuel + 1, cur, splits =>
    if sectionEnd ≤ cur then .ok []
    else
      if nextSplitStart splits sectionEnd < cur then
        .error (.err "Split overlaps with previous split")
      else if cur < nextSplitStart splits sectionEnd then
        match gapSplitEnd sectionIdx (nextSplitStart splits sectionEnd)
            (symbols_for_range syms cur (nextSplitStart splits sectionEnd)) [] with
        | .error e => .error e
        | .ok newSplitEnd =>
          match gapWalk syms sectionIdx sectionName sectionEnd fuel
              newSplitEnd splits with
          | .error e => .error e
          | .ok ns =>
            .ok ((cur, { unit := gapUnitName cur sectionName,
                         endAddr := newSplitEnd, align := none,
                         common := false, autogenerated := true }) :: ns)
      else
        match splits with
        | [] => gapWalk syms sectionIdx sectionName sectionEnd fuel
            sectionEnd []
        | (_, s) :: rest =>
          gapWalk syms sectionIdx sectionName sectionEnd fuel
            (effEnd sectionEnd s rest) rest

/-- One section's pass of `create_gap_splits`: compute the section end
(a panic there propagates) and run the gap walk over the section's existing
splits.  The fuel covers one step per address plus one per split; the only
inputs that exhaust it are those on which the source loops forever. -/
def gapSection (obj : ObjInfo) (idx : Nat) (sec : ObjSection) :
    Except SplitError (List (Nat × ObjSplit)) :=
  match end_for_section obj idx with
  | none => .error .panicked
  | some sectionEnd =>
    gapWalk obj.symbols idx sec.name sectionEnd
      (sectionEnd - secStart sec +
        (splits_for_range obj (secStart sec) sectionEnd).length + 1)
      (secStart sec)
      (splits_for_range obj (secStart sec) sectionEnd)

/-- The section fold of `create_gap_splits`; new splits accumulate across
sections (the source keys them all in one `BTreeMap` and commits at the
end; on success the per-section address ranges are what keeps them
distinct). -/
def gapSections (obj : ObjInfo) :
    Nat → List ObjSection → Except SplitError (List (Nat × ObjSplit))
  | _, [] => .ok []
  | idx, sec :: rest =>
    match gapSection obj idx sec with
    | .error e => .error e
    | .ok ns =>
      match gapSections obj (idx + 1) rest with
      | .error e => .error e
      | .ok ns' => .ok (ns ++ ns')

/-- Create splits for gaps between existing splits (`create_gap_splits`):
scan every section, then commit every accumulated split with `add_split`. -/
def create_gap_splits (obj : ObjInfo) : Except SplitError ObjInfo :=
  match gapSections obj 0 obj.sections with
  | .error e => .error e
  | .ok ns => .ok (ns.foldl (fun o p => add_split o p.1 p.2) obj)

/-- Merge two key-sorted split lists by key. -/
def mergeKey : List (Nat × ObjSplit) → List (Nat × ObjSplit) →
    List (Nat × ObjSplit)
  | [], l => l
  | p :: ps, [] => p :: ps
  | p :: ps, q :: qs =>
    if p.1 ≤ q.1 then p :: mergeKey ps (q :: qs)
    else q :: mergeKey (p :: ps) qs
termination_by l1 l2 => l1.length + l2.length

/-- An address-ordered split list tiles `[cur, sectionEnd)`: each split
starts where the previous one's effective interval ended, intervals are
nonempty and stay within the section. -/
def TileChain (sectionEnd : Nat) : Nat → List (Nat × ObjSplit) → Prop
  | cur, [] => sectionEnd ≤ cur
  | cur, (a, s) :: rest =>
    a = cur ∧ cur < effEnd sectionEnd s rest ∧ effEnd sectionEnd s rest ≤ sectionEnd ∧
    TileChain sectionEnd (effEnd sectionEnd s rest) rest

/-- The union of the intervals equals `[lo, hi)`. -/
def CoversExactly (lo hi : Nat) (l : List (Nat × Nat)) : Prop :=
  ∀ x, (lo ≤ x ∧ x < hi) ↔ ∃ p ∈ l, p.1 ≤ x ∧ x < p.2

/-- No two of the intervals overlap. -/
def IntervalsDisjoint (l : List (Nat × Nat)) : Prop :=
  l.Pairwise (fun p q => ∀ x, p.1 ≤ x → x < p.2 → ¬(q.1 ≤ x ∧ x < q.2))

/-- The `.bss` section of the C7 witness image. -/
def c7bss : ObjSection :=
  { name := ".bss", kind := .Bss, address := 0, size := 12 }

/-- Concrete image for the C7 witness: a `.bss` section covering
`[0, 12)` with splits at `0`, `4` (common) and `8`. -/
def c7ex : ObjInfo :=
  { kind := .Executable
    sections := [c7bss]
    splits :=
      [(0, { unit := "a", endAddr := 4 }),
       (4, { unit := "b", endAddr := 8, common := true }),
       (8, { unit := "c", endAddr := 12 })] }

/-- Image pieces of the C8 witness: two symbols both named `foo`, at
`0x1000` and `0x1800`, inside a gap `[0x1000, 0x2000)`. -/
def c8syms : List ObjSymbol :=
  [{ name := "foo", address := 0x1000, sectionIdx := some 0 },
   { name := "foo", address := 0x1800, sectionIdx := some 0 }]

/-- Concrete image for the C10 witness: a `.ctors` section with no data. -/
def c10ex : ObjInfo :=
  { kind := .Executable
    sections := [{ name := ".ctors", kind := .ReadOnlyData, address := 0,
                   size := 0, data := [] }] }

/-- Well-formedness of the pre-existing splits of one section range
(the spec's split-map invariant): each split's `end` is zero or lies in
`(start, sectionEnd]`, and consecutive splits do not overlap. -/
def RangeWF (sectionEnd : Nat) (l : List (Nat × ObjSplit)) : Prop :=
  (∀ p ∈ l, p.2.endAddr = 0 ∨ (p.1 < p.2.endAddr ∧ p.2.endAddr ≤ sectionEnd)) ∧
  List.Chain' (fun p q => p.2.endAddr ≤ q.1 ∨ p.2.endAddr = 0) l

instance (se : Nat) (l : List (Nat × ObjSplit)) : Decidable (RangeWF se l) :=
  inferInstanceAs (Decidable
    ((∀ p ∈ l, p.2.endAddr = 0 ∨ (p.1 < p.2.endAddr ∧ p.2.endAddr ≤ se)) ∧
      List.Chain' (fun (p q : Nat × ObjSplit) =>
        p.2.endAddr ≤ q.1 ∨ p.2.endAddr = 0) l))

/-- The input invariants of the gap-filling pass: the split map is strictly
sorted, addresses fit in `u32`, sections do not overlap, and each section's
pre-existing splits are well-formed within `[section start, section end)`. -/
def GapInputWF (obj : ObjInfo) : Prop :=
  SplitsSorted obj.splits ∧
  (∀ s ∈ obj.symbols, s.address < U32) ∧
  (∀ sec ∈ obj.sections, sec.address + sec.size < U32) ∧
  obj.sections.Pairwise (fun s t =>
    s.address + s.size ≤ t.address ∨ t.address + t.size ≤ s.address) ∧
  (∀ i sec se, obj.sections.get? i = some sec → end_for_section obj i = some se →
    RangeWF se (splits_for_range obj (secStart sec) se))

/-- C1 counterexample image: a single 8-byte `.data` section `[0, 8)` whose
only split claims the interval `[0, 16)`, reaching past the section end. -/
def c1cex : ObjInfo :=
  { kind := .Executable
    sections := [{ name := ".data", kind := .Data, address := 0, size := 8,
                   data := [0, 0, 0, 0, 0, 0, 0, 0] }]
    splits := [(0, { unit := "x", endAddr := 16 })] }

/-- The section of the C1 witness image. -/
def c1wsec : ObjSection :=
  { name := ".data", kind := .Data, address := 0, size := 16,
    data := List.replicate 16 0 }

/-- C1 witness image: a 16-byte `.data` section `[0, 16)` with one
pre-existing split `[0, 8)`; gap filling must create a split `[8, 16)`. -/
def c1wex : ObjInfo :=
  { kind := .Executable
    sections := [c1wsec]
    splits := [(0, { unit := "x", endAddr := 8 })] }

/-- The image produced by gap filling on `c1wex`. -/
def c1wres : ObjInfo :=
  { kind := .Executable
    sections := [c1wsec]
    splits :=
      [(0, { unit := "x", endAddr := 8 }),
       (8, { unit := "00000008_data", endAddr := 16, align := none,
             common := false, autogenerated := true })] }

/-- The node set of the link-order graph: the distinct unit names of all
splits.  Modelled from the spec: the `BTreeMap<String, NodeIndex>` of
`resolve_link_order`; the claims are insensitive to node order, so the
first-occurrence order of `dedup` stands in for the map's name order. -/
def linkOrderNodes (obj : ObjInfo) : List String :=
  (obj.splits.map (fun p => p.2.unit)).dedup

/-- One section's split sequence for edge building: its splits in address
order, with the first split skipped for `.ctors`/`.dtors`
(`__init_cpp_exceptions.o`). -/
def sectionPairSource (obj : ObjInfo) (sec : ObjSection) :
    List (Nat × ObjSplit) :=
  if sec.name == ".ctors" || sec.name == ".dtors" then
    (splits_for_range obj (secStart sec) (secEnd sec)).drop 1
  else splits_for_range obj (secStart sec) (secEnd sec)

/-- Consecutive pairs of a list (the `(iter.next(), iter.peek())` pairs). -/
def consecutivePairs {α : Type} : List α → List (α × α)
  | [] => []
  | [_] => []
  | a :: b :: rest => (a, b) :: consecutivePairs (b :: rest)

/-- The dependency edges contributed by one section: for each consecutive
split pair `(a, b)`, skip the common-BSS transition
(`!a.common && b.common`), then add `a.unit → b.unit` when the units
differ. -/
def sectionEdges (obj : ObjInfo) (sec : ObjSection) :
    List (String × String) :=
  (consecutivePairs (sectionPairSource obj sec)).filterMap (fun pq =>
    if !pq.1.2.common && pq.2.2.common then none
    else if pq.1.2.unit ≠ pq.2.2.unit then some (pq.1.2.unit, pq.2.2.unit)
    else none)

/-- All dependency edges of the image, in section order. -/
def linkOrderEdges (obj : ObjInfo) : List (String × String) :=
  (obj.sections.map (sectionEdges obj)).flatten

/-- One selection step of the topological sort: the first remaining node
with no incoming edge from a remaining node. -/
def topoStep (nodes : List String) (edges : List (String × String)) :
    Option String :=
  nodes.find? (fun n => !edges.any (fun e => e.2 == n && decide (e.1 ∈ nodes)))

/-- Modelled from the spec: the topological sort of the link-order graph
(`petgraph::algo::toposort`; any order satisfying the edge constraints is
valid, so Kahn-style selection stands in for petgraph's traversal).
Fuel `nodes.length` always suffices; a failing `topoStep` is a cycle. -/
def topoSort (edges : List (String × String)) :
    Nat → List String → Except SplitError (List String)
  | 0, nodes =>
    match nodes with
    | [] => .ok []
    | _ :: _ => .error .noFuel
  | fuel + 1, nodes =>
    match nodes with
    | [] => .ok []
    | _ :: _ =>
      match topoStep nodes edges with
      | none =>
        .error (.err "Cyclic dependency encountered while resolving link order")
      | some n =>
        match topoSort edges fuel (nodes.erase n) with
        | .error e => .error e
        | .ok rest => .ok (n :: rest)

/-- Modelled from the spec: `obj.is_unit_autogenerated(name)` — every split
owned by the unit is autogenerated. -/
def is_unit_autogenerated (obj : ObjInfo) (name : String) : Bool :=
  (obj.splits.filter (fun p => p.2.unit == name)).all
    (fun p => p.2.autogenerated)

/-- Resolve a new object link order (`resolve_link_order`): build the unit
graph, topologically sort it, and turn each sorted unit name into its
existing descriptor or a fresh one. -/
def resolve_link_order (obj : ObjInfo) : Except SplitError (List ObjUnit) :=
  match topoSort (linkOrderEdges obj) (linkOrderNodes obj).length
      (linkOrderNodes obj) with
  | .error e => .error e
  | .ok names => .ok (names.map (fun name =>
      match obj.link_order.find? (fun u => u.name == name) with
      | some existing => existing
      | none => { name := name,
                  autogenerated := is_unit_autogenerated obj name,
                  comment_version := none }))

/-- The sections of the C2 witness image. -/
def c2text : ObjSection :=
  { name := ".text", kind := .Code, address := 0, size := 8,
    data := List.replicate 8 0 }

/-- C2 witness image: one `.text` section with unit `A` before unit `B`. -/
def c2ex : ObjInfo :=
  { kind := .Executable
    sections := [c2text]
    splits :=
      [(0, { unit := "A", endAddr := 4 }),
       (4, { unit := "B", endAddr := 8 })] }

/-- Modelled from the spec: `section.build_relocation_map()` iterated over
`[lo, hi)` — relocations are sorted by address (spec invariant), so the
range of the address-keyed map is the filtered relocation list; addresses
are rebased by `lo` as in the source. -/
def relocsInRange (relocs : List ObjReloc) (lo hi : Nat) : List ObjReloc :=
  (relocs.filter (fun r => decide (lo ≤ r.address) && decide (r.address < hi))).map
    (fun r => { kind := r.kind, address := r.address - lo,
                target_symbol := r.target_symbol, addend := r.addend })

/-- Modelled from the spec: `ObjInfo::new` builds an empty object. -/
def ObjInfo.new (kind : ObjKind) (architecture : ObjArchitecture)
    (name : String) : ObjInfo :=
  { kind := kind, architecture := architecture, name := name }

/-- `MWComment::new(version)`; its validation always succeeds here
(modelled from the spec: the blob is opaque, tagged with the version). -/
def MWComment.new (version : Nat) : MWComment := { version := version }

/-- Modelled from the spec: the `name_to_obj` HashMap of `split_obj` — a
later insert overwrites an earlier one, so look up the last link-order
index bearing the name. -/
def nameToObj (link_order : List ObjUnit) (name : String) : Option Nat :=
  ((link_order.enum.filter (fun p => p.2.name == name)).map Prod.fst).getLast?

/-- The initial (empty) output object of one unit. -/
def initObject (obj : ObjInfo) (unit : ObjUnit) : ObjInfo :=
  match unit.comment_version with
  | some v => { ObjInfo.new .Relocatable .PowerPc unit.name with
                mw_comment := some (MWComment.new v) }
  | none => { ObjInfo.new .Relocatable .PowerPc unit.name with
              mw_comment := obj.mw_comment }

/-- The per-output bookkeeping of `split_obj`: the output objects and the
parallel input-symbol-index → output-symbol-index maps. -/
structure SplitCtx where
  objects : List ObjInfo
  objectSymbols : List (List (Option Nat))
deriving DecidableEq, Repr

/-- The initial bookkeeping: one empty object and one all-`None` symbol map
per link-order unit. -/
def initCtx (obj : ObjInfo) : SplitCtx :=
  { objects := obj.link_order.map (initObject obj)
    objectSymbols := obj.link_order.map
      (fun _ => List.replicate obj.symbols.length none) }

/-- mwld doesn't preserve the original section alignment values
(`default_section_align`). -/
def default_section_align (sec : ObjSection) : Nat :=
  match sec.kind with
  | .Code => 4
  | _ =>
    match sec.name with
    | ".ctors" | ".dtors" | "extab" | "extabindex" => 4
    | ".sbss" => 4
    | _ => 8

/-- The misalignment test `current_address & (align as u32 - 1) != 0`,
with the `u32` cast and wrap-around of `align - 1` made explicit. -/
def alignMask (align addr : Nat) : Bool :=
  addr &&& ((align % U32 + U32 - 1) % U32) != 0

/-- The fallback loop `while align > 4 { align /= 2; if aligned break }`.
Fuel `align` suffices since the value halves each iteration. -/
def alignHalve (addr : Nat) : Nat → Nat → Nat
  | 0, align => align
  | fuel + 1, align =>
    if 4 < align then
      if alignMask (align / 2) addr = false then align / 2
      else alignHalve addr fuel (align / 2)
    else align

/-- The split alignment computation of `split_obj`: the split's own `align`
or the section default; on misalignment run the halving loop, then fail if
the address is still misaligned. -/
def computeAlign (sec : ObjSection) (split : ObjSplit) (cur : Nat) :
    Except SplitError Nat :=
  let align0 := match split.align with
    | some a => a
    | none => default_section_align sec
  let align1 := if alignMask align0 cur = true then alignHalve cur align0 align0
    else align0
  if alignMask align1 cur = true then
    .error (.err "Invalid alignment for split")
  else .ok align1

/-- The section byte slice
`section.data[(cur - address)..(file_end - address)]`; `none` models the
slice-index panic on a malformed range. -/
def secData (sec : ObjSection) (cur fileEnd : Nat) : Option (List Nat) :=
  match sec.kind with
  | .Bss => some []
  | _ =>
    if sec.address ≤ cur ∧ cur ≤ fileEnd ∧
        fileEnd - sec.address ≤ sec.data.length then
      some ((sec.data.take (fileEnd - sec.address)).drop (cur - sec.address))
    else none

/-- Look up a renamed section for an address (`obj.named_sections.get`). -/
def lookupNamed (l : List (Nat × String)) (addr : Nat) : Option String :=
  (l.find? (fun p => p.1 == addr)).map Prod.snd

/-- The per-split symbol collection of `split_obj`: for every not-yet-mapped
input symbol of `[cur, fileEnd)` in address order, optionally pad the
common tail, record the mapping, and append the transformed symbol. -/
def collectSymbols (split : ObjSplit) (cur outSectionIdx : Nat) :
    List (Nat × ObjSymbol) → List ObjSymbol → List (Option Nat) → Nat →
    List ObjSymbol × List (Option Nat)
  | [], outSyms, symIdxs, _ => (outSyms, symIdxs)
  | (symbolIdx, symbol) :: rest, outSyms, symIdxs, commAddr =>
    if (symIdxs.getD symbolIdx none).isSome then
      collectSymbols split cur outSectionIdx rest outSyms symIdxs commAddr
    else
      let outSyms1 :=
        if split.common ∧ commAddr < symbol.address % U32 then
          outSyms ++
            [{ name := "pad_" ++ hexUpperPadS 10 commAddr,
               demangled_name := none, address := 0, sectionIdx := none,
               size := symbol.address - commAddr, size_known := true,
               flags := commonFlagSet, kind := .Object, align := some 4,
               data_kind := .Unknown }]
        else outSyms
      let symIdxs1 := symIdxs.set symbolIdx (some outSyms1.length)
      let outSyms2 := outSyms1 ++
        [{ name := symbol.name, demangled_name := symbol.demangled_name,
           address := if split.common then 4 else symbol.address - cur,
           sectionIdx := if split.common then none else some outSectionIdx,
           size := symbol.size, size_known := symbol.size_known,
           flags := if split.common then commonFlagSet else symbol.flags,
           kind := symbol.kind,
           align := if split.common then some 4 else symbol.align,
           data_kind := symbol.data_kind }]
      collectSymbols split cur outSectionIdx rest outSyms2 symIdxs1
        ((symbol.address + symbol.size) % U32)

/-- One split's processing in the per-section walk of `split_obj`:
alignment, relocation collection, symbol collection, the automatic
`.comment` blob for common splits, and (for non-common splits) the output
section. -/
def processSplit (obj : ObjInfo) (sec : ObjSection) (cur fileEnd : Nat)
    (split : ObjSplit) (file : ObjInfo) (symIdxs : List (Option Nat)) :
    Except SplitError (ObjInfo × List (Option Nat)) :=
  match computeAlign sec split cur with
  | .error e => .error e
  | .ok align =>
    let outRelocations := relocsInRange sec.relocations cur fileEnd
    let outSectionIdx := file.sections.length
    let collected := collectSymbols split cur outSectionIdx
      (symbols_for_range obj.symbols cur fileEnd) file.symbols symIdxs cur
    let file1 := { file with symbols := collected.1 }
    let file2 := if split.common ∧ file1.mw_comment = none then
        { file1 with mw_comment := some (MWComment.new 8) }
      else file1
    if split.common then .ok (file2, collected.2)
    else
      match secData sec cur fileEnd with
      | none => .error .panicked
      | some data =>
        .ok ({ file2 with sections := file2.sections ++
          [{ name := match lookupNamed obj.named_sections cur with
               | some n => n
               | none => sec.name,
             kind := sec.kind, address := 0, size := fileEnd - cur,
             data := data, align := align, index := outSectionIdx,
             elf_index := outSectionIdx + 1,
             relocations := outRelocations, original_address := cur,
             file_offset := sec.file_offset + (cur - sec.address),
             section_known := true }] }, collected.2)

/-- The per-section walk of `split_obj` over the split iterator: fail on a
gap, compute the split's extent from the next split start, process the
split into its unit's output object, continue at `file_end`. -/
def splitWalk (obj : ObjInfo) (sec : ObjSection) (sectionEnd : Nat) :
    Nat → List (Nat × ObjSplit) → SplitCtx → Except SplitError SplitCtx
  | cur, splits, ctx =>
    if sectionEnd ≤ cur then .ok ctx
    else
      match splits with
      | [] => .error (.err "No file found")
      | (fileAddr, split) :: rest =>
        if cur < fileAddr then .error (.err "Gap in files")
        else
          match nameToObj obj.link_order split.unit with
          | none => .error (.err "Unit not in link order")
          | some objIdx =>
            match ctx.objects.get? objIdx, ctx.objectSymbols.get? objIdx with
            | some file, some symIdxs =>
              match processSplit obj sec cur
                  (match rest with
                   | (nextAddr, _) :: _ => min nextAddr sectionEnd
                   | [] => sectionEnd) split file symIdxs with
              | .error e => .error e
              | .ok fs =>
                splitWalk obj sec sectionEnd
                  (match rest with
                   | (nextAddr, _) :: _ => min nextAddr sectionEnd
                   | [] => sectionEnd) rest
                  { objects := ctx.objects.set objIdx fs.1,
                    objectSymbols := ctx.objectSymbols.set objIdx fs.2 }
            | _, _ => .error .panicked

/-- The section fold of `split_obj`'s first phase. -/
def splitWalkSections (obj : ObjInfo) :
    Nat → List ObjSection → SplitCtx → Except SplitError SplitCtx
  | _, [], ctx => .ok ctx
  | idx, sec :: rest, ctx =>
    match end_for_section obj idx with
    | none => .error .panicked
    | some sectionEnd =>
      match splitWalk obj sec sectionEnd (secStart sec)
          (splits_for_range obj (secStart sec) sectionEnd) ctx with
      | .error e => .error e
      | .ok ctx' => splitWalkSections obj (idx + 1) rest ctx'

/-- `str::ends_with` on the character lists of the strings. -/
def strEndsWith (s suffix : String) : Bool :=
  decide (suffix.data.length ≤ s.data.length) &&
    decide (s.data.drop (s.data.length - suffix.data.length) = suffix.data)

/-- `obj.section_at(addr)`: the section containing the address.  Modelled
from the spec: sections are indexable by address. -/
def section_at (obj : ObjInfo) (addr : Nat) : Option ObjSection :=
  obj.sections.find? (fun s =>
    decide (s.address ≤ addr) && decide (addr < s.address + s.size))

/-- Modelled from the spec: `obj.split_for(addr)` — the split owning the
address: the last split of the containing section starting at or before
`addr`, provided `addr` lies before its effective end. -/
def split_for (obj : ObjInfo) (addr : Nat) : Option (Nat × ObjSplit) :=
  match section_at obj addr with
  | none => none
  | some sec =>
    match ((splits_for_range obj (secStart sec) (secEnd sec)).filter
        (fun p => decide (p.1 ≤ addr))).getLast? with
    | none => none
    | some p =>
      if addr < effEnd (secEnd sec)  p.2
          ((splits_for_range obj (secStart sec) (secEnd sec)).filter
            (fun q => decide (p.1 < q.1))) then
        some p
      else none

/-- The state threaded through the relocation-rewrite phase of one output
object: its symbol table, its input-to-output symbol map, and the
cross-object globalisation schedule. -/
structure RewriteState where
  symbols : List ObjSymbol
  symIdxs : List (Option Nat)
  globalize : List (Nat × String)
deriving DecidableEq, Repr

/-- Rewrite one relocation (§4.4): substitute the mapped output index, or
append an external stub carrying name and demangled name only, scheduling
globalisation with name `"{name}_{address:08X}"` for local targets, and
running the `extabindex` diagnostic's split lookup (whose failure is the
`bail!`). -/
def rewriteReloc (obj : ObjInfo) (sectionName : String)
    (st : RewriteState) (reloc : ObjReloc) :
    Except SplitError (RewriteState × ObjReloc) :=
  match st.symIdxs.get? reloc.target_symbol with
  | none => .error .panicked
  | some (some outIdx) => .ok (st, { reloc with target_symbol := outIdx })
  | some none =>
    match obj.symbols.get? reloc.target_symbol with
    | none => .error .panicked
    | some targetSym =>
      let outSymIdx := st.symbols.length
      let st' : RewriteState :=
        { symbols := st.symbols ++
            [{ name := targetSym.name,
               demangled_name := targetSym.demangled_name }],
          symIdxs := st.symIdxs.set reloc.target_symbol (some outSymIdx),
          globalize :=
            if targetSym.flags.is_local then
              st.globalize ++ [(reloc.target_symbol,
                if strEndsWith targetSym.name
                    (hexUpperPadS 8 targetSym.address) then
                  targetSym.name
                else
                  targetSym.name ++ "_" ++ hexUpperPadS 8 targetSym.address)]
            else st.globalize }
      if sectionName == "extabindex" then
        match split_for obj (targetSym.address % U32) with
        | none => .error (.err "Bad extabindex relocation")
        | some _ => .ok (st', { reloc with target_symbol := outSymIdx })
      else .ok (st', { reloc with target_symbol := outSymIdx })

/-- Rewrite every relocation of one section in order. -/
def rewriteRelocsGo (obj : ObjInfo) (sectionName : String) :
    List ObjReloc → RewriteState →
    Except SplitError (List ObjReloc × RewriteState)
  | [], st => .ok ([], st)
  | r :: rs, st =>
    match rewriteReloc obj sectionName st r with
    | .error e => .error e
    | .ok sr =>
      match rewriteRelocsGo obj sectionName rs sr.1 with
      | .error e => .error e
      | .ok rss => .ok (sr.2 :: rss.1, rss.2)

/-- Rewrite every section's relocations of one output object in order. -/
def rewriteObjectGo (obj : ObjInfo) :
    List ObjSection → RewriteState →
    Except SplitError (List ObjSection × RewriteState)
  | [], st => .ok ([], st)
  | sec :: rest, st =>
    match rewriteRelocsGo obj sec.name sec.relocations st with
    | .error e => .error e
    | .ok rs =>
      match rewriteObjectGo obj rest rs.2 with
      | .error e => .error e
      | .ok rss => .ok ({ sec with relocations := rs.1 } :: rss.1, rss.2)

/-- The relocation-rewrite phase for one output object. -/
def rewriteObject (obj : ObjInfo) (file : ObjInfo)
    (symIdxs : List (Option Nat)) (globalize : List (Nat × String)) :
    Except SplitError (ObjInfo × List (Option Nat) × List (Nat × String)) :=
  match rewriteObjectGo obj file.sections
      { symbols := file.symbols, symIdxs := symIdxs,
        globalize := globalize } with
  | .error e => .error e
  | .ok ss =>
    .ok ({ file with sections := ss.1, symbols := ss.2.symbols },
      ss.2.symIdxs, ss.2.globalize)

/-- The relocation-rewrite phase over all output objects, accumulating the
globalisation schedule across objects. -/
def rewritePhase (obj : ObjInfo) :
    List (ObjInfo × List (Option Nat)) → List (Nat × String) →
    Except SplitError (List (ObjInfo × List (Option Nat)) × List (Nat × String))
  | [], globalize => .ok ([], globalize)
  | fm :: rest, globalize =>
    match rewriteObject obj fm.1 fm.2 globalize with
    | .error e => .error e
    | .ok r =>
      match rewritePhase obj rest r.2.2 with
      | .error e => .error e
      | .ok rr => .ok ((r.1, r.2.1) :: rr.1, rr.2)

/-- Rename a scheduled symbol and upgrade a Local scope to Global
(the body of the globalisation loop). -/
def globalizeSymbol (newName : String) (symbol : ObjSymbol) : ObjSymbol :=
  let s1 := { symbol with name := newName }
  if s1.flags.is_local then { s1 with flags := s1.flags.setScopeGlobal }
  else s1

/-- Apply the globalisation schedule to one output object: every scheduled
input index mapped in this object has its symbol renamed and, when Local,
upgraded to Global. -/
def applyGlobalizeObj (globalize : List (Nat × String)) (file : ObjInfo)
    (symIdxs : List (Option Nat)) : Except SplitError ObjInfo :=
  globalize.foldl (fun acc gp =>
    match acc with
    | .error e => .error e
    | .ok f =>
      match symIdxs.getD gp.1 none with
      | none => .ok f
      | some symbolIdx =>
        match f.symbols.get? symbolIdx with
        | none => .error .panicked
        | some symbol =>
          .ok { f with symbols :=
            f.symbols.set symbolIdx (globalizeSymbol gp.2 symbol) })
    (.ok file)

/-- Apply the globalisation schedule to every output object (the source
zips objects with their symbol maps; a zip stops at the shorter list). -/
def applyGlobalizeAll (globalize : List (Nat × String)) :
    List ObjInfo → List (List (Option Nat)) →
    Except SplitError (List ObjInfo)
  | [], _ => .ok []
  | fs, [] => .ok fs
  | f :: fs, m :: ms =>
    match applyGlobalizeObj globalize f m with
    | .error e => .error e
    | .ok f' =>
      match applyGlobalizeAll globalize fs ms with
      | .error e => .error e
      | .ok fs' => .ok (f' :: fs')

/-- Replace linker-generated defined symbols with external stubs (§4.5). -/
def externObject (file : ObjInfo) : ObjInfo :=
  ((file.symbols.enum.filter (fun p =>
      is_linker_generated_label p.2.name && p.2.sectionIdx.isSome)).map
    (fun p => (p.1, ({ name := p.2.name,
                       demangled_name := p.2.demangled_name } : ObjSymbol)))).foldl
    (fun f r => { f with symbols := f.symbols.set r.1 r.2 }) file

/-- Split an executable object into relocatable objects (`split_obj`). -/
def split_obj (obj : ObjInfo) : Except SplitError (List ObjInfo) :=
  if obj.kind ≠ ObjKind.Executable then
    .error (.err "Expected executable object")
  else
    match splitWalkSections obj 0 obj.sections (initCtx obj) with
    | .error e => .error e
    | .ok ctx =>
      match rewritePhase obj (ctx.objects.zip ctx.objectSymbols) [] with
      | .error e => .error e
      | .ok r =>
        match applyGlobalizeAll r.2 (r.1.map Prod.fst)
            (r.1.map Prod.snd) with
        | .error e => .error e
        | .ok objects2 => .ok (objects2.map externObject)

/-- The alignment rule in the claim's words: take the starting alignment;
if the address is not aligned to it, repeatedly halve down to a minimum of
4 until the address is aligned; fail if still unaligned there. -/
def alignSpec (cur : Nat) : Nat → Nat → Except SplitError Nat
  | 0, _ => .error (.err "Invalid alignment for split")
  | fuel + 1, align =>
    if cur % align = 0 then .ok align
    else if 4 < align then alignSpec cur fuel (align / 2)
    else .error (.err "Invalid alignment for split")

/-- Every relocation of every section targets a valid index of the
object's own symbol table. -/
def relocsValid (o : ObjInfo) : Prop :=
  ∀ s ∈ o.sections, ∀ r ∈ s.relocations, r.target_symbol < o.symbols.length

/-- Every mapped value of an input-to-output symbol map is a valid output
symbol index. -/
def MapValidL (m : List (Option Nat)) (n : Nat) : Prop :=
  ∀ i v, m.get? i = some (some v) → v < n

/-- Every output object of the bookkeeping has a valid symbol map. -/
def CtxValid (ctx : SplitCtx) : Prop :=
  ∀ k file m, ctx.objects.get? k = some file →
    ctx.objectSymbols.get? k = some m → MapValidL m file.symbols.length

/-- The `.text` section of the C4 counterexample. -/
def c4sec : ObjSection :=
  { name := ".text", kind := .Code, address := 0x8000ABC0, size := 0x20,
    data := List.replicate 0x20 0,
    relocations := [{ kind := .PpcRel24, address := 0x8000ABD4,
                      target_symbol := 0, addend := 0 }] }

/-- C4 counterexample image: a local symbol `priv` at `0x8000ABCD` defined
in unit `A` and referenced (via a relocation) from unit `B`. -/
def c4ex : ObjInfo :=
  { kind := .Executable
    sections := [c4sec]
    symbols := [{ name := "priv", address := 0x8000ABCD, sectionIdx := some 0,
                  size := 1, size_known := true,
                  flags := { isLocal := true }, kind := .Function }]
    splits := [(0x8000ABC0, { unit := "A", endAddr := 0x8000ABD0 }),
               (0x8000ABD0, { unit := "B", endAddr := 0x8000ABE0 })]
    link_order := [{ name := "A" }, { name := "B" }] }

/-- The `.data` section of the C5 witness. -/
def c5sec : ObjSection :=
  { name := ".data", kind := .Data, address := 0, size := 8,
    data := List.replicate 8 0,
    relocations := [{ kind := .Absolute, address := 4,
                      target_symbol := 0, addend := 0 }] }

/-- C5 witness image: one unit, one data section with one relocation. -/
def c5ex : ObjInfo :=
  { kind := .Executable
    sections := [c5sec]
    symbols := [{ name := "x", address := 0, sectionIdx := some 0,
                  size := 4, size_known := true,
                  flags := { isGlobal := true }, kind := .Object }]
    splits := [(0, { unit := "A", endAddr := 8 })]
    link_order := [{ name := "A" }] }

/-- The relocation of the C5 witness's output object. -/
def c5orel : ObjReloc :=
  { kind := .Absolute, address := 4, target_symbol := 0, addend := 0 }

/-- The section of the C5 witness's output object. -/
def c5osec : ObjSection :=
  { name := ".data", kind := .Data, address := 0, size := 8,
    data := List.replicate 8 0, align := 8, index := 0, elf_index := 1,
    relocations := [c5orel] }

/-- The output object `split_obj` produces for `c5ex`. -/
def c5out : ObjInfo :=
  { kind := .Relocatable, name := "A", sections := [c5osec],
    symbols := [{ name := "x", address := 0, sectionIdx := some 0,
                  size := 4, size_known := true,
                  flags := { isGlobal := true }, kind := .Object }] }

/-- The section of the C6 witness. -/
def c6sec : ObjSection :=
  { name := ".data", kind := .Data, address := 0, size := 8 }

/-- The link order resolved for `c2ex`. -/
def c2order : List ObjUnit := [{ name := "A" }, { name := "B" }]

/-- The symbol of the C4 amended-theorem witness: a Local-scoped symbol. -/
def c4wsym : ObjSymbol :=
  { name := "p", flags := { isLocal := true } }

/-- The input object of the C4 amended-theorem witness. -/
def c4wfile : ObjInfo :=
  { kind := .Relocatable, symbols := [c4wsym] }

/-- The output object of the C4 amended-theorem witness: the single symbol
renamed to `g` and scoped Global. -/
def c4wfile2 : ObjInfo :=
  { kind := .Relocatable, symbols := [globalizeSymbol "g" c4wsym] }

/-- The ASCII whitespace class of the regex escape `\\s`. -/
def isWsChar (c : Char) : Bool :=
  c == ' ' || c == '\t' || c == '\n' || c == '\x0d' ||
    c == '\x0b' || c == '\x0c'

/-- `s.trim_start_matches("0x")`: repeatedly strip a leading `0x`. -/
def stripHex0x : List Char → List Char
  | c1 :: c2 :: rest =>
    if c1 = '0' ∧ c2 = 'x' then stripHex0x rest else c1 :: c2 :: rest
  | cs => cs

/-- The numeric value of one hex digit (`u32::from_str_radix(_, 16)`
accepts both cases). -/
def hexVal (c : Char) : Option Nat :=
  if '0' ≤ c ∧ c ≤ '9' then some (c.toNat - 48)
  else if 'A' ≤ c ∧ c ≤ 'F' then some (c.toNat - 55)
  else if 'a' ≤ c ∧ c ≤ 'f' then some (c.toNat - 87)
  else none

/-- Accumulate hex digits most-significant first; `none` on a non-digit. -/
def parseHexGo : List Char → Nat → Option Nat
  | [], acc => some acc
  | c :: rest, acc =>
    match hexVal c with
    | none => none
    | some d => parseHexGo rest (acc * 16 + d)

/-- `from_str_radix` accepts one leading `+` sign. -/
def parseHexSign (cs : List Char) : List Char :=
  if cs.head? = some '+' then cs.tail else cs

/-- Read hex digits; empty digits, a bad digit or a value over `u32::MAX`
is an error (`none`). -/
def parseHexCore (cs1 : List Char) : Option Nat :=
  if cs1.isEmpty then none
  else (parseHexGo cs1 0).bind (fun v => if v < U32 then some v else none)

/-- `parse_hex`: strip leading `0x` repetitions, allow one `+` sign, then
read bounded hex digits. -/
def parse_hex (s : String) : Option Nat :=
  parseHexCore (parseHexSign (stripHex0x s.data))

/-- The decimal value of one digit. -/
def decVal (c : Char) : Option Nat :=
  if '0' ≤ c ∧ c ≤ '9' then some (c.toNat - 48) else none

/-- Accumulate decimal digits most-significant first. -/
def parseDecGo : List Char → Nat → Option Nat
  | [], acc => some acc
  | c :: rest, acc =>
    match decVal c with
    | none => none
    | some d => parseDecGo rest (acc * 10 + d)

/-- `u32::from_str`: optional `+` sign then decimal digits, bounded by
`u32::MAX`. -/
def parseU32Dec (s : String) : Option Nat :=
  let cs1 := if s.data.head? = some '+' then s.data.tail else s.data
  if cs1.isEmpty then none
  else
    match parseDecGo cs1 0 with
    | none => none
    | some v => if v < U32 then some v else none

/-- `COMMENT_LINE` (`^\\s*(?://|#).*$`): after leading whitespace the line
starts with `//` or `#`. -/
def commentLineB (cs : List Char) : Bool :=
  match cs.dropWhile isWsChar with
  | '/' :: '/' :: _ => true
  | '#' :: _ => true
  | _ => false

/-- `UNIT_LINE` (`^\\s*(?P<name>[^\\s:]+)\\s*:\\s*$`): the name is the
maximal run outside whitespace and `:` (shrinking it cannot recover a
match, so maximal munch is exact), then whitespace, `:`, whitespace,
end. -/
def unitLineParse (cs : List Char) : Option String :=
  let cs1 := cs.dropWhile isWsChar
  let name := cs1.takeWhile (fun c => !(isWsChar c) && c != ':')
  if name.isEmpty then none
  else
    match (cs1.drop name.length).dropWhile isWsChar with
    | ':' :: rest2 =>
      if ((rest2.dropWhile isWsChar).isEmpty : Bool) then
        some (String.mk name)
      else none
    | _ => none

/-- `SECTION_LINE` (`^\\s*(?P<name>\\S+)\\s*(?P<attrs>.*)$`): the name is
the maximal non-whitespace run, the attrs the rest after the following
whitespace (the greedy `\\s*` takes every consecutive whitespace). -/
def sectionLineSplit (cs : List Char) : Option (String × String) :=
  let cs1 := cs.dropWhile isWsChar
  let name := cs1.takeWhile (fun c => !(isWsChar c))
  if name.isEmpty then none
  else some (String.mk name,
    String.mk ((cs1.drop name.length).dropWhile isWsChar))

/-- `str::split(' ')`: split at every single space, keeping empty
pieces (`"".split(' ')` is `[""]`). -/
def splitSpaces : List Char → List (List Char)
  | [] => [[]]
  | c :: rest =>
    if c = ' ' then [] :: splitSpaces rest
    else
      match splitSpaces rest with
      | p :: ps => (c :: p) :: ps
      | [] => [[c]]

/-- `str::split(' ')` on a `String`. -/
def splitOnSpaceS (s : String) : List String :=
  (splitSpaces s.data).map String.mk

/-- `str::split_once(':')`: split at the first `:`. -/
def splitOnceColon (s : String) : Option (String × String) :=
  let pre := s.data.takeWhile (fun c => c != ':')
  if pre.length = s.data.length then none
  else some (String.mk pre, String.mk (s.data.drop (pre.length + 1)))

/-- A split record of the older `config.rs` (`ObjSplit` there has no
`autogenerated`); `endAddr` embeds the source field `end`. -/
structure CSplit where
  unit : String
  endAddr : Nat
  align : Option Nat := none
  common : Bool := false
deriving DecidableEq, Repr

/-- The slice of `ObjInfo` that `write_splits`/`apply_splits` touch in the
older `config.rs`: `link_order` is a plain unit-name list there; `splits`
embeds the nested `BTreeMap<u32, Vec<ObjSplit>>` flattened in key order
(push order within one key). -/
structure CObj where
  sections : List ObjSection := []
  splits : List (Nat × CSplit) := []
  link_order : List String := []
  named_sections : List (Nat × String) := []
deriving DecidableEq, Repr

/-- One parsed splits-file line (`SplitLine`). -/
inductive CSplitLine where
  | unitLine (name : String)
  | secLine (name : String) (start endv : Nat) (align : Option Nat)
      (common : Bool)
  | noneLine
deriving DecidableEq, Repr

/-- The attribute loop of `parse_split_line`, over the state
`(name, start, end, align, common)`. -/
def parseSectionAttrs :
    List String → String × Option Nat × Option Nat × Option Nat × Bool →
    Except String (String × Option Nat × Option Nat × Option Nat × Bool)
  | [], st => .ok st
  | attr :: rest, (name, s?, e?, a?, common) =>
    match splitOnceColon attr with
    | some (k, v) =>
      if k = "start" then
        match parse_hex v with
        | none => .error "ParseIntError"
        | some n => parseSectionAttrs rest (name, some n, e?, a?, common)
      else if k = "end" then
        match parse_hex v with
        | none => .error "ParseIntError"
        | some n => parseSectionAttrs rest (name, s?, some n, a?, common)
      else if k = "align" then
        match parseU32Dec v with
        | none => .error "ParseIntError"
        | some n => parseSectionAttrs rest (name, s?, e?, some n, common)
      else if k = "rename" then
        parseSectionAttrs rest (v, s?, e?, a?, common)
      else .error "Unknown split attribute"
    | none =>
      if attr = "common" then
        parseSectionAttrs rest
          (name, s?, e?, (if a?.isNone then some 4 else a?), true)
      else .error "Unknown split attribute"

/-- `parse_split_line`: empty and comment lines are `None`; then try the
unit form, then the section form with its attribute loop, requiring both
`start` and `end`. -/
def parse_split_line (line : String) : Except String CSplitLine :=
  if line = "" then .ok .noneLine
  else if commentLineB line.data then .ok .noneLine
  else
    match unitLineParse line.data with
    | some name => .ok (.unitLine name)
    | none =>
      match sectionLineSplit line.data with
      | some (name, attrs) =>
        match parseSectionAttrs (splitOnSpaceS attrs)
            (name, none, none, none, false) with
        | .error e => .error e
        | .ok (n, some s, some e, a, c) => .ok (.secLine n s e a c)
        | .ok (_, none, _, _, _) => .error "Missing split attribute"
        | .ok (_, some _, none, _, _) => .error "Missing split attribute"
      | none => .error "Failed to parse split line"

/-- `splits.nested_push(start, split)` flattened: insert in key order,
after any entries sharing the key. -/
def cInsertSplit : List (Nat × CSplit) → Nat → CSplit →
    List (Nat × CSplit)
  | [], k, v => [(k, v)]
  | (k0, v0) :: rest, k, v =>
    if k < k0 then (k, v) :: (k0, v0) :: rest
    else (k0, v0) :: cInsertSplit rest k v

/-- `named_sections.insert(start, name)`: `BTreeMap` insert, overwriting
the key's previous value. -/
def cInsertNamed : List (Nat × String) → Nat → String →
    List (Nat × String)
  | [], k, v => [(k, v)]
  | (k0, v0) :: rest, k, v =>
    if k < k0 then (k, v) :: (k0, v0) :: rest
    else if k = k0 then (k, v) :: rest
    else (k0, v0) :: cInsertNamed rest k v

/-- The parser state of `apply_splits` (`SplitState`). -/
inductive CSplitState where
  | none
  | unit (name : String)
deriving DecidableEq, Repr

/-- The line loop of `apply_splits`: a unit line pushes the unit and opens
it; a section line inside a unit pushes the split and names the section; a
section line outside any unit fails; `None` lines are skipped. -/
def applyLines : List String → CSplitState → CObj → Except String CObj
  | [], _, obj => .ok obj
  | l :: ls, st, obj =>
    match parse_split_line l with
    | .error e => .error e
    | .ok sl =>
      match st, sl with
      | _, .unitLine name =>
        applyLines ls (.unit name)
          { obj with link_order := obj.link_order ++ [name] }
      | .none, .secLine _ _ _ _ _ =>
        .error "Section defined outside of unit"
      | .unit u, .secLine n s e a c =>
        applyLines ls (.unit u)
          { obj with
            splits := cInsertSplit obj.splits s
              { unit := u, endAddr := e, align := a, common := c },
            named_sections := cInsertNamed obj.named_sections s n }
      | _, .noneLine => applyLines ls st obj

/-- `apply_splits` starts with no open unit. -/
def apply_splits (lines : List String) (obj : CObj) :
    Except String CObj :=
  applyLines lines .none obj

/-- `{:<11}`: left-align, pad with spaces to at least 11 characters. -/
def padTo11 (s : String) : String :=
  s ++ String.mk (List.replicate (11 - s.data.length) ' ')

/-- `{:#010X}` for a `u32`: `0x` then 8 zero-padded uppercase hex
digits. -/
def hex08 (n : Nat) : String := "0x" ++ hexUpperPadS 8 n

/-- Modelled from the spec: `obj.section_at(addr)` of the older
`config.rs` — the section containing the address (its failure is the
`?` on `section_at`). -/
def csection_at (obj : CObj) (addr : Nat) : Option ObjSection :=
  obj.sections.find? (fun s =>
    decide (s.address ≤ addr) && decide (addr < s.address + s.size))

/-- The per-unit body of `write_splits`: walk the whole split iterator,
emit the unit's splits; `end` is the split's own end if positive, else the
peeked next start (over the whole iterator) or 0. -/
def writeUnitLines (obj : CObj) (unit : String) :
    List (Nat × CSplit) → Except String (List String)
  | [] => .ok []
  | (addr, split) :: rest =>
    if split.unit == unit then
      match csection_at obj addr with
      | none => .error "section_at"
      | some sec =>
        match writeUnitLines obj unit rest with
        | .error e => .error e
        | .ok ls =>
          .ok (("\t" ++ padTo11 sec.name ++ " start:" ++ hex08 addr ++
            " end:" ++ hex08 (if 0 < split.endAddr then split.endAddr
              else match rest with
                | (a, _) :: _ => a
                | [] => 0)) :: ls)
    else writeUnitLines obj unit rest

/-- `write_splits`: per link-order unit, the `unit:` line, the unit's
section lines, and a blank line. -/
def write_splits (obj : CObj) : List String → Except String (List String)
  | [] => .ok []
  | u :: us =>
    match writeUnitLines obj u obj.splits with
    | .error e => .error e
    | .ok ls =>
      match write_splits obj us with
      | .error e => .error e
      | .ok ls2 => .ok (((u ++ ":") :: ls ++ [""]) ++ ls2)

/-- What a written split record reads back as: the same start key, the
unit, the materialised end (the split's own end if positive, else the next
start in the whole map, else 0) — and `align := none`, `common := false`,
since `write_splits` never emits those attributes. -/
def cExpected : List (Nat × CSplit) → List (Nat × CSplit)
  | [] => []
  | (a, s) :: rest =>
    (a, { unit := s.unit,
          endAddr := if 0 < s.endAddr then s.endAddr
            else match rest with
              | (b, _) :: _ => b
              | [] => 0,
          align := none, common := false }) :: cExpected rest

/-- The named-section records a written file reads back: every split start
mapped to its containing section's name. -/
def cExpectedNamed (obj : CObj) : List (Nat × CSplit) →
    List (Nat × String)
  | [] => []
  | (a, _) :: rest =>
    (a, (((csection_at obj a).map (fun s => s.name)).getD "")) ::
      cExpectedNamed obj rest

/-- A well-formed unit name: non-empty, free of whitespace and `:`, and
not opening a comment — exactly what makes its written line parse back as
the same unit. -/
def unitNameWF (u : String) : Prop :=
  u.data ≠ [] ∧ (∀ c ∈ u.data, isWsChar c = false ∧ c ≠ ':') ∧
  commentLineB u.data = false

instance (u : String) : Decidable (unitNameWF u) := by
  unfold unitNameWF
  exact inferInstanceAs (Decidable (_ ∧ _ ∧ _))

/-- A well-formed section name: non-empty, free of whitespace, and not
opening a comment. -/
def secNameWF (n : String) : Prop :=
  n.data ≠ [] ∧ (∀ c ∈ n.data, isWsChar c = false ∧ c ≠ ':') ∧
  commentLineB n.data = false

instance (n : String) : Decidable (secNameWF n) := by
  unfold secNameWF
  exact inferInstanceAs (Decidable (_ ∧ _ ∧ _))

/-- The C3 counterexample image: one unit, one split carrying an `align`,
`common = true` and a renamed section. -/
def c3ex : CObj :=
  { sections := [{ name := ".data", kind := .Data, address := 0,
                   size := 8 }],
    splits := [(0, { unit := "A", endAddr := 8, align := some 8,
                     common := true })],
    link_order := ["A"],
    named_sections := [(0, "custom")] }

/-- The lines `write_splits` emits for `c3ex`. -/
def c3lines : List String :=
  ["A:", "\t.data       start:0x00000000 end:0x00000008", ""]

/-- What reading `c3lines` back into an empty image yields. -/
def c3rt : CObj :=
  { sections := [],
    splits := [(0, { unit := "A", endAddr := 8, align := none,
                     common := false })],
    link_order := ["A"],
    named_sections := [(0, ".data")] }

/-- The combined read-back record of one split: its start key, the split
record it reads back as, and the named-section entry it produces. -/
def czip (obj : CObj) : List (Nat × CSplit) → List (Nat × (CSplit × String))
  | [] => []
  | (a, s) :: rest =>
    (a, ({ unit := s.unit,
           endAddr := if 0 < s.endAddr then s.endAddr
             else match rest with
               | (b, _) :: _ => b
               | [] => 0,
           align := none, common := false },
         ((csection_at obj a).map (fun sec => sec.name)).getD "")) ::
      czip obj rest

/-- Replay a list of combined records into the split and named-section
maps. -/
def applyRecs : CObj → List (Nat × (CSplit × String)) → CObj
  | acc, [] => acc
  | acc, (k, v) :: rest =>
    applyRecs { acc with
      splits := cInsertSplit acc.splits k v.1,
      named_sections := cInsertNamed acc.named_sections k v.2 } rest

/-- Replay the whole splits file: per unit, append it to the link order
and replay its combined records. -/
def applyUnits (obj : CObj) : CObj → List String → CObj
  | acc, [] => acc
  | acc, u :: us =>
    applyUnits obj
      (applyRecs { acc with link_order := acc.link_order ++ [u] }
        ((czip obj obj.splits).filter (fun r => r.2.1.unit == u))) us

/-- The character class `[^\\s=]` of the symbol name capture in
`SYMBOL_LINE`. -/
def isSymNameChar (c : Char) : Bool :=
  !(isWsChar c) && c != '='

/-- The character class `[A-Za-z0-9.]` of the optional section capture. -/
def isSymSectChar (c : Char) : Bool :=
  (decide ('A' <= c) && decide (c <= 'Z')) ||
    (decide ('a' <= c) && decide (c <= 'z')) ||
    (decide ('0' <= c) && decide (c <= '9')) || c == '.'

/-- The character class `[0-9A-Fa-fXx]` of the addr capture. -/
def isSymAddrChar (c : Char) : Bool :=
  (decide ('0' <= c) && decide (c <= '9')) ||
    (decide ('A' <= c) && decide (c <= 'F')) ||
    (decide ('a' <= c) && decide (c <= 'f')) || c == 'X' || c == 'x'

/-- The trailer after the `;`: `(?:\\s*//\\s*(?P<attrs>.*))?$`.
`some none` is a match with the optional group absent (only possible on an
empty rest), `some (some a)` a match with attrs text `a`, `none` a failed
line.  Both greedy `\\s*` runs are exact: backtracking to a shorter run
leaves a whitespace character where `/` (or the end) is required, and
`.*$` always accepts the remainder after the maximal second run. -/
def symAttrsTail : List Char → Option (Option String)
  | [] => some none
  | cs =>
    match cs.dropWhile isWsChar with
    | '/' :: '/' :: cs2 => some (some (String.mk (cs2.dropWhile isWsChar)))
    | _ => none

/-- The addr capture and the following `;`: the maximal `[0-9A-Fa-fXx]+`
run (exact, since the required `;` is outside the class) then `;`,
returning the digits and the rest of the line. -/
def symAddrMatch (cs : List Char) : Option (String × List Char) :=
  let run := cs.takeWhile isSymAddrChar
  if run.isEmpty then none
  else
    match cs.drop run.length with
    | ';' :: rest => some (String.mk run, rest)
    | _ => none

/-- The part after `name\\s*=\\s*`: first the greedy optional section
group — its `:` can only sit after the maximal `[A-Za-z0-9.]+` run, since
a shorter run is followed by another class character — and if that
commitment fails further right the engine falls back to matching with the
group absent; then addr, `;` and the attrs trailer. -/
def symTailMatch (cs : List Char) :
    Option (Option String × String × Option String) :=
  let srun := cs.takeWhile isSymSectChar
  let withSect : Option (Option String × String × Option String) :=
    if srun.isEmpty then none
    else
      match cs.drop srun.length with
      | ':' :: rest =>
        match symAddrMatch rest with
        | some (addr, rest2) =>
          match symAttrsTail rest2 with
          | some attrs => some (some (String.mk srun), addr, attrs)
          | none => none
        | none => none
      | _ => none
  match withSect with
  | some r => some r
  | none =>
    match symAddrMatch cs with
    | some (addr, rest2) =>
      match symAttrsTail rest2 with
      | some attrs => some (none, addr, attrs)
      | none => none
    | none => none

/-- `SYMBOL_LINE`
(`^\\s*(?P<name>[^\\s=]+)\\s*=\\s*(?:(?P<section>[A-Za-z0-9.]+):)?(?P<addr>[0-9A-Fa-fXx]+);(?:\\s*//\\s*(?P<attrs>.*))?$`):
leading whitespace, the maximal name run (exact: a shorter run is followed
by a name character where whitespace or `=` is required), `\\s*=\\s*`,
then the tail.  Returns `(name, section?, addr, attrs?)` with the optional
captures marked by participation. -/
def symbolLineMatch (cs : List Char) :
    Option (String × Option String × String × Option String) :=
  let cs1 := cs.dropWhile isWsChar
  let name := cs1.takeWhile isSymNameChar
  if name.isEmpty then none
  else
    match (cs1.drop name.length).dropWhile isWsChar with
    | '=' :: rest2 =>
      match symTailMatch (rest2.dropWhile isWsChar) with
      | some (sect, addr, attrs) => some (String.mk name, sect, addr, attrs)
      | none => none
    | _ => none

/-- The outcome of `parse_symbol_line`: a parsed symbol, `Ok(None)` for a
comment line, a returned error, or a Rust panic. -/
inductive SymLineOutcome where
  | parsed (sym : ObjSymbol)
  | noSymbol
  | errored (msg : String)
  | panicked
deriving DecidableEq, Repr

/-- `symbol_kind_from_str`. -/
def symbol_kind_from_str (s : String) : Option ObjSymbolKind :=
  if s = "label" then some .Unknown
  else if s = "function" then some .Function
  else if s = "object" then some .Object
  else if s = "section" then some .Section
  else none

/-- A single `ObjSymbolFlags` scope flag, as named by `scope:` values. -/
inductive CScopeFlag where
  | common
  | weak
  | global
  | local
deriving DecidableEq, Repr

/-- `symbol_flags_from_str`. -/
def symbol_flags_from_str (s : String) : Option CScopeFlag :=
  if s = "common" then some .common
  else if s = "weak" then some .weak
  else if s = "global" then some .global
  else if s = "local" then some .local
  else none

/-- `flags.0 |= flag`: set the named bit of the flag set. -/
def orScopeFlag (f : ObjSymbolFlagSet) : CScopeFlag → ObjSymbolFlagSet
  | .common => { f with isCommon := true }
  | .weak => { f with isWeak := true }
  | .global => { f with isGlobal := true }
  | .local => { f with isLocal := true }

/-- `symbol_data_kind_from_str` (`ObjDataKind::String` is embedded as
`DString`). -/
def symbol_data_kind_from_str (s : String) : Option ObjDataKind :=
  if s = "byte" then some .Byte
  else if s = "2byte" then some .Byte2
  else if s = "4byte" then some .Byte4
  else if s = "8byte" then some .Byte8
  else if s = "float" then some .Float
  else if s = "double" then some .Double
  else if s = "string" then some .DString
  else if s = "wstring" then some .String16
  else if s = "string_table" then some .StringTable
  else if s = "wstring_table" then some .String16Table
  else none

/-- `blocked_ranges.insert(addr, end)`: `BTreeMap` insert, overwriting the
key's previous value. -/
def bInsertRange : List (Nat × Nat) → Nat → Nat → List (Nat × Nat)
  | [], k, v => [(k, v)]
  | (k0, v0) :: rest, k, v =>
    if k < k0 then (k, v) :: (k0, v0) :: rest
    else if k = k0 then (k, v) :: rest
    else (k0, v0) :: bInsertRange rest k v

/-- The attribute loop of `parse_symbol_line`: each space-separated
attribute is a `key:value` pair (`type`/`size`/`scope`/`align`/`data`) or
a plain flag (`hidden`/`noreloc`); an unknown key, a bad value, or
`noreloc` with size 0 is a returned error.  The image is threaded through
(and kept on error), since `noreloc` mutates `obj.blocked_ranges` through
the `&mut` borrow before any later failure. -/
def parseSymbolAttrs (addr : Nat) :
    List String → ObjSymbol → ObjInfo → Except String ObjSymbol × ObjInfo
  | [], sym, obj => (.ok sym, obj)
  | attr :: rest, sym, obj =>
    match splitOnceColon attr with
    | some (k, v) =>
      if k = "type" then
        match symbol_kind_from_str v with
        | some kk => parseSymbolAttrs addr rest { sym with kind := kk } obj
        | none => (.error ("Unknown symbol type " ++ v), obj)
      else if k = "size" then
        match parse_hex v with
        | some n =>
          parseSymbolAttrs addr rest
            { sym with size := n, size_known := true } obj
        | none => (.error "ParseIntError", obj)
      else if k = "scope" then
        match symbol_flags_from_str v with
        | some fl =>
          parseSymbolAttrs addr rest
            { sym with flags := orScopeFlag sym.flags fl } obj
        | none => (.error ("Unknown symbol scope " ++ v), obj)
      else if k = "align" then
        match parse_hex v with
        | some n => parseSymbolAttrs addr rest { sym with align := some n } obj
        | none => (.error "ParseIntError", obj)
      else if k = "data" then
        match symbol_data_kind_from_str v with
        | some dk =>
          parseSymbolAttrs addr rest { sym with data_kind := dk } obj
        | none => (.error ("Unknown symbol data type " ++ v), obj)
      else (.error ("Unknown symbol attribute " ++ k), obj)
    | none =>
      if attr = "hidden" then
        parseSymbolAttrs addr rest
          { sym with flags := { sym.flags with isHidden := true } } obj
      else if attr = "noreloc" then
        if sym.size = 0 then
          (.error ("Symbol " ++ sym.name ++ " requires size != 0 with noreloc"),
            obj)
        else
          parseSymbolAttrs addr rest sym
            { obj with blocked_ranges :=
                (bInsertRange obj.blocked_ranges addr
                  ((addr + sym.size % U32) % U32)) }
      else (.error ("Unknown symbol attribute " ++ attr), obj)

/-- `parse_symbol_line`: match `SYMBOL_LINE`; on a match, parse the
address (a bad address is a returned error through `?`), build the symbol
— demangling comes from the external `cwdemangle` crate, taken here as the
parameter `dem` — then index the `attrs` capture: when the optional group
did not participate, the Rust indexing `captures["attrs"]` panics; with it
present, split on single spaces and run the attribute loop.  On no match,
a `COMMENT_LINE` yields `Ok(None)` and anything else the line error. -/
def parse_symbol_line (dem : String → Option String) (line : String)
    (obj : ObjInfo) : SymLineOutcome × ObjInfo :=
  match symbolLineMatch line.data with
  | some (name, _sect, addrS, attrs) =>
    match parse_hex addrS with
    | none => (.errored "ParseIntError", obj)
    | some addr =>
      let sym0 : ObjSymbol :=
        { name := name, demangled_name := dem name, address := addr,
          sectionIdx := (section_at obj addr).map (fun s => s.index),
          size := 0, size_known := false, flags := {},
          kind := .Unknown, align := none, data_kind := .Unknown }
      match attrs with
      | none => (.panicked, obj)
      | some a =>
        match parseSymbolAttrs addr (splitOnSpaceS a) sym0 obj with
        | (.ok sym, obj2) => (.parsed sym, obj2)
        | (.error e, obj2) => (.errored e, obj2)
  | none =>
    if commentLineB line.data then (.noSymbol, obj)
    else (.errored ("Failed to parse symbol line " ++ line), obj)

/-- An empty executable image, exercising `parse_symbol_line`. -/
def c9obj : ObjInfo :=
  { kind := .Executable }

/-- In a strictly key-sorted list, every entry before the first one found by
`find?` fails the predicate; here specialised to keys below the found key. -/
theorem find?_sorted_below (p : Nat × ObjSplit → Bool) :
    ∀ (l : List (Nat × ObjSplit)), l.Pairwise (fun a b => a.1 < b.1) →
      ∀ a, l.find? p = some a → ∀ x ∈ l, x.1 < a.1 → p x = false := by
  intro l
  induction l with
  | nil => intro _ a h; simp at h
  | cons q rest ih =>
    intro hsort a hfind x hx hlt
    rw [List.pairwise_cons] at hsort
    obtain ⟨hq, hrest⟩ := hsort
    rw [List.mem_cons] at hx
    rw [List.find?_cons] at hfind
    by_cases hpq : p q = true
    · rw [hpq] at hfind
      injection hfind with h
      subst h
      rcases hx with hx | hx
      · subst hx; omega
      · exact absurd hlt (by have := hq x hx; omega)
    · rw [Bool.not_eq_true] at hpq
      rw [hpq] at hfind
      rcases hx with hx | hx
      · subst hx; exact hpq
      · exact ih hrest a hfind x hx hlt

/-- Membership in a filtered split list. -/
theorem mem_splits_for_range {obj : ObjInfo} {lo hi : Nat}
    {x : Nat × ObjSplit} :
    x ∈ splits_for_range obj lo hi ↔ x ∈ obj.splits ∧ lo ≤ x.1 ∧ x.1 < hi := by
  unfold splits_for_range
  rw [List.mem_filter]
  simp [and_assoc]

/-- C7: after the common-BSS pass, with `c` the start of the first common
`.bss` split, (1) every split starting in `[c, bss_end)` is common, (2)
splits starting outside `[c, bss_end)` — in particular those before the
first common split — are exactly the original ones, and (3) the common
`.bss` splits form an upper-closed suffix of the `.bss` splits. -/
theorem c7_update_common_splits (obj : ObjInfo) (bss : ObjSection)
    (c : Nat) (s0 : ObjSplit)
    (hsort : SplitsSorted obj.splits)
    (hbss : obj.sections.find? (fun s => s.name == ".bss") = some bss)
    (hfind : (splits_for_range obj (secStart bss) (secEnd bss)).find?
        (fun p => p.2.common) = some (c, s0)) :
    (∀ p ∈ (update_common_splits obj).splits,
        c ≤ p.1 → p.1 < secEnd bss → p.2.common = true) ∧
    (∀ p : Nat × ObjSplit, (p.1 < c ∨ secEnd bss ≤ p.1) →
        (p ∈ (update_common_splits obj).splits ↔ p ∈ obj.splits)) ∧
    (∀ p q : Nat × ObjSplit,
        p ∈ (update_common_splits obj).splits →
        q ∈ (update_common_splits obj).splits →
        secStart bss ≤ p.1 → p.1 < secEnd bss →
        secStart bss ≤ q.1 → q.1 < secEnd bss →
        p.2.common = true → p.1 ≤ q.1 → q.2.common = true) := by
  have hres : (update_common_splits obj).splits = obj.splits.map (fun p =>
      if c ≤ p.1 ∧ p.1 < secEnd bss then (p.1, { p.2 with common := true })
      else p) := by
    unfold update_common_splits
    simp only [hbss, hfind]
  have h1 : ∀ p ∈ (update_common_splits obj).splits,
      c ≤ p.1 → p.1 < secEnd bss → p.2.common = true := by
    intro p hp hcle hlt
    rw [hres, List.mem_map] at hp
    obtain ⟨q, hq, hmap⟩ := hp
    by_cases hcond : c ≤ q.1 ∧ q.1 < secEnd bss
    · rw [if_pos hcond] at hmap
      rw [← hmap]
    · rw [if_neg hcond] at hmap
      subst hmap
      exact absurd ⟨hcle, hlt⟩ hcond
  have h2 : ∀ p : Nat × ObjSplit, (p.1 < c ∨ secEnd bss ≤ p.1) →
      (p ∈ (update_common_splits obj).splits ↔ p ∈ obj.splits) := by
    intro p hout
    rw [hres, List.mem_map]
    constructor
    · rintro ⟨q, hq, hmap⟩
      by_cases hcond : c ≤ q.1 ∧ q.1 < secEnd bss
      · rw [if_pos hcond] at hmap
        have : p.1 = q.1 := by rw [← hmap]
        omega
      · rw [if_neg hcond] at hmap; subst hmap; exact hq
    · intro hp
      refine ⟨p, hp, ?_⟩
      rw [if_neg (by omega)]
  refine ⟨h1, h2, ?_⟩
  intro p q hp hq hplo hphi hqlo hqhi hpc hpq
  by_cases hcp : c ≤ p.1
  · exact h1 q hq (le_trans hcp hpq) hqhi
  · exfalso
    push_neg at hcp
    have hpmem : p ∈ obj.splits := (h2 p (Or.inl hcp)).mp hp
    have hpr : p ∈ splits_for_range obj (secStart bss) (secEnd bss) :=
      mem_splits_for_range.mpr ⟨hpmem, hplo, hphi⟩
    have hsorted' : (splits_for_range obj (secStart bss) (secEnd bss)).Pairwise
        (fun a b => a.1 < b.1) := List.Pairwise.filter _ hsort
    have hthis : p.2.common = false :=
      find?_sorted_below (fun p => p.2.common) _ hsorted' (c, s0) hfind
        p hpr hcp
    rw [hpc] at hthis
    exact Bool.noConfusion hthis

/-- C7 witness: the theorem applied to `c7ex` at the concrete split
starting at `8`, which the pass marks common. -/
theorem c7_update_common_splits_witness :
    ((8 : Nat), ({ unit := "c", endAddr := 12, common := true } : ObjSplit)) ∈
      (update_common_splits c7ex).splits ∧
    (((8 : Nat),
        ({ unit := "c", endAddr := 12, common := true } : ObjSplit))).2.common
      = true :=
  ⟨by decide,
    (c7_update_common_splits c7ex c7bss
      4 { unit := "b", endAddr := 8, common := true }
      (by decide) (by decide) (by decide)).1
      (8, { unit := "c", endAddr := 12, common := true })
      (by decide) (by decide) (by decide)⟩

/-- Unfolding lemma for one non-zero-fuel step of `gapWalk`. -/
theorem gapWalk_succ (syms : List ObjSymbol) (sectionIdx : Nat)
    (sectionName : String) (sectionEnd fuel cur : Nat)
    (splits : List (Nat × ObjSplit)) :
    gapWalk syms sectionIdx sectionName sectionEnd (fuel + 1) cur splits =
    (if sectionEnd ≤ cur then .ok []
    else
      if nextSplitStart splits sectionEnd < cur then
        .error (.err "Split overlaps with previous split")
      else if cur < nextSplitStart splits sectionEnd then
        match gapSplitEnd sectionIdx (nextSplitStart splits sectionEnd)
            (symbols_for_range syms cur (nextSplitStart splits sectionEnd)) [] with
        | .error e => .error e
        | .ok newSplitEnd =>
          match gapWalk syms sectionIdx sectionName sectionEnd fuel
              newSplitEnd splits with
          | .error e => .error e
          | .ok ns =>
            .ok ((cur, { unit := gapUnitName cur sectionName,
                         endAddr := newSplitEnd, align := none,
                         common := false, autogenerated := true }) :: ns)
      else
        match splits with
        | [] => gapWalk syms sectionIdx sectionName sectionEnd fuel
            sectionEnd []
        | (_, s) :: rest =>
          gapWalk syms sectionIdx sectionName sectionEnd fuel
            (effEnd sectionEnd s rest) rest) := rfl

/-- C8: in the gap-filling walk, when the duplicate-symbol scan of the gap
`[cur, splitStart)` truncates at address `d` with `cur < d < splitStart`
(which happens exactly when two symbols in the gap share a name, `d` being
the second occurrence's address), the created gap split is `[cur, d)` and
the next iteration creates a further gap split starting at `d`. -/
theorem c8_gap_truncated_at_duplicate
    (syms : List ObjSymbol) (sectionIdx : Nat) (sectionName : String)
    (sectionEnd fuel cur d : Nat) (splits : List (Nat × ObjSplit))
    (ns : List (Nat × ObjSplit))
    (hok : gapWalk syms sectionIdx sectionName sectionEnd (fuel + 1) cur
        splits = .ok ns)
    (hcur : cur < sectionEnd)
    (hss : nextSplitStart splits sectionEnd ≤ sectionEnd)
    (hdup : gapSplitEnd sectionIdx (nextSplitStart splits sectionEnd)
        (symbols_for_range syms cur (nextSplitStart splits sectionEnd)) []
        = .ok d)
    (hlt : cur < d) (hts : d < nextSplitStart splits sectionEnd) :
    ∃ e2 ns', ns =
      (cur, { unit := gapUnitName cur sectionName, endAddr := d,
              align := none, common := false, autogenerated := true }) ::
      (d, { unit := gapUnitName d sectionName, endAddr := e2,
            align := none, common := false, autogenerated := true }) :: ns' := by
  rw [gapWalk_succ] at hok
  rw [if_neg (by omega), if_neg (by omega), if_pos (by omega)] at hok
  simp only [hdup] at hok
  rcases hinner : gapWalk syms sectionIdx sectionName sectionEnd fuel d
      splits with e | ns2
  · rw [hinner] at hok; exact absurd hok (by simp)
  rw [hinner] at hok
  simp only [Except.ok.injEq] at hok
  subst hok
  cases fuel with
  | zero =>
    rw [show gapWalk syms sectionIdx sectionName sectionEnd 0 d splits =
      .error .noFuel from rfl] at hinner
    exact absurd hinner (by simp)
  | succ f =>
    rw [gapWalk_succ] at hinner
    rw [if_neg (by omega), if_neg (by omega), if_pos (by omega)] at hinner
    rcases hdup2 : gapSplitEnd sectionIdx (nextSplitStart splits sectionEnd)
        (symbols_for_range syms d (nextSplitStart splits sectionEnd)) [] with
      e | e2
    · rw [hdup2] at hinner; exact absurd hinner (by simp)
    simp only [hdup2] at hinner
    rcases hinner2 : gapWalk syms sectionIdx sectionName sectionEnd f e2
        splits with e | ns3
    · rw [hinner2] at hinner; exact absurd hinner (by simp)
    rw [hinner2] at hinner
    simp only [Except.ok.injEq] at hinner
    exact ⟨e2, ns3, by rw [← hinner]⟩

/-- C8 witness: the theorem applied to the concrete gap `[0x1000, 0x2000)`
with duplicate symbols `foo` at `0x1000` and `0x1800`, yielding gap splits
`[0x1000, 0x1800)` and `[0x1800, 0x2000)`. -/
theorem c8_gap_truncated_at_duplicate_witness :
    (gapWalk c8syms 0 ".data" 0x2000 20 0x1000 [] =
      .ok [(0x1000, { unit := "00001000_data", endAddr := 0x1800,
                      align := none, common := false, autogenerated := true }),
           (0x1800, { unit := "00001800_data", endAddr := 0x2000,
                      align := none, common := false,
                      autogenerated := true })]) ∧
    ∃ e2 ns',
      ([(0x1000, { unit := "00001000_data", endAddr := 0x1800, align := none,
                   common := false, autogenerated := true }),
        (0x1800, { unit := "00001800_data", endAddr := 0x2000, align := none,
                   common := false, autogenerated := true })] :
        List (Nat × ObjSplit)) =
      (0x1000, { unit := gapUnitName 0x1000 ".data", endAddr := 0x1800,
                 align := none, common := false, autogenerated := true }) ::
      (0x1800, { unit := gapUnitName 0x1800 ".data", endAddr := e2,
                 align := none, common := false, autogenerated := true }) ::
        ns' :=
  ⟨rfl,
   c8_gap_truncated_at_duplicate c8syms 0 ".data" 0x2000 19 0x1000 0x1800 []
     _ rfl (by decide) (by decide) rfl (by decide) (by decide)⟩

/-- C10: `end_for_section` on a `.ctors`/`.dtors` section with fewer than 4
data bytes panics (the `data.len() - 4` slice index underflows), modelled by
`none`, instead of returning an error. -/
theorem c10_end_for_section_short_data_panics (obj : ObjInfo) (i : Nat)
    (sec : ObjSection) (hsec : obj.sections.get? i = some sec)
    (hname : sec.name = ".ctors" ∨ sec.name = ".dtors")
    (hlen : sec.data.length < 4) :
    end_for_section obj i = none := by
  unfold end_for_section
  rw [hsec]
  have hcond : (sec.name == ".ctors" || sec.name == ".dtors") = true := by
    rcases hname with h | h <;> simp [h]
  simp only [hcond, if_true, if_pos hlen]

/-- C10 witness: the theorem applied to `c10ex`. -/
theorem c10_end_for_section_short_data_panics_witness :
    end_for_section c10ex 0 = none :=
  c10_end_for_section_short_data_panics c10ex 0
    { name := ".ctors", kind := .ReadOnlyData, address := 0, size := 0,
      data := [] }
    rfl (Or.inl rfl) (by decide)

/-- Membership through `insertByAddr`. -/
theorem mem_insertByAddr {p x : Nat × ObjSymbol} :
    ∀ {l : List (Nat × ObjSymbol)}, x ∈ insertByAddr p l ↔ x = p ∨ x ∈ l := by
  intro l
  induction l with
  | nil => simp [insertByAddr]
  | cons q rest ih =>
    rw [insertByAddr]
    by_cases h : p.2.address ≤ q.2.address
    · rw [if_pos h]
      simp [List.mem_cons]
    · rw [if_neg h]
      simp only [List.mem_cons, ih]
      tauto

/-- `sortByAddr` preserves membership. -/
theorem mem_sortByAddr {x : Nat × ObjSymbol} :
    ∀ {l : List (Nat × ObjSymbol)}, x ∈ sortByAddr l ↔ x ∈ l := by
  intro l
  induction l with
  | nil => simp [sortByAddr]
  | cons q rest ih =>
    rw [sortByAddr, mem_insertByAddr]
    simp only [List.mem_cons, ih]

/-- The value component of an `enumFrom` entry is a list member. -/
theorem snd_mem_of_mem_enumFrom {α : Type} :
    ∀ {l : List α} {n : Nat} {p : Nat × α}, p ∈ l.enumFrom n → p.2 ∈ l := by
  intro l
  induction l with
  | nil => intro n p h; exact absurd h (by simp)
  | cons x xs ih =>
    intro n p h
    rw [List.enumFrom_cons, List.mem_cons] at h
    rcases h with h | h
    · subst h; exact List.mem_cons_self x xs
    · exact List.mem_cons_of_mem x (ih h)

/-- A member of `symbols_for_range` is a table symbol within the range. -/
theorem mem_symbols_for_range {syms : List ObjSymbol} {lo hi : Nat}
    {x : Nat × ObjSymbol} (h : x ∈ symbols_for_range syms lo hi) :
    x.2 ∈ syms ∧ lo ≤ x.2.address ∧ x.2.address < hi := by
  unfold symbols_for_range at h
  rw [mem_sortByAddr] at h
  rw [List.mem_filter] at h
  obtain ⟨hmem, hcond⟩ := h
  simp only [Bool.and_eq_true, decide_eq_true_eq] at hcond
  refine ⟨?_, hcond.1, hcond.2⟩
  exact snd_mem_of_mem_enumFrom hmem

/-- `gapSplitEnd` returns the gap end or some scanned symbol's address. -/
theorem gapSplitEnd_ok_cases (sectionIdx splitStart : Nat) :
    ∀ (l : List (Nat × ObjSymbol)) (seen : List String) (d : Nat),
      gapSplitEnd sectionIdx splitStart l seen = .ok d →
      d = splitStart ∨ ∃ p ∈ l, d = p.2.address % U32 := by
  intro l
  induction l with
  | nil =>
    intro seen d h
    simp only [gapSplitEnd, Except.ok.injEq] at h
    exact Or.inl h.symm
  | cons q rest ih =>
    intro seen d h
    rw [gapSplitEnd] at h
    by_cases h1 : q.2.sectionIdx ≠ some sectionIdx
    · rw [if_pos h1] at h; exact absurd h (by simp)
    · rw [if_neg h1] at h
      by_cases h2 : seen.contains q.2.name = true
      · rw [if_pos h2] at h
        simp only [Except.ok.injEq] at h
        exact Or.inr ⟨q, List.mem_cons_self q rest, h.symm⟩
      · rw [if_neg h2] at h
        rcases ih _ _ h with h3 | ⟨p, hp, he⟩
        · exact Or.inl h3
        · exact Or.inr ⟨p, List.mem_cons_of_mem q hp, he⟩

/-- Bounds for a successful duplicate-symbol scan over a gap. -/
theorem gapSplitEnd_bounds {syms : List ObjSymbol}
    {sectionIdx cur splitStart d : Nat}
    (hsyms : ∀ s ∈ syms, s.address < U32) (hcs : cur ≤ splitStart)
    (h : gapSplitEnd sectionIdx splitStart
        (symbols_for_range syms cur splitStart) [] = .ok d) :
    cur ≤ d ∧ d ≤ splitStart := by
  rcases gapSplitEnd_ok_cases _ _ _ _ _ h with h | ⟨p, hp, he⟩
  · subst h; exact ⟨hcs, le_refl _⟩
  · have hb := mem_symbols_for_range hp
    have hmod : p.2.address % U32 = p.2.address :=
      Nat.mod_eq_of_lt (hsyms _ hb.1)
    omega

/-- With a nonempty gap whose duplicate scan truncates to the gap start, the
gap walk never succeeds (the source loops forever re-creating the same
zero-length split). -/
theorem gapWalk_stuck (syms : List ObjSymbol) (sectionIdx : Nat)
    (sectionName : String) (sectionEnd cur : Nat)
    (splits : List (Nat × ObjSplit))
    (hcur : cur < sectionEnd)
    (hgap : cur < nextSplitStart splits sectionEnd)
    (hdup : gapSplitEnd sectionIdx (nextSplitStart splits sectionEnd)
        (symbols_for_range syms cur (nextSplitStart splits sectionEnd)) []
        = .ok cur) :
    ∀ fuel ns,
      gapWalk syms sectionIdx sectionName sectionEnd fuel cur splits ≠ .ok ns := by
  intro fuel
  induction fuel with
  | zero =>
    intro ns h
    rw [show gapWalk syms sectionIdx sectionName sectionEnd 0 cur splits =
      .error .noFuel from rfl] at h
    exact absurd h (by simp)
  | succ f ih =>
    intro ns h
    rw [gapWalk_succ] at h
    rw [if_neg (by omega), if_neg (by omega), if_pos hgap] at h
    simp only [hdup] at h
    rcases hrec : gapWalk syms sectionIdx sectionName sectionEnd f cur splits
      with e | ns2
    · rw [hrec] at h; exact absurd h (by simp)
    · exact ih ns2 hrec

/-- In a strictly key-sorted list every key is at least the peeked start. -/
theorem nextSplitStart_le_keys {splits : List (Nat × ObjSplit)} (se : Nat)
    (hs : splits.Pairwise (fun p q => p.1 < q.1)) :
    ∀ p ∈ splits, nextSplitStart splits se ≤ p.1 := by
  cases splits with
  | nil => intro p hp; exact absurd hp (by simp)
  | cons q rest =>
    intro p hp
    rw [List.pairwise_cons] at hs
    rcases List.mem_cons.mp hp with h | h
    · subst h; exact le_refl _
    · exact le_of_lt (hs.1 p h)

/-- `effEnd` in terms of `nextSplitStart`. -/
theorem effEnd_eq (se : Nat) (s : ObjSplit) (rest : List (Nat × ObjSplit)) :
    effEnd se s rest =
      if 0 < s.endAddr then s.endAddr else min (nextSplitStart rest se) se := by
  cases rest with
  | nil => simp [effEnd, nextSplitStart]
  | cons q qs => rfl

/-- Membership through `mergeKey`. -/
theorem mem_mergeKey {x : Nat × ObjSplit} :
    ∀ (l1 l2 : List (Nat × ObjSplit)), x ∈ mergeKey l1 l2 ↔ x ∈ l1 ∨ x ∈ l2 := by
  intro l1 l2
  induction l1, l2 using mergeKey.induct with
  | case1 l => simp [mergeKey]
  | case2 p ps => simp [mergeKey]
  | case3 p ps q qs hle ih =>
    rw [mergeKey, if_pos hle]
    simp only [List.mem_cons, ih]
    tauto
  | case4 p ps q qs hle ih =>
    rw [mergeKey, if_neg hle]
    simp only [List.mem_cons, ih]
    tauto

/-- Merging with an empty right list is the identity. -/
theorem mergeKey_nil_right : ∀ l : List (Nat × ObjSplit), mergeKey l [] = l := by
  intro l
  cases l with
  | nil => rw [mergeKey]
  | cons p ps => rw [mergeKey]

/-- A left head below every right key comes out first. -/
theorem mergeKey_cons_left {p : Nat × ObjSplit} {ps l2 : List (Nat × ObjSplit)}
    (h : ∀ q ∈ l2, p.1 < q.1) :
    mergeKey (p :: ps) l2 = p :: mergeKey ps l2 := by
  cases l2 with
  | nil => rw [mergeKey_nil_right, mergeKey_nil_right]
  | cons q qs =>
    rw [mergeKey, if_pos (le_of_lt (h q (List.mem_cons_self q qs)))]

/-- A right head below every left key comes out first. -/
theorem mergeKey_cons_right {q : Nat × ObjSplit} {l1 qs : List (Nat × ObjSplit)}
    (h : ∀ p ∈ l1, q.1 < p.1) :
    mergeKey l1 (q :: qs) = q :: mergeKey l1 qs := by
  cases l1 with
  | nil => rw [mergeKey, mergeKey]
  | cons p ps =>
    rw [mergeKey, if_neg (by have := h p (List.mem_cons_self p ps); omega)]

/-- Every effective interval of a tiling chain lies within `[cur, se]`. -/
theorem tileChain_keys (se : Nat) :
    ∀ (l : List (Nat × ObjSplit)) (cur : Nat), TileChain se cur l →
      ∀ p ∈ effList se l, cur ≤ p.1 ∧ p.1 < p.2 ∧ p.2 ≤ se := by
  intro l
  induction l with
  | nil => intro cur _ p hp; exact absurd hp (by simp [effList])
  | cons hd rest ih =>
    obtain ⟨a, s⟩ := hd
    intro cur hc p hp
    obtain ⟨ha, hlt, hle, hchain⟩ := hc
    rw [show effList se ((a, s) :: rest) =
      (a, effEnd se s rest) :: effList se rest from rfl] at hp
    rcases List.mem_cons.mp hp with h | h
    · subst h
      exact ⟨le_of_eq ha.symm, by omega, hle⟩
    · have := ih (effEnd se s rest) hchain p h
      omega

/-- A tiling chain covers exactly `[cur, se)`. -/
theorem tileChain_covers (se : Nat) :
    ∀ (l : List (Nat × ObjSplit)) (cur : Nat), TileChain se cur l →
      ∀ x, (cur ≤ x ∧ x < se) ↔ ∃ p ∈ effList se l, p.1 ≤ x ∧ x < p.2 := by
  intro l
  induction l with
  | nil =>
    intro cur hc x
    constructor
    · intro hx
      exact absurd hc (by simp [TileChain]; omega)
    · intro hx
      exact absurd hx (by simp [effList])
  | cons hd rest ih =>
    obtain ⟨a, s⟩ := hd
    intro cur hc x
    obtain ⟨ha, hlt, hle, hchain⟩ := hc
    subst ha
    rw [show effList se ((a, s) :: rest) =
      (a, effEnd se s rest) :: effList se rest from rfl]
    constructor
    · intro hx
      by_cases hxe : x < effEnd se s rest
      · exact ⟨(a, effEnd se s rest), List.mem_cons_self _ _, hx.1, hxe⟩
      · obtain ⟨p, hp, hpx⟩ := (ih _ hchain x).mp (by omega)
        exact ⟨p, List.mem_cons_of_mem _ hp, hpx⟩
    · rintro ⟨p, hp, hpx⟩
      rcases List.mem_cons.mp hp with h | h
      · subst h
        simp only at hpx
        omega
      · have hb := tileChain_keys se rest _ hchain p h
        have := (ih _ hchain x).mpr ⟨p, h, hpx⟩
        omega

/-- The intervals of a tiling chain are pairwise disjoint. -/
theorem tileChain_disjoint (se : Nat) :
    ∀ (l : List (Nat × ObjSplit)) (cur : Nat), TileChain se cur l →
      IntervalsDisjoint (effList se l) := by
  intro l
  induction l with
  | nil => intro cur _; exact List.Pairwise.nil
  | cons hd rest ih =>
    obtain ⟨a, s⟩ := hd
    intro cur hc
    obtain ⟨ha, hlt, hle, hchain⟩ := hc
    rw [show effList se ((a, s) :: rest) =
      (a, effEnd se s rest) :: effList se rest from rfl]
    rw [IntervalsDisjoint, List.pairwise_cons]
    constructor
    · intro q hq x hx1 hx2 hx3
      have := tileChain_keys se rest _ hchain q hq
      simp only at hx1 hx2
      omega
    · exact ih _ hchain

/-- Main lemma of the gap-filling pass: a successful per-section walk over
well-formed splits yields gap splits with in-range keys, fresh keys,
ascending order, and — merged with the pre-existing splits — a tiling of
`[cur, sectionEnd)`. -/
theorem gapWalk_ok (syms : List ObjSymbol) (sectionIdx : Nat)
    (sectionName : String) (sectionEnd : Nat)
    (hsyms : ∀ s ∈ syms, s.address < U32) :
    ∀ (fuel cur : Nat) (splits ns : List (Nat × ObjSplit)),
      gapWalk syms sectionIdx sectionName sectionEnd fuel cur splits = .ok ns →
      splits.Pairwise (fun p q => p.1 < q.1) →
      (∀ p ∈ splits, cur ≤ p.1 ∧ p.1 < sectionEnd) →
      RangeWF sectionEnd splits →
      (∀ p ∈ ns, cur ≤ p.1 ∧ p.1 < sectionEnd ∧
        p.1 < p.2.endAddr ∧ p.2.endAddr ≤ sectionEnd) ∧
      (∀ p ∈ ns, ∀ q ∈ splits, p.1 ≠ q.1) ∧
      ns.Pairwise (fun p q => p.1 < q.1) ∧
      TileChain sectionEnd cur (mergeKey ns splits) := by
  intro fuel
  induction fuel with
  | zero =>
    intro cur splits ns h
    rw [show gapWalk syms sectionIdx sectionName sectionEnd 0 cur splits =
      .error .noFuel from rfl] at h
    exact absurd h (by simp)
  | succ f ih =>
    intro cur splits ns h hsort hall hwf
    rw [gapWalk_succ] at h
    by_cases hbreak : sectionEnd ≤ cur
    · rw [if_pos hbreak] at h
      simp only [Except.ok.injEq] at h
      subst h
      have hnil : splits = [] := by
        cases splits with
        | nil => rfl
        | cons p rest =>
          exact absurd (hall p (List.mem_cons_self p rest)) (by omega)
      subst hnil
      refine ⟨by simp, by simp, List.Pairwise.nil, ?_⟩
      rw [mergeKey_nil_right]
      exact hbreak
    · rw [if_neg hbreak] at h
      push_neg at hbreak
      have hssge : cur ≤ nextSplitStart splits sectionEnd := by
        cases splits with
        | nil => simpa [nextSplitStart] using le_of_lt hbreak
        | cons p rest => exact (hall p (List.mem_cons_self p rest)).1
      rw [if_neg (by omega)] at h
      have hssle : nextSplitStart splits sectionEnd ≤ sectionEnd := by
        cases splits with
        | nil => simp [nextSplitStart]
        | cons p rest => exact le_of_lt (hall p (List.mem_cons_self p rest)).2
      by_cases hgap : cur < nextSplitStart splits sectionEnd
      · rw [if_pos hgap] at h
        rcases hdup : gapSplitEnd sectionIdx (nextSplitStart splits sectionEnd)
            (symbols_for_range syms cur (nextSplitStart splits sectionEnd)) []
          with e | d
        · rw [hdup] at h; exact absurd h (by simp)
        simp only [hdup] at h
        rcases hrec : gapWalk syms sectionIdx sectionName sectionEnd f d splits
          with e | ns2
        · rw [hrec] at h; exact absurd h (by simp)
        rw [hrec] at h
        simp only [Except.ok.injEq] at h
        subst h
        have hdb := gapSplitEnd_bounds hsyms (le_of_lt hgap) hdup
        by_cases hdc : d = cur
        · subst hdc
          exact absurd hrec
            (gapWalk_stuck syms sectionIdx sectionName sectionEnd d splits
              hbreak hgap hdup f ns2)
        have hdgt : cur < d := by omega
        have hall2 : ∀ p ∈ splits, d ≤ p.1 ∧ p.1 < sectionEnd := by
          intro p hp
          have h1 := nextSplitStart_le_keys sectionEnd hsort p hp
          have h2 := hall p hp
          omega
        obtain ⟨B1, B2, B3, B4⟩ := ih d splits ns2 hrec hsort hall2 hwf
        refine ⟨?_, ?_, ?_, ?_⟩
        · intro p hp
          rcases List.mem_cons.mp hp with hh | hh
          · subst hh
            exact ⟨le_refl _, hbreak, hdgt, (by omega : d ≤ sectionEnd)⟩
          · have := B1 p hh; omega
        · intro p hp q hq
          rcases List.mem_cons.mp hp with hh | hh
          · subst hh
            have := nextSplitStart_le_keys sectionEnd hsort q hq
            show cur ≠ q.1
            omega
          · exact B2 p hh q hq
        · rw [List.pairwise_cons]
          refine ⟨?_, B3⟩
          intro p hp
          have := B1 p hp
          show cur < p.1
          omega
        · have hmerge : mergeKey
              ((cur, { unit := gapUnitName cur sectionName, endAddr := d,
                       align := none, common := false,
                       autogenerated := true }) :: ns2) splits =
              (cur, { unit := gapUnitName cur sectionName, endAddr := d,
                      align := none, common := false,
                      autogenerated := true }) :: mergeKey ns2 splits := by
            apply mergeKey_cons_left
            intro q hq
            have := nextSplitStart_le_keys sectionEnd hsort q hq
            show cur < q.1
            omega
          rw [hmerge]
          have heff : effEnd sectionEnd
              { unit := gapUnitName cur sectionName, endAddr := d,
                align := none, common := false, autogenerated := true }
              (mergeKey ns2 splits) = d := by
            rw [effEnd_eq]
            exact if_pos (show (0 : Nat) <
              ({ unit := gapUnitName cur sectionName, endAddr := d,
                 align := none, common := false,
                 autogenerated := true } : ObjSplit).endAddr by
              show 0 < d
              omega)
          refine ⟨rfl, ?_, ?_, ?_⟩
          · rw [heff]; exact hdgt
          · rw [heff]; omega
          · rw [heff]; exact B4
      · rw [if_neg hgap] at h
        cases splits with
        | nil =>
          exfalso
          simp [nextSplitStart] at hgap
          omega
        | cons hd rest =>
          obtain ⟨a, s⟩ := hd
          have ha : a = cur := by
            have h1 : a ≤ cur := by simpa [nextSplitStart] using hgap
            have h2 := (hall (a, s) (List.mem_cons_self _ _)).1
            omega
          subst ha
          rw [List.pairwise_cons] at hsort
          obtain ⟨hheadlt, hsortrest⟩ := hsort
          obtain ⟨hwfall, hwfchain⟩ := hwf
          have hwh := hwfall (a, s) (List.mem_cons_self _ _)
          simp only at hwh
          have hnss : a < nextSplitStart rest sectionEnd := by
            cases rest with
            | nil => simpa [nextSplitStart] using hbreak
            | cons q rs =>
              have := hheadlt q (List.mem_cons_self q rs)
              simpa [nextSplitStart] using this
          have hcg : a < effEnd sectionEnd s rest := by
            rw [effEnd_eq]
            by_cases hpos : 0 < s.endAddr
            · rw [if_pos hpos]; omega
            · rw [if_neg hpos]; omega
          have hcse : effEnd sectionEnd s rest ≤ sectionEnd := by
            rw [effEnd_eq]
            by_cases hpos : 0 < s.endAddr
            · rw [if_pos hpos]; omega
            · rw [if_neg hpos]; omega
          have hcn : effEnd sectionEnd s rest ≤
              nextSplitStart rest sectionEnd := by
            rw [effEnd_eq]
            by_cases hpos : 0 < s.endAddr
            · rw [if_pos hpos]
              cases rest with
              | nil =>
                simp only [nextSplitStart]
                omega
              | cons q rs =>
                rw [List.chain'_cons] at hwfchain
                rcases hwfchain.1 with hh | hh
                · simpa [nextSplitStart] using hh
                · simp only at hh
                  omega
            · rw [if_neg hpos]; omega
          have hrestall : ∀ p ∈ rest, effEnd sectionEnd s rest ≤ p.1 ∧
              p.1 < sectionEnd := by
            intro p hp
            have h1 := nextSplitStart_le_keys sectionEnd hsortrest p hp
            have h2 := hall p (List.mem_cons_of_mem _ hp)
            omega
          have hwfrest : RangeWF sectionEnd rest :=
            ⟨fun p hp => hwfall p (List.mem_cons_of_mem _ hp), hwfchain.tail⟩
          obtain ⟨B1, B2, B3, B4⟩ :=
            ih (effEnd sectionEnd s rest) rest ns h hsortrest hrestall hwfrest
          refine ⟨?_, ?_, ?_, ?_⟩
          · intro p hp
            have := B1 p hp
            omega
          · intro p hp q hq
            rcases List.mem_cons.mp hq with hh | hh
            · subst hh
              have := B1 p hp
              show p.1 ≠ a
              omega
            · exact B2 p hp q hh
          · exact B3
          · have hmerge : mergeKey ns ((a, s) :: rest) =
                (a, s) :: mergeKey ns rest := by
              apply mergeKey_cons_right
              intro p hp
              have := B1 p hp
              show a < p.1
              omega
            rw [hmerge]
            have heq : effEnd sectionEnd s (mergeKey ns rest) =
                effEnd sectionEnd s rest := by
              by_cases hpos : 0 < s.endAddr
              · rw [effEnd_eq, effEnd_eq, if_pos hpos, if_pos hpos]
              · cases rest with
                | nil =>
                  have hse : effEnd sectionEnd s ([] : List (Nat × ObjSplit))
                      = sectionEnd := by
                    rw [effEnd_eq, if_neg hpos]
                    simp [nextSplitStart]
                  have hns : ns = [] := by
                    cases ns with
                    | nil => rfl
                    | cons p ps =>
                      have := B1 p (List.mem_cons_self p ps)
                      rw [hse] at this
                      omega
                  subst hns
                  rw [show mergeKey ([] : List (Nat × ObjSplit)) [] = []
                    from by rw [mergeKey]]
                | cons q rs =>
                  have hq1 : q.1 < sectionEnd :=
                    (hall q (List.mem_cons_of_mem _ (List.mem_cons_self q rs))).2
                  have hcurq : effEnd sectionEnd s (q :: rs) = q.1 := by
                    rw [effEnd_eq, if_neg hpos]
                    simp only [nextSplitStart]
                    omega
                  have hmq : mergeKey ns (q :: rs) = q :: mergeKey ns rs := by
                    apply mergeKey_cons_right
                    intro p hp
                    have hb := B1 p hp
                    rw [hcurq] at hb
                    have hne := B2 p hp q (List.mem_cons_self q rs)
                    omega
                  rw [hmq, effEnd_eq, if_neg hpos, hcurq]
                  simp only [nextSplitStart]
                  omega
            refine ⟨rfl, ?_, ?_, ?_⟩
            · rw [heq]; exact hcg
            · rw [heq]; exact hcse
            · rw [heq]; exact B4

/-- Membership through `insertSplit`. -/
theorem mem_insertSplit {p x : Nat × ObjSplit} :
    ∀ {l : List (Nat × ObjSplit)}, x ∈ insertSplit p l ↔ x = p ∨ x ∈ l := by
  intro l
  induction l with
  | nil => simp [insertSplit]
  | cons q rest ih =>
    rw [insertSplit]
    by_cases h : p.1 ≤ q.1
    · rw [if_pos h]; simp [List.mem_cons]
    · rw [if_neg h]
      simp only [List.mem_cons, ih]
      tauto

/-- Inserting a fresh key preserves strict sortedness. -/
theorem insertSplit_sorted {p : Nat × ObjSplit} :
    ∀ {l : List (Nat × ObjSplit)}, SplitsSorted l → (∀ q ∈ l, p.1 ≠ q.1) →
      SplitsSorted (insertSplit p l) := by
  intro l
  induction l with
  | nil => intro _ _; simp [insertSplit, SplitsSorted]
  | cons q rest ih =>
    intro hs hne
    rw [SplitsSorted, List.pairwise_cons] at hs
    obtain ⟨hq, hrest⟩ := hs
    rw [insertSplit]
    by_cases h : p.1 ≤ q.1
    · rw [if_pos h]
      rw [SplitsSorted, List.pairwise_cons]
      have hpq : p.1 < q.1 := by
        have := hne q (List.mem_cons_self q rest)
        omega
      refine ⟨?_, List.Pairwise.cons hq hrest⟩
      intro a ha
      rcases List.mem_cons.mp ha with hh | hh
      · subst hh; exact hpq
      · have := hq a hh; omega
    · rw [if_neg h]
      rw [SplitsSorted, List.pairwise_cons]
      refine ⟨?_, ih hrest (fun a ha => hne a (List.mem_cons_of_mem q ha))⟩
      intro a ha
      rcases mem_insertSplit.mp ha with hh | hh
      · subst hh; omega
      · exact hq a hh

/-- The splits of the committed image are the folded insertions; all other
fields are untouched. -/
theorem foldl_add_split_fields :
    ∀ (ns : List (Nat × ObjSplit)) (obj : ObjInfo),
      (ns.foldl (fun o p => add_split o p.1 p.2) obj).splits =
        ns.foldl (fun l p => insertSplit p l) obj.splits ∧
      (ns.foldl (fun o p => add_split o p.1 p.2) obj).sections = obj.sections ∧
      (ns.foldl (fun o p => add_split o p.1 p.2) obj).symbols = obj.symbols := by
  intro ns
  induction ns with
  | nil => intro obj; exact ⟨rfl, rfl, rfl⟩
  | cons p rest ih =>
    intro obj
    rw [List.foldl_cons, List.foldl_cons]
    exact ih (add_split obj p.1 p.2)

/-- Membership through the folded insertions. -/
theorem mem_foldl_insertSplit {x : Nat × ObjSplit} :
    ∀ (ns base : List (Nat × ObjSplit)),
      x ∈ ns.foldl (fun l p => insertSplit p l) base ↔ x ∈ ns ∨ x ∈ base := by
  intro ns
  induction ns with
  | nil => intro base; simp
  | cons p rest ih =>
    intro base
    rw [List.foldl_cons, ih, mem_insertSplit]
    simp only [List.mem_cons]
    tauto

/-- Folding fresh, pairwise-distinct keys preserves strict sortedness. -/
theorem foldl_insertSplit_sorted :
    ∀ (ns base : List (Nat × ObjSplit)), SplitsSorted base →
      (∀ p ∈ ns, ∀ q ∈ base, p.1 ≠ q.1) →
      ns.Pairwise (fun p q => p.1 ≠ q.1) →
      SplitsSorted (ns.foldl (fun l p => insertSplit p l) base) := by
  intro ns
  induction ns with
  | nil => intro base hs _ _; exact hs
  | cons p rest ih =>
    intro base hs hne hpw
    rw [List.pairwise_cons] at hpw
    rw [List.foldl_cons]
    apply ih
    · exact insertSplit_sorted hs (hne p (List.mem_cons_self p rest) ·)
    · intro a ha q hq
      rcases mem_insertSplit.mp hq with hh | hh
      · subst hh
        exact fun hc => (hpw.1 a ha) hc.symm
      · exact hne a (List.mem_cons_of_mem p ha) q hh
    · exact hpw.2

/-- Two strictly key-sorted lists with the same members are equal. -/
theorem sorted_ext :
    ∀ (l l' : List (Nat × ObjSplit)), SplitsSorted l → SplitsSorted l' →
      (∀ x, x ∈ l ↔ x ∈ l') → l = l' := by
  intro l
  induction l with
  | nil =>
    intro l' _ _ hmem
    cases l' with
    | nil => rfl
    | cons q qs => exact absurd ((hmem q).mpr (List.mem_cons_self q qs)) (by simp)
  | cons p ps ih =>
    intro l' hs hs' hmem
    cases l' with
    | nil => exact absurd ((hmem p).mp (List.mem_cons_self p ps)) (by simp)
    | cons q qs =>
      rw [SplitsSorted, List.pairwise_cons] at hs hs'
      have hpq : p = q := by
        rcases List.mem_cons.mp ((hmem p).mp (List.mem_cons_self p ps)) with
          hh | hh
        · exact hh
        · rcases List.mem_cons.mp ((hmem q).mpr (List.mem_cons_self q qs)) with
            hg | hg
          · exact hg.symm
          · have h1 := hs'.1 p hh
            have h2 := hs.1 q hg
            omega
      subst hpq
      have htail : ∀ x, x ∈ ps ↔ x ∈ qs := by
        intro x
        constructor
        · intro hx
          rcases List.mem_cons.mp ((hmem x).mp (List.mem_cons_of_mem p hx)) with
            hh | hh
          · subst hh
            exact absurd (hs.1 x hx) (by omega)
          · exact hh
        · intro hx
          rcases List.mem_cons.mp ((hmem x).mpr (List.mem_cons_of_mem p hx)) with
            hh | hh
          · subst hh
            exact absurd (hs'.1 x hx) (by omega)
          · exact hh
      rw [ih qs hs.2 hs'.2 htail]

/-- Merging sorted lists with distinct keys is sorted. -/
theorem mergeKey_sorted :
    ∀ (l1 l2 : List (Nat × ObjSplit)),
      l1.Pairwise (fun p q => p.1 < q.1) → l2.Pairwise (fun p q => p.1 < q.1) →
      (∀ p ∈ l1, ∀ q ∈ l2, p.1 ≠ q.1) →
      (mergeKey l1 l2).Pairwise (fun p q => p.1 < q.1) := by
  intro l1 l2
  induction l1, l2 using mergeKey.induct with
  | case1 l => intro _ h _; rw [mergeKey]; exact h
  | case2 p ps => intro h _ _; rw [mergeKey]; exact h
  | case3 p ps q qs hle ih =>
    intro h1 h2 hne
    rw [mergeKey, if_pos hle]
    rw [List.pairwise_cons] at h1 ⊢
    refine ⟨?_, ih h1.2 h2
      (fun a ha b hb => hne a (List.mem_cons_of_mem p ha) b hb)⟩
    intro a ha
    rcases (mem_mergeKey ps (q :: qs)).mp ha with hh | hh
    · exact h1.1 a hh
    · rcases List.mem_cons.mp hh with hg | hg
      · subst hg
        have := hne p (List.mem_cons_self p ps) a (List.mem_cons_self a qs)
        omega
      · rw [List.pairwise_cons] at h2
        have h3 := h2.1 a hg
        have := hne p (List.mem_cons_self p ps) q (List.mem_cons_self q qs)
        omega
  | case4 p ps q qs hle ih =>
    intro h1 h2 hne
    rw [mergeKey, if_neg hle]
    rw [List.pairwise_cons] at h2 ⊢
    refine ⟨?_, ih h1 h2.2
      (fun a ha b hb => hne a ha b (List.mem_cons_of_mem q hb))⟩
    intro a ha
    rcases (mem_mergeKey (p :: ps) qs).mp ha with hh | hh
    · rcases List.mem_cons.mp hh with hg | hg
      · subst hg; omega
      · rw [List.pairwise_cons] at h1
        have := h1.1 a hg
        omega
    · exact h2.1 a hh

/-- Eliminate a successful `gapSection` into its section end and walk. -/
theorem gapSection_ok_elim {obj : ObjInfo} {idx : Nat} {sec : ObjSection}
    {ns : List (Nat × ObjSplit)} (h : gapSection obj idx sec = .ok ns) :
    ∃ se, end_for_section obj idx = some se ∧
      gapWalk obj.symbols idx sec.name se
        (se - secStart sec +
          (splits_for_range obj (secStart sec) se).length + 1)
        (secStart sec) (splits_for_range obj (secStart sec) se) = .ok ns := by
  unfold gapSection at h
  rcases hse : end_for_section obj idx with _ | se
  · rw [hse] at h; exact absurd h (by simp)
  · rw [hse] at h; exact ⟨se, rfl, h⟩

/-- Membership in the accumulated gap splits of all sections. -/
theorem gapSections_mem (obj : ObjInfo) :
    ∀ (secs : List ObjSection) (k : Nat) (nsAll : List (Nat × ObjSplit)),
      gapSections obj k secs = .ok nsAll →
      ∀ x, (x ∈ nsAll ↔ ∃ j sec nsj, secs.get? j = some sec ∧
        gapSection obj (k + j) sec = .ok nsj ∧ x ∈ nsj) := by
  intro secs
  induction secs with
  | nil =>
    intro k nsAll h x
    rw [show gapSections obj k [] = .ok [] from rfl] at h
    simp only [Except.ok.injEq] at h
    subst h
    simp
  | cons sec rest ih =>
    intro k nsAll h x
    rw [show gapSections obj k (sec :: rest) =
      (match gapSection obj k sec with
        | .error e => .error e
        | .ok ns =>
          match gapSections obj (k + 1) rest with
          | .error e => .error e
          | .ok ns' => .ok (ns ++ ns')) from rfl] at h
    rcases h1 : gapSection obj k sec with e | ns1
    · rw [h1] at h; exact absurd h (by simp)
    rw [h1] at h
    rcases h2 : gapSections obj (k + 1) rest with e | ns2
    · rw [h2] at h; exact absurd h (by simp)
    rw [h2] at h
    simp only [Except.ok.injEq] at h
    subst h
    rw [List.mem_append]
    constructor
    · intro hx
      rcases hx with hx | hx
      · exact ⟨0, sec, ns1, rfl, by rw [Nat.add_zero]; exact h1, hx⟩
      · obtain ⟨j, sec', nsj, hg, hok, hmem⟩ := (ih (k + 1) ns2 h2 x).mp hx
        refine ⟨j + 1, sec', nsj, by simpa using hg, ?_, hmem⟩
        rw [show k + (j + 1) = k + 1 + j by omega]
        exact hok
    · rintro ⟨j, sec', nsj, hg, hok, hmem⟩
      cases j with
      | zero =>
        simp only [List.get?_cons_zero, Option.some.injEq] at hg
        subst hg
        rw [Nat.add_zero] at hok
        rw [h1] at hok
        simp only [Except.ok.injEq] at hok
        subst hok
        exact Or.inl hmem
      | succ j' =>
        right
        refine (ih (k + 1) ns2 h2 x).mpr ⟨j', sec', nsj, by simpa using hg, ?_, hmem⟩
        rw [show k + 1 + j' = k + (j' + 1) by omega]
        exact hok

/-- A successful pass of `gapSections` means every section's pass
succeeded. -/
theorem gapSections_each (obj : ObjInfo) :
    ∀ (secs : List ObjSection) (k : Nat) (nsAll : List (Nat × ObjSplit)),
      gapSections obj k secs = .ok nsAll →
      ∀ j sec, secs.get? j = some sec →
        ∃ nsj, gapSection obj (k + j) sec = .ok nsj := by
  intro secs
  induction secs with
  | nil => intro k nsAll _ j sec hg; exact absurd hg (by simp)
  | cons sec0 rest ih =>
    intro k nsAll h j sec hg
    rw [show gapSections obj k (sec0 :: rest) =
      (match gapSection obj k sec0 with
        | .error e => .error e
        | .ok ns =>
          match gapSections obj (k + 1) rest with
          | .error e => .error e
          | .ok ns' => .ok (ns ++ ns')) from rfl] at h
    rcases h1 : gapSection obj k sec0 with e | ns1
    · rw [h1] at h; exact absurd h (by simp)
    rw [h1] at h
    rcases h2 : gapSections obj (k + 1) rest with e | ns2
    · rw [h2] at h; exact absurd h (by simp)
    cases j with
    | zero =>
      simp only [List.get?_cons_zero, Option.some.injEq] at hg
      subst hg
      exact ⟨ns1, by rw [Nat.add_zero]; exact h1⟩
    | succ j' =>
      obtain ⟨nsj, hok⟩ := ih (k + 1) ns2 h2 j' sec (by simpa using hg)
      refine ⟨nsj, ?_⟩
      rw [show k + (j' + 1) = k + 1 + j' by omega]
      exact hok

/-- A `getLast?` result is a member. -/
theorem mem_of_getLast?_eq {α : Type} {l : List α} {x : α}
    (h : l.getLast? = some x) : x ∈ l := by
  have hx : x ∈ l.getLast? := by rw [h]; exact rfl
  obtain ⟨hne, heq⟩ := List.mem_getLast?_eq_getLast hx
  rw [heq]
  exact List.getLast_mem hne

/-- The adjustment loop of `end_for_section` never grows the end. -/
theorem endForSectionLoop_le (syms : List ObjSymbol) (sectionStart : Nat) :
    ∀ (fuel e r : Nat), endForSectionLoop syms sectionStart fuel e = some r →
      r ≤ e := by
  intro fuel
  induction fuel with
  | zero => intro e r h; exact absurd h (by simp [endForSectionLoop])
  | succ f ih =>
    intro e r h
    rw [show endForSectionLoop syms sectionStart (f + 1) e =
      (match lastSizedObject syms sectionStart e with
        | some (_, s) =>
          if is_linker_generated_object s.name then
            endForSectionLoop syms sectionStart f (s.address % U32)
          else some e
        | none => some e) from rfl] at h
    rcases hl : lastSizedObject syms sectionStart e with _ | ⟨i, sym⟩
    · simp only [hl, Option.some.injEq] at h
      omega
    · simp only [hl] at h
      by_cases hlg : is_linker_generated_object sym.name = true
      · rw [if_pos hlg] at h
        have hlast : sym.address < e := by
          have hmem : (i, sym) ∈ symbols_for_range syms sectionStart e := by
            unfold lastSizedObject at hl
            exact List.mem_of_mem_filter (mem_of_getLast?_eq hl)
          exact (mem_symbols_for_range hmem).2.2
        have := ih _ _ h
        have hmod : sym.address % U32 ≤ sym.address := Nat.mod_le _ _
        omega
      · rw [if_neg hlg] at h
        simp only [Option.some.injEq] at h
        omega

/-- A section end computed by `end_for_section` never exceeds
`address + size`. -/
theorem end_for_section_le {obj : ObjInfo} {i : Nat} {sec : ObjSection}
    {se : Nat} (hsec : obj.sections.get? i = some sec)
    (h : end_for_section obj i = some se) : se ≤ sec.address + sec.size := by
  unfold end_for_section at h
  rw [hsec] at h
  simp only at h
  have hmod : (sec.address + sec.size) % U32 ≤ sec.address + sec.size :=
    Nat.mod_le _ _
  by_cases hname : (sec.name == ".ctors" || sec.name == ".dtors") = true
  · rw [if_pos hname] at h
    by_cases hlen : sec.data.length < 4
    · rw [if_pos hlen] at h; exact absurd h (by simp)
    · rw [if_neg hlen] at h
      by_cases hz : (sec.data.drop (sec.data.length - 4) == [0, 0, 0, 0]) = true
      · rw [if_pos hz] at h
        simp only [Option.some.injEq] at h
        omega
      · rw [if_neg hz] at h
        have := endForSectionLoop_le obj.symbols (sec.address % U32) _ _ _ h
        omega
  · rw [if_neg hname] at h
    have := endForSectionLoop_le obj.symbols (sec.address % U32) _ _ _ h
    omega

/-- The walk facts for one section's successful gap pass. -/
theorem gapSection_facts {obj : ObjInfo} (hwf : GapInputWF obj)
    {idx : Nat} {sec : ObjSection} {ns : List (Nat × ObjSplit)}
    (hsec : obj.sections.get? idx = some sec)
    (hok : gapSection obj idx sec = .ok ns) :
    ∃ se, end_for_section obj idx = some se ∧
      (∀ p ∈ ns, secStart sec ≤ p.1 ∧ p.1 < se ∧
        p.1 < p.2.endAddr ∧ p.2.endAddr ≤ se) ∧
      (∀ p ∈ ns, ∀ q ∈ splits_for_range obj (secStart sec) se, p.1 ≠ q.1) ∧
      ns.Pairwise (fun p q => p.1 < q.1) ∧
      TileChain se (secStart sec)
        (mergeKey ns (splits_for_range obj (secStart sec) se)) := by
  obtain ⟨hsort, hsyms, hu32, hdisj, hrwf⟩ := hwf
  obtain ⟨se, hse, hwalk⟩ := gapSection_ok_elim hok
  have hfsort : (splits_for_range obj (secStart sec) se).Pairwise
      (fun p q => p.1 < q.1) := List.Pairwise.filter _ hsort
  have hfall : ∀ p ∈ splits_for_range obj (secStart sec) se,
      secStart sec ≤ p.1 ∧ p.1 < se :=
    fun p hp => (mem_splits_for_range.mp hp).2
  have hres := gapWalk_ok obj.symbols idx sec.name se hsyms _ _ _ _ hwalk
    hfsort hfall (hrwf idx sec se hsec hse)
  exact ⟨se, hse, hres.1, hres.2.1, hres.2.2.1, hres.2.2.2⟩

/-- A gap split's key collides with no pre-existing split key. -/
theorem gapSection_fresh {obj : ObjInfo} (hwf : GapInputWF obj)
    {idx : Nat} {sec : ObjSection} {ns : List (Nat × ObjSplit)}
    (hsec : obj.sections.get? idx = some sec)
    (hok : gapSection obj idx sec = .ok ns) :
    ∀ p ∈ ns, ∀ q ∈ obj.splits, p.1 ≠ q.1 := by
  obtain ⟨se, hse, B1, B2, _, _⟩ := gapSection_facts hwf hsec hok
  intro p hp q hq
  by_cases hr : secStart sec ≤ q.1 ∧ q.1 < se
  · exact B2 p hp q (mem_splits_for_range.mpr ⟨hq, hr⟩)
  · have := B1 p hp
    omega

/-- A gap split's key lies within its section's address interval. -/
theorem gapSection_key_interval {obj : ObjInfo} (hwf : GapInputWF obj)
    {idx : Nat} {sec : ObjSection} {ns : List (Nat × ObjSplit)}
    (hsec : obj.sections.get? idx = some sec)
    (hok : gapSection obj idx sec = .ok ns) :
    ∀ p ∈ ns, sec.address ≤ p.1 ∧ p.1 < sec.address + sec.size := by
  obtain ⟨se, hse, B1, _, _, _⟩ := gapSection_facts hwf hsec hok
  have hle := end_for_section_le hsec hse
  have hmem : sec ∈ obj.sections := List.get?_mem hsec
  have hu := hwf.2.2.1 sec hmem
  have hstart : secStart sec = sec.address := by
    have hu' : sec.address < U32 := by omega
    unfold secStart
    exact Nat.mod_eq_of_lt hu' 
  intro p hp
  have := B1 p hp
  omega

/-- Accumulated gap splits have pairwise distinct keys. -/
theorem gapSections_pairwise (obj : ObjInfo) (hwf : GapInputWF obj) :
    ∀ (secs : List ObjSection) (k : Nat) (nsAll : List (Nat × ObjSplit)),
      gapSections obj k secs = .ok nsAll →
      (∀ j sec, secs.get? j = some sec → obj.sections.get? (k + j) = some sec) →
      secs.Pairwise (fun s t =>
        s.address + s.size ≤ t.address ∨ t.address + t.size ≤ s.address) →
      nsAll.Pairwise (fun p q => p.1 ≠ q.1) := by
  intro secs
  induction secs with
  | nil =>
    intro k nsAll h _ _
    rw [show gapSections obj k [] = .ok [] from rfl] at h
    simp only [Except.ok.injEq] at h
    subst h
    exact List.Pairwise.nil
  | cons sec rest ih =>
    intro k nsAll h hsecs hdisj
    rw [show gapSections obj k (sec :: rest) =
      (match gapSection obj k sec with
        | .error e => .error e
        | .ok ns =>
          match gapSections obj (k + 1) rest with
          | .error e => .error e
          | .ok ns' => .ok (ns ++ ns')) from rfl] at h
    rcases h1 : gapSection obj k sec with e | ns1
    · rw [h1] at h; exact absurd h (by simp)
    rw [h1] at h
    rcases h2 : gapSections obj (k + 1) rest with e | ns2
    · rw [h2] at h; exact absurd h (by simp)
    rw [h2] at h
    simp only [Except.ok.injEq] at h
    subst h
    have hsec0 : obj.sections.get? k = some sec := by
      have := hsecs 0 sec rfl
      rwa [Nat.add_zero] at this
    rw [List.pairwise_append]
    refine ⟨?_, ?_, ?_⟩
    · obtain ⟨se, _, _, _, B3, _⟩ := gapSection_facts hwf hsec0 h1
      exact B3.imp (fun h => by omega)
    · apply ih (k + 1) ns2 h2
      · intro j s hg
        have := hsecs (j + 1) s (by simpa using hg)
        rwa [show k + (j + 1) = k + 1 + j by omega] at this
      · exact (List.pairwise_cons.mp hdisj).2
    · intro p hp q hq
      have hpI := gapSection_key_interval hwf hsec0 h1 p hp
      obtain ⟨j, sec', nsj, hg, hok, hmem⟩ :=
        (gapSections_mem obj rest (k + 1) ns2 h2 q).mp hq
      have hsec' : obj.sections.get? (k + 1 + j) = some sec' := by
        have := hsecs (j + 1) sec' (by simpa using hg)
        rwa [show k + (j + 1) = k + 1 + j by omega] at this
      have hqI := gapSection_key_interval hwf hsec' hok q hmem
      have hd := (List.pairwise_cons.mp hdisj).1 sec'
        (List.get?_mem hg)
      omega

/-- All gap splits of the whole pass have keys fresh to the split map. -/
theorem gapSections_fresh {obj : ObjInfo} (hwf : GapInputWF obj)
    {nsAll : List (Nat × ObjSplit)}
    (h : gapSections obj 0 obj.sections = .ok nsAll) :
    ∀ p ∈ nsAll, ∀ q ∈ obj.splits, p.1 ≠ q.1 := by
  intro p hp q hq
  obtain ⟨j, sec, nsj, hg, hok, hmem⟩ :=
    (gapSections_mem obj _ 0 _ h p).mp hp
  rw [Nat.zero_add] at hok
  exact gapSection_fresh hwf hg hok p hmem q hq

/-- Sections at distinct indices have disjoint address intervals. -/
theorem sections_disjoint_at {obj : ObjInfo}
    (hd : obj.sections.Pairwise (fun s t =>
      s.address + s.size ≤ t.address ∨ t.address + t.size ≤ s.address))
    {i j : Nat} {s t : ObjSection} (hi : obj.sections.get? i = some s)
    (hj : obj.sections.get? j = some t) (hij : i ≠ j) :
    s.address + s.size ≤ t.address ∨ t.address + t.size ≤ s.address := by
  rw [List.pairwise_iff_get] at hd
  obtain ⟨hi', hs⟩ := List.get?_eq_some.mp hi
  obtain ⟨hj', ht⟩ := List.get?_eq_some.mp hj
  rcases Nat.lt_or_ge i j with hlt | hge
  · have := hd ⟨i, hi'⟩ ⟨j, hj'⟩ hlt
    rw [hs, ht] at this
    exact this
  · have hjlt : j < i := by omega
    have := hd ⟨j, hj'⟩ ⟨i, hi'⟩ hjlt
    rw [hs, ht] at this
    tauto

/-- C1 (amended): after a successful gap-filling pass over an image
satisfying the split-map input invariants (`GapInputWF`: strictly sorted
split map, `u32`-sized addresses, disjoint sections, per-section splits with
well-formed non-overlapping ends), for every section the effective split
intervals of the resulting image within `[section start, end_for_section)`
cover exactly that interval and are pairwise disjoint.  (As stated in the
claim — with the whole `[address, address + size)` interval and with no
input invariants — the property fails; see the counterexample.) -/
theorem c1_create_gap_splits_tiles {obj obj' : ObjInfo}
    (hwf : GapInputWF obj)
    (hok : create_gap_splits obj = .ok obj') :
    ∀ i sec se, obj.sections.get? i = some sec →
      end_for_section obj i = some se →
      CoversExactly (secStart sec) se
        (effList se (splits_for_range obj' (secStart sec) se)) ∧
      IntervalsDisjoint (effList se (splits_for_range obj' (secStart sec) se)) := by
  unfold create_gap_splits at hok
  rcases hall : gapSections obj 0 obj.sections with e | nsAll
  · rw [hall] at hok; exact absurd hok (by simp)
  rw [hall] at hok
  simp only [Except.ok.injEq] at hok
  intro i sec se hsec hse
  have hsecs0 : ∀ j s, obj.sections.get? j = some s →
      obj.sections.get? (0 + j) = some s := by
    intro j s hg; rwa [Nat.zero_add]
  have hfresh := gapSections_fresh hwf hall
  have hpw := gapSections_pairwise obj hwf obj.sections 0 nsAll hall hsecs0
    hwf.2.2.2.1
  obtain ⟨nsi, hoki⟩ := gapSections_each obj obj.sections 0 nsAll hall i sec hsec
  rw [Nat.zero_add] at hoki
  obtain ⟨se', hse', B1, B2, B3, B4⟩ := gapSection_facts hwf hsec hoki
  have hsee : se = se' := by
    rw [hse] at hse'
    exact Option.some.inj hse'
  subst hsee
  obtain ⟨hsp, hsecs', hsyms'⟩ := foldl_add_split_fields nsAll obj
  subst hok
  have hsorted' : SplitsSorted
      ((nsAll.foldl (fun o p => add_split o p.1 p.2) obj).splits) := by
    rw [hsp]
    exact foldl_insertSplit_sorted nsAll obj.splits hwf.1 hfresh hpw
  have hLmem : ∀ x,
      x ∈ splits_for_range (nsAll.foldl (fun o p => add_split o p.1 p.2) obj)
        (secStart sec) se ↔
      x ∈ mergeKey nsi (splits_for_range obj (secStart sec) se) := by
    intro x
    rw [mem_splits_for_range, mem_mergeKey]
    constructor
    · rintro ⟨hx, hlo, hhi⟩
      rw [hsp] at hx
      rcases (mem_foldl_insertSplit nsAll obj.splits).mp hx with hx | hx
      · left
        obtain ⟨j, secj, nsj, hgj, hokj, hmemj⟩ :=
          (gapSections_mem obj _ 0 _ hall x).mp hx
        rw [Nat.zero_add] at hokj
        by_cases hij : j = i
        · subst hij
          rw [hsec] at hgj
          injection hgj with hgj
          subst hgj
          rw [hoki] at hokj
          injection hokj with hokj
          subst hokj
          exact hmemj
        · exfalso
          have hxI := gapSection_key_interval hwf hgj hokj x hmemj
          have hle := end_for_section_le hsec hse
          have hu := hwf.2.2.1 sec (List.get?_mem hsec)
          have hstart : secStart sec = sec.address := by
            have hu' : sec.address < U32 := by omega
            unfold secStart
            exact Nat.mod_eq_of_lt hu'
          have hd := sections_disjoint_at hwf.2.2.2.1 hgj hsec hij
          omega
      · exact Or.inr (mem_splits_for_range.mpr ⟨hx, hlo, hhi⟩)
    · intro hx
      rcases hx with hx | hx
      · have hxr := B1 x hx
        refine ⟨?_, hxr.1, hxr.2.1⟩
        rw [hsp]
        refine (mem_foldl_insertSplit _ _).mpr (Or.inl ?_)
        refine (gapSections_mem obj _ 0 _ hall x).mpr
          ⟨i, sec, nsi, hsec, ?_, hx⟩
        rwa [Nat.zero_add]
      · obtain ⟨hxs, hlo, hhi⟩ := mem_splits_for_range.mp hx
        refine ⟨?_, hlo, hhi⟩
        rw [hsp]
        exact (mem_foldl_insertSplit _ _).mpr (Or.inr hxs)
  have hLsorted : SplitsSorted
      (splits_for_range (nsAll.foldl (fun o p => add_split o p.1 p.2) obj)
        (secStart sec) se) :=
    List.Pairwise.filter _ hsorted'
  have hMsorted : (mergeKey nsi
      (splits_for_range obj (secStart sec) se)).Pairwise
      (fun p q => p.1 < q.1) :=
    mergeKey_sorted nsi _ B3 (List.Pairwise.filter _ hwf.1) B2
  have hL : splits_for_range (nsAll.foldl (fun o p => add_split o p.1 p.2) obj)
      (secStart sec) se =
      mergeKey nsi (splits_for_range obj (secStart sec) se) :=
    sorted_ext _ _ hLsorted hMsorted hLmem
  rw [hL]
  exact ⟨tileChain_covers se _ _ B4, tileChain_disjoint se _ _ B4⟩

/-- C1 counterexample: on `c1cex` the gap-filling pass succeeds unchanged,
the section interval is `[0, 8)` (both as `[address, address + size)` and as
`[address, end_for_section)`), yet the union of the split intervals is
`[0, 16)` — the union does not equal the section interval, refuting the
claim as stated. -/
theorem c1_counterexample :
    create_gap_splits c1cex = .ok c1cex ∧
    end_for_section c1cex 0 = some 8 ∧
    ¬ CoversExactly 0 8 (effList 8 (splits_for_range c1cex 0 8)) := by
  refine ⟨rfl, rfl, ?_⟩
  intro h
  have h12 := (h 12).mpr ⟨(0, 16), ?_, by omega, by omega⟩
  · omega
  · rw [show effList 8 (splits_for_range c1cex 0 8) = [(0, 16)] from rfl]
    exact List.mem_singleton.mpr rfl

/-- The C1 witness image satisfies the gap-filling input invariants. -/
theorem c1wex_wf : GapInputWF c1wex := by
  refine ⟨by decide, by decide, by decide, by decide, ?_⟩
  intro i sec se hsec hse
  cases i with
  | zero =>
    have hs : sec = c1wsec := by
      rw [show c1wex.sections.get? 0 = some c1wsec from rfl] at hsec
      exact (Option.some.inj hsec).symm
    subst hs
    rw [show end_for_section c1wex 0 = some 16 from rfl] at hse
    have h16 : se = 16 := (Option.some.inj hse).symm
    subst h16
    constructor
    · intro p hp
      rw [show splits_for_range c1wex (secStart c1wsec) 16 =
        [(0, { unit := "x", endAddr := 8 })] from rfl] at hp
      rw [List.mem_singleton] at hp
      subst hp
      exact Or.inr ⟨by decide, by decide⟩
    · rw [show splits_for_range c1wex (secStart c1wsec) 16 =
        [(0, { unit := "x", endAddr := 8 })] from rfl]
      exact List.chain'_singleton _
  | succ n =>
    rw [show c1wex.sections.get? (n + 1) = List.get? [] n from rfl] at hsec
    exact absurd hsec (by simp)

/-- C1 witness: the amended theorem applied to `c1wex`, whose gap filling
yields `c1wres` with a gap split `[8, 16)`. -/
theorem c1_create_gap_splits_tiles_witness :
    CoversExactly (secStart c1wsec) 16
      (effList 16 (splits_for_range c1wres (secStart c1wsec) 16)) ∧
    IntervalsDisjoint
      (effList 16 (splits_for_range c1wres (secStart c1wsec) 16)) :=
  c1_create_gap_splits_tiles c1wex_wf
    (show create_gap_splits c1wex = .ok c1wres from rfl)
    0 c1wsec 16 rfl rfl

/-- The components of a consecutive pair are list members. -/
theorem mem_of_consecutivePairs {α : Type} :
    ∀ {l : List α} {x y : α}, (x, y) ∈ consecutivePairs l → x ∈ l ∧ y ∈ l := by
  intro l
  induction l with
  | nil => intro x y h; exact absurd h (by simp [consecutivePairs])
  | cons a rest ih =>
    intro x y h
    cases rest with
    | nil => exact absurd h (by simp [consecutivePairs])
    | cons b rest' =>
      rw [show consecutivePairs (a :: b :: rest') =
        (a, b) :: consecutivePairs (b :: rest') from rfl] at h
      rcases List.mem_cons.mp h with hh | hh
      · rw [Prod.mk.injEq] at hh
        obtain ⟨h1, h2⟩ := hh
        subst h1; subst h2
        exact ⟨List.mem_cons_self _ _,
          List.mem_cons_of_mem _ (List.mem_cons_self _ _)⟩
      · have := ih hh
        exact ⟨List.mem_cons_of_mem _ this.1, List.mem_cons_of_mem _ this.2⟩

/-- Kahn-style topological sort: a successful sort is a permutation of the
nodes in which every edge between nodes goes forward. -/
theorem topoSort_ok (edges : List (String × String)) :
    ∀ (fuel : Nat) (nodes l : List String), nodes.Nodup →
      topoSort edges fuel nodes = .ok l →
      (∀ x, x ∈ l ↔ x ∈ nodes) ∧ l.Nodup ∧
      (∀ u v, (u, v) ∈ edges → u ∈ nodes → v ∈ nodes → u ≠ v →
        l.indexOf u < l.indexOf v) := by
  intro fuel
  induction fuel with
  | zero =>
    intro nodes l hnd h
    cases nodes with
    | nil =>
      rw [show topoSort edges 0 [] = .ok [] from rfl] at h
      simp only [Except.ok.injEq] at h
      subst h
      exact ⟨fun x => Iff.rfl, List.Pairwise.nil, by simp⟩
    | cons n0 ns =>
      rw [show topoSort edges 0 (n0 :: ns) = .error .noFuel from rfl] at h
      exact absurd h (by simp)
  | succ f ih =>
    intro nodes l hnd h
    cases nodes with
    | nil =>
      rw [show topoSort edges (f + 1) [] = .ok [] from rfl] at h
      simp only [Except.ok.injEq] at h
      subst h
      exact ⟨fun x => Iff.rfl, List.Pairwise.nil, by simp⟩
    | cons n0 ns =>
      rw [show topoSort edges (f + 1) (n0 :: ns) =
        (match topoStep (n0 :: ns) edges with
         | none =>
           .error (.err "Cyclic dependency encountered while resolving link order")
         | some n =>
           match topoSort edges f ((n0 :: ns).erase n) with
           | .error e => .error e
           | .ok rest => .ok (n :: rest)) from rfl] at h
      rcases hstep : topoStep (n0 :: ns) edges with _ | n
      · rw [hstep] at h; exact absurd h (by simp)
      simp only [hstep] at h
      rcases hrec : topoSort edges f ((n0 :: ns).erase n) with e | rest
      · rw [hrec] at h; exact absurd h (by simp)
      simp only [hrec, Except.ok.injEq] at h
      subst h
      have hnmem : n ∈ n0 :: ns := List.mem_of_find?_eq_some hstep
      have hpred := List.find?_some hstep
      have hnoin : ∀ u, (u, n) ∈ edges → u ∉ (n0 :: ns) := by
        intro u hu hmem
        rw [Bool.not_eq_true', List.any_eq_false] at hpred
        have h2 := hpred (u, n) hu
        simp only [beq_self_eq_true, Bool.true_and, decide_eq_true_eq] at h2
        exact h2 hmem
      have hnd' : ((n0 :: ns).erase n).Nodup := hnd.erase n
      obtain ⟨M, ND, ORD⟩ := ih ((n0 :: ns).erase n) rest hnd' hrec
      have hnotrest : n ∉ rest := by
        intro hc
        exact hnd.not_mem_erase ((M n).mp hc)
      refine ⟨?_, ?_, ?_⟩
      · intro x
        constructor
        · intro hx
          rcases List.mem_cons.mp hx with hh | hh
          · subst hh; exact hnmem
          · exact List.mem_of_mem_erase ((M x).mp hh)
        · intro hx
          by_cases hxn : x = n
          · subst hxn; exact List.mem_cons_self _ _
          · exact List.mem_cons_of_mem _
              ((M x).mpr ((hnd.mem_erase_iff).mpr ⟨hxn, hx⟩))
      · exact List.Pairwise.cons (fun y hy hc => hnotrest (hc ▸ hy)) ND
      · intro u v huv hu hv hne
        by_cases hvn : v = n
        · subst hvn
          exact absurd hu (hnoin u huv)
        by_cases hun : u = n
        · subst hun
          rw [List.indexOf_cons_self]
          rw [List.indexOf_cons_ne _ (fun hc => hvn hc.symm)]
          exact Nat.succ_pos _
        · have hu' : u ∈ (n0 :: ns).erase n :=
            (hnd.mem_erase_iff).mpr ⟨hun, hu⟩
          have hv' : v ∈ (n0 :: ns).erase n :=
            (hnd.mem_erase_iff).mpr ⟨hvn, hv⟩
          have := ORD u v huv hu' hv' hne
          rw [List.indexOf_cons_ne _ (fun hc => hun hc.symm),
            List.indexOf_cons_ne _ (fun hc => hvn hc.symm)]
          omega

/-- C2: when `resolve_link_order` succeeds, then for every section and every
consecutive split pair `(a, b)` of its pairing source (which already skips
the leading `.ctors`/`.dtors` split), with distinct units and not a
common-BSS transition, the returned link order contains both units and
places `a.unit` before `b.unit`. -/
theorem c2_resolve_link_order {obj : ObjInfo} {order : List ObjUnit}
    (hok : resolve_link_order obj = .ok order) :
    ∀ sec ∈ obj.sections, ∀ pq ∈ consecutivePairs (sectionPairSource obj sec),
      pq.1.2.unit ≠ pq.2.2.unit →
      ¬(pq.1.2.common = false ∧ pq.2.2.common = true) →
      pq.1.2.unit ∈ order.map ObjUnit.name ∧
      pq.2.2.unit ∈ order.map ObjUnit.name ∧
      (order.map ObjUnit.name).indexOf pq.1.2.unit <
        (order.map ObjUnit.name).indexOf pq.2.2.unit := by
  unfold resolve_link_order at hok
  rcases hts : topoSort (linkOrderEdges obj) (linkOrderNodes obj).length
      (linkOrderNodes obj) with e | names
  · rw [hts] at hok; exact absurd hok (by simp)
  rw [hts] at hok
  simp only [Except.ok.injEq] at hok
  have hmapname : order.map ObjUnit.name = names := by
    rw [← hok, List.map_map]
    have hcg : ∀ nm ∈ names,
        (ObjUnit.name ∘ fun name =>
          match obj.link_order.find? (fun u => u.name == name) with
          | some existing => existing
          | none => { name := name,
                      autogenerated := is_unit_autogenerated obj name,
                      comment_version := none }) nm = nm := by
      intro nm _
      simp only [Function.comp]
      rcases hf : obj.link_order.find? (fun u => u.name == nm) with _ | u
      · simp only [hf]
      · simp only [hf]
        have hb := List.find?_some hf
        simp only [beq_iff_eq] at hb
        exact hb
    rw [List.map_congr_left hcg]
    simp
  obtain ⟨M, ND, ORD⟩ := topoSort_ok (linkOrderEdges obj) _ _ names
    (List.nodup_dedup _) hts
  intro sec hsec pq hpq hne hcomm
  have hedge : (pq.1.2.unit, pq.2.2.unit) ∈ linkOrderEdges obj := by
    unfold linkOrderEdges
    rw [List.mem_flatten]
    refine ⟨sectionEdges obj sec, List.mem_map_of_mem _ hsec, ?_⟩
    unfold sectionEdges
    rw [List.mem_filterMap]
    refine ⟨pq, hpq, ?_⟩
    have hcb : (!pq.1.2.common && pq.2.2.common) = false := by
      cases h1 : pq.1.2.common <;> cases h2 : pq.2.2.common <;> simp_all
    simp only [hcb, Bool.false_eq_true, if_false, if_pos hne]
  have hmemsplits : ∀ x : Nat × ObjSplit,
      x ∈ sectionPairSource obj sec → x ∈ obj.splits := by
    intro x hx
    unfold sectionPairSource at hx
    by_cases hnm : (sec.name == ".ctors" || sec.name == ".dtors") = true
    · rw [if_pos hnm] at hx
      exact List.mem_of_mem_filter (List.mem_of_mem_drop hx)
    · rw [if_neg hnm] at hx
      exact List.mem_of_mem_filter hx
  have hn1 : pq.1.2.unit ∈ linkOrderNodes obj := by
    unfold linkOrderNodes
    rw [List.mem_dedup]
    exact List.mem_map_of_mem _ (hmemsplits _ (mem_of_consecutivePairs hpq).1)
  have hn2 : pq.2.2.unit ∈ linkOrderNodes obj := by
    unfold linkOrderNodes
    rw [List.mem_dedup]
    exact List.mem_map_of_mem _ (hmemsplits _ (mem_of_consecutivePairs hpq).2)
  have hord := ORD pq.1.2.unit pq.2.2.unit hedge hn1 hn2 hne
  rw [hmapname]
  exact ⟨(M _).mpr hn1, (M _).mpr hn2, hord⟩

/-- C2 witness: resolving `c2ex` yields `[A, B]`, and the theorem applied to
the consecutive pair of `.text` splits places `A` before `B`. -/
theorem c2_resolve_link_order_witness :
    ("A" : String) ∈ c2order.map ObjUnit.name ∧
    ("B" : String) ∈ c2order.map ObjUnit.name ∧
    (c2order.map ObjUnit.name).indexOf "A" <
      (c2order.map ObjUnit.name).indexOf "B" :=
  c2_resolve_link_order
    (show resolve_link_order c2ex = .ok c2order from rfl)
    c2text (List.mem_singleton.mpr rfl)
    ((0, { unit := "A", endAddr := 4 }), (4, { unit := "B", endAddr := 8 }))
    (by decide) (by decide) (by decide)

/-- For a power-of-two alignment below `2^32` the mask test is exactly the
`mod` test. -/
theorem alignMask_pow2 (j cur : Nat) (hj : j < 32) :
    alignMask (2 ^ j) cur = false ↔ cur % 2 ^ j = 0 := by
  have h1 : 1 ≤ 2 ^ j := Nat.one_le_two_pow
  have h2 : (2 : Nat) ^ j < 2 ^ 32 :=
    Nat.pow_lt_pow_right (by omega) hj
  unfold alignMask
  have hm1 : 2 ^ j % U32 = 2 ^ j := Nat.mod_eq_of_lt (by unfold U32; omega)
  rw [hm1]
  have hm2 : (2 ^ j + U32 - 1) % U32 = 2 ^ j - 1 := by
    have : 2 ^ j + U32 - 1 = U32 + (2 ^ j - 1) := by omega
    rw [this, Nat.add_mod_left]
    exact Nat.mod_eq_of_lt (by unfold U32; omega)
  rw [hm2]
  rw [Nat.and_pow_two_sub_one_eq_mod]
  simp [bne]

/-- The halving loop followed by the final alignment check agrees with the
claim-side `alignSpec` on unaligned power-of-two inputs. -/
theorem alignHalve_spec (cur : Nat) :
    ∀ (fuel j : Nat), j < 32 → cur % 2 ^ j ≠ 0 →
      (if alignMask (alignHalve cur fuel (2 ^ j)) cur = true then
        (.error (.err "Invalid alignment for split") : Except SplitError Nat)
      else .ok (alignHalve cur fuel (2 ^ j))) =
      alignSpec cur (fuel + 1) (2 ^ j) := by
  intro fuel
  induction fuel with
  | zero =>
    intro j hj hun
    rw [show alignHalve cur 0 (2 ^ j) = 2 ^ j from rfl]
    rw [show alignSpec cur 1 (2 ^ j) =
      (if cur % 2 ^ j = 0 then .ok (2 ^ j)
       else if 4 < 2 ^ j then alignSpec cur 0 (2 ^ j / 2)
       else .error (.err "Invalid alignment for split")) from rfl]
    rw [if_neg hun]
    have hm : alignMask (2 ^ j) cur = true := by
      rcases Bool.eq_false_or_eq_true (alignMask (2 ^ j) cur) with h | h
      · exact h
      · exact absurd ((alignMask_pow2 j cur hj).mp h) hun
    rw [if_pos hm]
    by_cases h4 : 4 < 2 ^ j
    · rw [if_pos h4]
      rw [show alignSpec cur 0 (2 ^ j / 2) =
        .error (.err "Invalid alignment for split") from rfl]
    · rw [if_neg h4]
  | succ f ih =>
    intro j hj hun
    have hm : alignMask (2 ^ j) cur = true := by
      rcases Bool.eq_false_or_eq_true (alignMask (2 ^ j) cur) with h | h
      · exact h
      · exact absurd ((alignMask_pow2 j cur hj).mp h) hun
    rw [show alignHalve cur (f + 1) (2 ^ j) =
      (if 4 < 2 ^ j then
        if alignMask (2 ^ j / 2) cur = false then 2 ^ j / 2
        else alignHalve cur f (2 ^ j / 2)
      else 2 ^ j) from rfl]
    rw [show alignSpec cur (f + 1 + 1) (2 ^ j) =
      (if cur % 2 ^ j = 0 then .ok (2 ^ j)
       else if 4 < 2 ^ j then alignSpec cur (f + 1) (2 ^ j / 2)
       else .error (.err "Invalid alignment for split")) from rfl]
    rw [if_neg hun]
    by_cases h4 : 4 < 2 ^ j
    · rw [if_pos h4, if_pos h4]
      have hj1 : 1 ≤ j := by
        by_contra hc
        push_neg at hc
        interval_cases j <;> omega
      have h2j : 2 ^ j = 2 ^ (j - 1) * 2 := by
        rw [← pow_succ]
        congr 1
        omega
      have hpow : 2 ^ j / 2 = 2 ^ (j - 1) := by omega
      by_cases ha2 : alignMask (2 ^ j / 2) cur = false
      · rw [if_pos ha2]
        rw [if_neg (by rw [ha2]; simp)]
        rw [hpow] at ha2
        have := (alignMask_pow2 (j - 1) cur (by omega)).mp ha2
        rw [show alignSpec cur (f + 1) (2 ^ j / 2) =
          (if cur % (2 ^ j / 2) = 0 then .ok (2 ^ j / 2)
           else if 4 < 2 ^ j / 2 then alignSpec cur f (2 ^ j / 2 / 2)
           else .error (.err "Invalid alignment for split")) from rfl]
        rw [if_pos (by rw [hpow]; exact this)]
      · rw [if_neg ha2]
        rw [Bool.not_eq_false] at ha2
        rw [hpow] at ha2
        have hun2 : cur % 2 ^ (j - 1) ≠ 0 := by
          intro hc
          rw [(alignMask_pow2 (j - 1) cur (by omega)).mpr hc] at ha2
          exact Bool.noConfusion ha2
        rw [hpow]
        exact ih (j - 1) (by omega) hun2
    · rw [if_neg h4, if_neg h4]
      rw [if_pos hm]

/-- C6: the alignment used for a split is the split's own `align` if set,
else the section default (4 for code sections and the `.ctors`/`.dtors`/
`extab`/`extabindex`/`.sbss` names, 8 otherwise); on a misaligned start
address the value is repeatedly halved down to a minimum of 4 until the
address is aligned (`alignSpec`, the claim's own words), and the split
processing — hence `split_obj` — fails if it is still unaligned there.
Stated for power-of-two starting alignments (`2 ^ k`), where "aligned"
means divisibility. -/
theorem c6_split_alignment (sec : ObjSection) (split : ObjSplit)
    (cur k : Nat) (hk : k < 32)
    (ha : (match split.align with
           | some a => a
           | none => default_section_align sec) = 2 ^ k) :
    computeAlign sec split cur = alignSpec cur (2 ^ k + 1) (2 ^ k) ∧
    (sec.kind = .Code → default_section_align sec = 4) ∧
    ((sec.name = ".ctors" ∨ sec.name = ".dtors" ∨ sec.name = "extab" ∨
      sec.name = "extabindex" ∨ sec.name = ".sbss") →
      default_section_align sec = 4) ∧
    (sec.kind ≠ .Code → sec.name ≠ ".ctors" → sec.name ≠ ".dtors" →
      sec.name ≠ "extab" → sec.name ≠ "extabindex" → sec.name ≠ ".sbss" →
      default_section_align sec = 8) ∧
    (∀ (obj : ObjInfo) (fileEnd : Nat) (file : ObjInfo)
      (symIdxs : List (Option Nat)) (e : SplitError),
      computeAlign sec split cur = .error e →
      processSplit obj sec cur fileEnd split file symIdxs = .error e) := by
  refine ⟨?_, ?_, ?_, ?_, ?_⟩
  · unfold computeAlign
    rw [ha]
    by_cases hal : cur % 2 ^ k = 0
    · have hmask : alignMask (2 ^ k) cur = false :=
        (alignMask_pow2 k cur hk).mpr hal
      simp only [hmask, Bool.false_eq_true, if_false]
      rw [show alignSpec cur (2 ^ k + 1) (2 ^ k) =
        (if cur % 2 ^ k = 0 then .ok (2 ^ k)
         else if 4 < 2 ^ k then alignSpec cur (2 ^ k) (2 ^ k / 2)
         else .error (.err "Invalid alignment for split")) from rfl]
      rw [if_pos hal]
    · have hmask : alignMask (2 ^ k) cur = true := by
        rcases Bool.eq_false_or_eq_true (alignMask (2 ^ k) cur) with h | h
        · exact h
        · exact absurd ((alignMask_pow2 k cur hk).mp h) hal
      simp only [hmask, if_true]
      exact alignHalve_spec cur (2 ^ k) k hk hal
  · intro hc
    unfold default_section_align
    rw [hc]
  · intro hc
    unfold default_section_align
    rcases hc with h | h | h | h | h <;> rw [h] <;> cases sec.kind <;> rfl
  · intro hnc h1 h2 h3 h4 h5
    unfold default_section_align
    cases hkind : sec.kind with
    | Code => exact absurd rfl (hkind ▸ hnc)
    | Data => split <;> simp_all
    | ReadOnlyData => split <;> simp_all
    | Bss => split <;> simp_all
  · intro obj fileEnd file symIdxs e he
    unfold processSplit
    rw [he]

/-- C6 witness: a data split with `align := some 8` at the misaligned
address 4 falls back to alignment 4 (one halving), matching `alignSpec`. -/
theorem c6_split_alignment_witness :
    computeAlign c6sec { unit := "u", endAddr := 8, align := some 8 } 4 =
      alignSpec 4 (2 ^ 3 + 1) (2 ^ 3) ∧
    (c6sec.kind = .Code → default_section_align c6sec = 4) ∧
    ((c6sec.name = ".ctors" ∨ c6sec.name = ".dtors" ∨ c6sec.name = "extab" ∨
      c6sec.name = "extabindex" ∨ c6sec.name = ".sbss") →
      default_section_align c6sec = 4) ∧
    (c6sec.kind ≠ .Code → c6sec.name ≠ ".ctors" → c6sec.name ≠ ".dtors" →
      c6sec.name ≠ "extab" → c6sec.name ≠ "extabindex" →
      c6sec.name ≠ ".sbss" → default_section_align c6sec = 8) ∧
    (∀ (obj : ObjInfo) (fileEnd : Nat) (file : ObjInfo)
      (symIdxs : List (Option Nat)) (e : SplitError),
      computeAlign c6sec { unit := "u", endAddr := 8, align := some 8 } 4 =
        .error e →
      processSplit obj c6sec 4 fileEnd
        { unit := "u", endAddr := 8, align := some 8 } file symIdxs =
        .error e) :=
  c6_split_alignment c6sec { unit := "u", endAddr := 8, align := some 8 }
    4 3 (by omega) rfl

/-- C4 counterexample: splitting `c4ex` (local `priv` at `0x8000ABCD`
defined in unit `A`, referenced from unit `B`) renames the symbol to
`priv_8000ABCD` in both outputs, but only `A`'s definition is scoped
Global — `B`'s external stub keeps its default (non-Global) flags,
refuting "scoped Global in both output objects". -/
theorem c4_counterexample :
    (split_obj c4ex).isOk = true ∧
    ((split_obj c4ex).toOption.getD []).map (fun o : ObjInfo =>
      (o.name, o.symbols.map (fun s : ObjSymbol =>
        (s.name, s.flags.isGlobal)))) =
      [("A", [("priv_8000ABCD", true)]), ("B", [("priv_8000ABCD", false)])] := by
  exact ⟨rfl, rfl⟩

/-- Idempotence of one globalisation step under a fixed name. -/
theorem globalizeSymbol_idem (n : String) (s : ObjSymbol) :
    globalizeSymbol n (globalizeSymbol n s) = globalizeSymbol n s := by
  unfold globalizeSymbol ObjSymbolFlagSet.is_local ObjSymbolFlagSet.setScopeGlobal
  by_cases h : s.flags.isLocal = true
  · simp [h]
  · rw [Bool.not_eq_true] at h
    simp [h]

/-- A fold whose step function absorbs errors returns the error it starts
from. -/
theorem foldl_error_absorb {α β ε : Type}
    (g : Except ε α → β → Except ε α)
    (hg : ∀ e b, g (.error e) b = .error e) :
    ∀ (l : List β) (e : ε), l.foldl g (.error e) = .error e := by
  intro l
  induction l with
  | nil => intro e; rfl
  | cons b l ih =>
    intro e
    rw [List.foldl_cons, hg]
    exact ih e

/-- C4 (amended): after the globalisation pass, in every output object where
a scheduled input symbol index is mapped, the mapped symbol ends up renamed
to the scheduled name; its scope is upgraded to Global exactly when the
mapped symbol was Local — hence the defining object's Local copy becomes
Global, while an external stub (default, non-Local flags) keeps its flags
and is not made Global. -/
theorem c4_globalize_rename {globalize : List (Nat × String)}
    {file file' : ObjInfo} {symIdxs : List (Option Nat)}
    (hok : applyGlobalizeObj globalize file symIdxs = .ok file')
    {gIdx : Nat} {newName : String}
    (hmem : (gIdx, newName) ∈ globalize)
    (huniq : ∀ p ∈ globalize, p.1 = gIdx → p.2 = newName)
    {symbolIdx : Nat} (hmap : symIdxs.getD gIdx none = some symbolIdx)
    (hinj : ∀ p ∈ globalize, p.1 ≠ gIdx →
      symIdxs.getD p.1 none ≠ some symbolIdx)
    {sym : ObjSymbol} (hsym : file.symbols.get? symbolIdx = some sym) :
    file'.symbols.get? symbolIdx = some (globalizeSymbol newName sym) ∧
    (globalizeSymbol newName sym).name = newName ∧
    (sym.flags.is_local = true →
      (globalizeSymbol newName sym).flags = sym.flags.setScopeGlobal) ∧
    (sym.flags.is_local = false →
      (globalizeSymbol newName sym).flags = sym.flags) := by
  refine ⟨?_, ?_, ?_, ?_⟩
  · have main : ∀ (gs : List (Nat × String)) (f : ObjInfo),
        (∀ p ∈ gs, p.1 = gIdx → p.2 = newName) →
        (∀ p ∈ gs, p.1 ≠ gIdx → symIdxs.getD p.1 none ≠ some symbolIdx) →
        ((f.symbols.get? symbolIdx = some sym ∧ (gIdx, newName) ∈ gs) ∨
          f.symbols.get? symbolIdx = some (globalizeSymbol newName sym)) →
        applyGlobalizeObj gs f symIdxs = .ok file' →
        file'.symbols.get? symbolIdx = some (globalizeSymbol newName sym) := by
      intro gs
      induction gs with
      | nil =>
        intro f _ _ hst h
        simp only [applyGlobalizeObj, List.foldl_nil, Except.ok.injEq] at h
        subst h
        rcases hst with ⟨_, hm⟩ | hst
        · exact absurd hm (by simp)
        · exact hst
      | cons gp gs' ih =>
        intro f hu hi hst h
        unfold applyGlobalizeObj at h
        rw [List.foldl_cons] at h
        have hu' : ∀ p ∈ gs', p.1 = gIdx → p.2 = newName :=
          fun p hp => hu p (List.mem_cons_of_mem gp hp)
        have hi' : ∀ p ∈ gs', p.1 ≠ gIdx →
            symIdxs.getD p.1 none ≠ some symbolIdx :=
          fun p hp => hi p (List.mem_cons_of_mem gp hp)
        rcases hgd : symIdxs.getD gp.1 none with _ | sIdx
        · simp only [hgd] at h
          refine ih f hu' hi' ?_ h
          rcases hst with ⟨hs, hm⟩ | hst
          · rcases List.mem_cons.mp hm with hh | hh
            · exfalso
              have hnone : symIdxs.getD gIdx none = none := by
                rw [← hh] at hgd; exact hgd
              rw [hmap] at hnone
              exact Option.noConfusion hnone
            · exact Or.inl ⟨hs, hh⟩
          · exact Or.inr hst
        · simp only [hgd] at h
          rcases hgs : f.symbols.get? sIdx with _ | symbol
          · simp only [hgs] at h
            rw [foldl_error_absorb _ (fun e b => rfl)] at h
            exact absurd h (by simp)
          · simp only [hgs] at h
            by_cases hg : gp.1 = gIdx
            · have hname : gp.2 = newName :=
                hu gp (List.mem_cons_self gp gs') hg
              rw [hg, hmap] at hgd
              have hsid : sIdx = symbolIdx := (Option.some.inj hgd).symm
              subst hsid
              have hlt : sIdx < f.symbols.length :=
                (List.get?_eq_some.mp hgs).1
              refine ih _ hu' hi' (Or.inr ?_) h
              rcases hst with ⟨hs, _⟩ | hst
              · have hsymeq : symbol = sym := Option.some.inj (hgs ▸ hs)
                subst hsymeq
                rw [hname]
                exact List.get?_set_eq_of_lt _ hlt
              · have hsymeq : symbol = globalizeSymbol newName sym :=
                  Option.some.inj (hgs ▸ hst)
                subst hsymeq
                rw [hname, globalizeSymbol_idem]
                exact List.get?_set_eq_of_lt _ hlt
            · have hne : sIdx ≠ symbolIdx := by
                intro hcontra
                exact hi gp (List.mem_cons_self gp gs') hg (hcontra ▸ hgd)
              have hpres : ∀ (a : ObjSymbol),
                  (f.symbols.set sIdx a).get? symbolIdx =
                    f.symbols.get? symbolIdx :=
                fun a => List.get?_set_ne a f.symbols hne
              refine ih _ hu' hi' ?_ h
              rcases hst with ⟨hs, hm⟩ | hst
              · refine Or.inl ⟨?_, ?_⟩
                · rw [hpres]; exact hs
                · rcases List.mem_cons.mp hm with hh | hh
                  · exact absurd (congrArg Prod.fst hh.symm) hg
                  · exact hh
              · refine Or.inr ?_
                rw [hpres]; exact hst
    exact main globalize file huniq hinj (Or.inl ⟨hsym, hmem⟩) hok
  · unfold globalizeSymbol ObjSymbolFlagSet.is_local
    by_cases h : sym.flags.isLocal = true <;> simp [h]
  · intro h
    unfold ObjSymbolFlagSet.is_local at h
    unfold globalizeSymbol ObjSymbolFlagSet.is_local
    simp [h]
  · intro h
    unfold ObjSymbolFlagSet.is_local at h
    unfold globalizeSymbol ObjSymbolFlagSet.is_local
    simp [h]

/-- C4 witness: the amended theorem applied to a one-symbol object with
schedule `[(0, g)]` and map `[some 0]`; the Local symbol `p` is renamed to
`g` and scoped Global. -/
theorem c4_globalize_rename_witness :
    c4wfile2.symbols.get? 0 = some (globalizeSymbol "g" c4wsym) ∧
    (globalizeSymbol "g" c4wsym).name = "g" ∧
    (c4wsym.flags.is_local = true →
      (globalizeSymbol "g" c4wsym).flags = c4wsym.flags.setScopeGlobal) ∧
    (c4wsym.flags.is_local = false →
      (globalizeSymbol "g" c4wsym).flags = c4wsym.flags) :=
  c4_globalize_rename
    (show applyGlobalizeObj [(0, "g")] c4wfile [some 0] = .ok c4wfile2
      from rfl)
    (show ((0 : Nat), "g") ∈ [((0 : Nat), "g")] from List.mem_singleton.mpr rfl)
    (by intro p hp _; rw [List.mem_singleton.mp hp])
    (show [some 0].getD 0 none = some 0 from rfl)
    (by intro p hp hne; exact absurd (congrArg Prod.fst (List.mem_singleton.mp hp)) hne)
    (show c4wfile.symbols.get? 0 = some c4wsym from rfl)
/-- One relocation rewrite preserves map validity, grows the symbol table
monotonically, and produces a valid target index. -/
theorem rewriteReloc_valid {obj : ObjInfo} {sn : String}
    {st st' : RewriteState} {r r' : ObjReloc}
    (hok : rewriteReloc obj sn st r = .ok (st', r'))
    (hv : MapValidL st.symIdxs st.symbols.length) :
    MapValidL st'.symIdxs st'.symbols.length ∧
    st.symbols.length ≤ st'.symbols.length ∧
    r'.target_symbol < st'.symbols.length := by
  unfold rewriteReloc at hok
  rcases hg : st.symIdxs.get? r.target_symbol with _ | ov
  · simp only [hg] at hok
    exact Except.noConfusion hok
  · rcases ov with _ | outIdx
    · simp only [hg] at hok
      rcases hs : obj.symbols.get? r.target_symbol with _ | tsym
      · simp only [hs] at hok
        exact Except.noConfusion hok
      · simp only [hs] at hok
        have htgt : r.target_symbol < st.symIdxs.length := by
          rcases Nat.lt_or_ge r.target_symbol st.symIdxs.length with hlt | hge
          · exact hlt
          · rw [List.get?_eq_none.mpr hge] at hg
            exact Option.noConfusion hg
        have hmain : st' =
            { symbols := st.symbols ++
                [{ name := tsym.name,
                   demangled_name := tsym.demangled_name }],
              symIdxs := st.symIdxs.set r.target_symbol
                (some st.symbols.length),
              globalize :=
                if tsym.flags.is_local then
                  st.globalize ++ [(r.target_symbol,
                    if strEndsWith tsym.name
                        (hexUpperPadS 8 tsym.address) then
                      tsym.name
                    else
                      tsym.name ++ "_" ++ hexUpperPadS 8 tsym.address)]
                else st.globalize } ∧
            r' = { r with target_symbol := st.symbols.length } := by
          by_cases he : (sn == "extabindex") = true
          · rw [if_pos he] at hok
            rcases hsf : split_for obj (tsym.address % U32) with _ | p
            · simp only [hsf] at hok
              exact Except.noConfusion hok
            · simp only [hsf] at hok
              rw [Except.ok.injEq, Prod.mk.injEq] at hok
              exact ⟨hok.1.symm, hok.2.symm⟩
          · rw [if_neg he] at hok
            rw [Except.ok.injEq, Prod.mk.injEq] at hok
            exact ⟨hok.1.symm, hok.2.symm⟩
        obtain ⟨hst, hr⟩ := hmain
        subst hst hr
        refine ⟨?_, ?_, ?_⟩
        · intro i v hiv
          simp only [List.length_append, List.length_cons,
            List.length_nil] at *
          by_cases hieq : r.target_symbol = i
          · subst hieq
            rw [List.get?_set_eq_of_lt _ htgt] at hiv
            have hveq : v = st.symbols.length :=
              (Option.some.inj (Option.some.inj hiv)).symm
            omega
          · rw [List.get?_set_ne _ _ hieq] at hiv
            have := hv i v hiv
            omega
        · simp only [List.length_append, List.length_cons, List.length_nil]
          omega
        · simp only [List.length_append, List.length_cons, List.length_nil]
          omega
    · simp only [hg] at hok
      rw [Except.ok.injEq, Prod.mk.injEq] at hok
      obtain ⟨hst, hr⟩ := hok
      subst hst hr
      exact ⟨hv, Nat.le_refl _, hv _ _ hg⟩

/-- Rewriting a section's relocation list preserves map validity, grows the
symbol table, and yields only valid target indices. -/
theorem rewriteRelocsGo_valid {obj : ObjInfo} {sn : String} :
    ∀ (rs : List ObjReloc) (st : RewriteState) (rs' : List ObjReloc)
      (st' : RewriteState),
      rewriteRelocsGo obj sn rs st = .ok (rs', st') →
      MapValidL st.symIdxs st.symbols.length →
      MapValidL st'.symIdxs st'.symbols.length ∧
      st.symbols.length ≤ st'.symbols.length ∧
      ∀ r ∈ rs', r.target_symbol < st'.symbols.length := by
  intro rs
  induction rs with
  | nil =>
    intro st rs' st' hok hv
    rw [show rewriteRelocsGo obj sn [] st = .ok ([], st) from rfl] at hok
    rw [Except.ok.injEq, Prod.mk.injEq] at hok
    obtain ⟨h1, h2⟩ := hok
    subst h1 h2
    exact ⟨hv, Nat.le_refl _, fun r hr => absurd hr (by simp)⟩
  | cons r rs ih =>
    intro st rs' st' hok hv
    rw [show rewriteRelocsGo obj sn (r :: rs) st =
      (match rewriteReloc obj sn st r with
       | .error e => .error e
       | .ok sr =>
         match rewriteRelocsGo obj sn rs sr.1 with
         | .error e => .error e
         | .ok rss => .ok (sr.2 :: rss.1, rss.2)) from rfl] at hok
    rcases h1 : rewriteReloc obj sn st r with e | sr
    · simp only [h1] at hok
      exact Except.noConfusion hok
    · simp only [h1] at hok
      rcases h2 : rewriteRelocsGo obj sn rs sr.1 with e | rss
      · simp only [h2] at hok
        exact Except.noConfusion hok
      · simp only [h2] at hok
        rw [Except.ok.injEq, Prod.mk.injEq] at hok
        obtain ⟨h3, h4⟩ := hok
        subst h3 h4
        obtain ⟨sr1, sr2⟩ := sr
        obtain ⟨hv1, hm1, ht1⟩ := rewriteReloc_valid h1 hv
        obtain ⟨hv2, hm2, hall⟩ := ih sr1 rss.1 rss.2 h2 hv1
        refine ⟨hv2, Nat.le_trans hm1 hm2, ?_⟩
        intro x hx
        rcases List.mem_cons.mp hx with hh | hh
        · subst hh
          exact Nat.lt_of_lt_of_le ht1 hm2
        · exact hall x hh

/-- Rewriting all of an object's sections preserves map validity, grows the
symbol table, and yields only sections with valid target indices. -/
theorem rewriteObjectGo_valid {obj : ObjInfo} :
    ∀ (secs : List ObjSection) (st : RewriteState)
      (secs' : List ObjSection) (st' : RewriteState),
      rewriteObjectGo obj secs st = .ok (secs', st') →
      MapValidL st.symIdxs st.symbols.length →
      MapValidL st'.symIdxs st'.symbols.length ∧
      st.symbols.length ≤ st'.symbols.length ∧
      ∀ s ∈ secs', ∀ r ∈ s.relocations,
        r.target_symbol < st'.symbols.length := by
  intro secs
  induction secs with
  | nil =>
    intro st secs' st' hok hv
    rw [show rewriteObjectGo obj [] st = .ok ([], st) from rfl] at hok
    rw [Except.ok.injEq, Prod.mk.injEq] at hok
    obtain ⟨h1, h2⟩ := hok
    subst h1 h2
    exact ⟨hv, Nat.le_refl _, fun s hs => absurd hs (by simp)⟩
  | cons sec rest ih =>
    intro st secs' st' hok hv
    rw [show rewriteObjectGo obj (sec :: rest) st =
      (match rewriteRelocsGo obj sec.name sec.relocations st with
       | .error e => .error e
       | .ok rs =>
         match rewriteObjectGo obj rest rs.2 with
         | .error e => .error e
         | .ok rss =>
           .ok ({ sec with relocations := rs.1 } :: rss.1, rss.2)) from
      rfl] at hok
    rcases h1 : rewriteRelocsGo obj sec.name sec.relocations st with e | rs
    · simp only [h1] at hok
      exact Except.noConfusion hok
    · simp only [h1] at hok
      rcases h2 : rewriteObjectGo obj rest rs.2 with e | rss
      · simp only [h2] at hok
        exact Except.noConfusion hok
      · simp only [h2] at hok
        rw [Except.ok.injEq, Prod.mk.injEq] at hok
        obtain ⟨h3, h4⟩ := hok
        subst h3 h4
        obtain ⟨hv1, hm1, hall1⟩ :=
          rewriteRelocsGo_valid sec.relocations st rs.1 rs.2 h1 hv
        obtain ⟨hv2, hm2, hall2⟩ := ih rs.2 rss.1 rss.2 h2 hv1
        refine ⟨hv2, Nat.le_trans hm1 hm2, ?_⟩
        intro s hs r hr
        rcases List.mem_cons.mp hs with hh | hh
        · subst hh
          exact Nat.lt_of_lt_of_le (hall1 r hr) hm2
        · exact hall2 s hh r hr

/-- The rewrite phase on one output object yields an object all of whose
relocations carry valid target indices. -/
theorem rewriteObject_valid {obj file : ObjInfo}
    {symIdxs : List (Option Nat)} {globalize : List (Nat × String)}
    {out : ObjInfo × List (Option Nat) × List (Nat × String)}
    (hok : rewriteObject obj file symIdxs globalize = .ok out)
    (hv : MapValidL symIdxs file.symbols.length) :
    relocsValid out.1 := by
  unfold rewriteObject at hok
  rcases hgo : rewriteObjectGo obj file.sections
      { symbols := file.symbols, symIdxs := symIdxs,
        globalize := globalize } with e | ss
  · simp only [hgo] at hok
    exact Except.noConfusion hok
  · simp only [hgo] at hok
    have hout := Except.ok.inj hok
    obtain ⟨hv', hm', hall⟩ := rewriteObjectGo_valid file.sections
      { symbols := file.symbols, symIdxs := symIdxs,
        globalize := globalize } ss.1 ss.2 (by rw [hgo]) hv
    intro s hs r hr
    rw [← hout] at hs ⊢
    exact hall s hs r hr

/-- The rewrite phase over the output-object list yields only objects with
valid relocation target indices. -/
theorem rewritePhase_valid {obj : ObjInfo} :
    ∀ (pairs : List (ObjInfo × List (Option Nat)))
      (globalize : List (Nat × String))
      (out : List (ObjInfo × List (Option Nat)) × List (Nat × String)),
      rewritePhase obj pairs globalize = .ok out →
      (∀ p ∈ pairs, MapValidL p.2 p.1.symbols.length) →
      ∀ q ∈ out.1, relocsValid q.1 := by
  intro pairs
  induction pairs with
  | nil =>
    intro globalize out hok _
    rw [show rewritePhase obj [] globalize = .ok ([], globalize) from
      rfl] at hok
    have hout := Except.ok.inj hok
    rw [← hout]
    intro q hq
    exact absurd hq (by simp)
  | cons fm rest ih =>
    intro globalize out hok hv
    rw [show rewritePhase obj (fm :: rest) globalize =
      (match rewriteObject obj fm.1 fm.2 globalize with
       | .error e => .error e
       | .ok r =>
         match rewritePhase obj rest r.2.2 with
         | .error e => .error e
         | .ok rr => .ok ((r.1, r.2.1) :: rr.1, rr.2)) from rfl] at hok
    rcases h1 : rewriteObject obj fm.1 fm.2 globalize with e | r
    · simp only [h1] at hok
      exact Except.noConfusion hok
    · simp only [h1] at hok
      rcases h2 : rewritePhase obj rest r.2.2 with e | rr
      · simp only [h2] at hok
        exact Except.noConfusion hok
      · simp only [h2] at hok
        have hout := Except.ok.inj hok
        rw [← hout]
        intro q hq
        rcases List.mem_cons.mp hq with hh | hh
        · subst hh
          exact rewriteObject_valid h1 (hv fm (List.mem_cons_self fm rest))
        · exact ih r.2.2 (rr.1, rr.2) (by rw [h2]) 
            (fun p hp => hv p (List.mem_cons_of_mem fm hp)) q hh

/-- Symbol collection preserves map validity and grows the output symbol
list monotonically. -/
theorem collectSymbols_valid {split : ObjSplit} {cur k : Nat} :
    ∀ (syms : List (Nat × ObjSymbol)) (outSyms : List ObjSymbol)
      (symIdxs : List (Option Nat)) (comm : Nat),
      MapValidL symIdxs outSyms.length →
      MapValidL (collectSymbols split cur k syms outSyms symIdxs comm).2
        (collectSymbols split cur k syms outSyms symIdxs comm).1.length ∧
      outSyms.length ≤
        (collectSymbols split cur k syms outSyms symIdxs comm).1.length := by
  intro syms
  induction syms with
  | nil =>
    intro outSyms symIdxs comm hv
    exact ⟨hv, Nat.le_refl _⟩
  | cons p rest ih =>
    obtain ⟨symbolIdx, symbol⟩ := p
    intro outSyms symIdxs comm hv
    rw [show collectSymbols split cur k ((symbolIdx, symbol) :: rest)
        outSyms symIdxs comm =
      (if (symIdxs.getD symbolIdx none).isSome then
        collectSymbols split cur k rest outSyms symIdxs comm
      else
        collectSymbols split cur k rest
          ((if split.common ∧ comm < symbol.address % U32 then
              outSyms ++
                [{ name := "pad_" ++ hexUpperPadS 10 comm,
                   demangled_name := none, address := 0, sectionIdx := none,
                   size := symbol.address - comm, size_known := true,
                   flags := commonFlagSet, kind := .Object, align := some 4,
                   data_kind := .Unknown }]
            else outSyms : List ObjSymbol) ++
            [{ name := symbol.name, demangled_name := symbol.demangled_name,
               address := if split.common then 4 else symbol.address - cur,
               sectionIdx := if split.common then none else some k,
               size := symbol.size, size_known := symbol.size_known,
               flags := if split.common then commonFlagSet
                 else symbol.flags,
               kind := symbol.kind,
               align := if split.common then some 4 else symbol.align,
               data_kind := symbol.data_kind }])
          (symIdxs.set symbolIdx
            (some (if split.common ∧ comm < symbol.address % U32 then
                outSyms ++
                  [{ name := "pad_" ++ hexUpperPadS 10 comm,
                     demangled_name := none, address := 0,
                     sectionIdx := none,
                     size := symbol.address - comm, size_known := true,
                     flags := commonFlagSet, kind := .Object,
                     align := some 4,
                     data_kind := .Unknown }]
              else outSyms : List ObjSymbol).length))
          ((symbol.address + symbol.size) % U32)) from rfl]
    by_cases hc : (symIdxs.getD symbolIdx none).isSome = true
    · rw [if_pos hc]
      exact ih outSyms symIdxs comm hv
    · rw [if_neg hc]
      have hstep := ih
        ((if split.common ∧ comm < symbol.address % U32 then
            outSyms ++
              [{ name := "pad_" ++ hexUpperPadS 10 comm,
                 demangled_name := none, address := 0, sectionIdx := none,
                 size := symbol.address - comm, size_known := true,
                 flags := commonFlagSet, kind := .Object, align := some 4,
                 data_kind := .Unknown }]
          else outSyms : List ObjSymbol) ++
          [{ name := symbol.name, demangled_name := symbol.demangled_name,
             address := if split.common then 4 else symbol.address - cur,
             sectionIdx := if split.common then none else some k,
             size := symbol.size, size_known := symbol.size_known,
             flags := if split.common then commonFlagSet else symbol.flags,
             kind := symbol.kind,
             align := if split.common then some 4 else symbol.align,
             data_kind := symbol.data_kind }])
        (symIdxs.set symbolIdx
          (some (if split.common ∧ comm < symbol.address % U32 then
              outSyms ++
                [{ name := "pad_" ++ hexUpperPadS 10 comm,
                   demangled_name := none, address := 0, sectionIdx := none,
                   size := symbol.address - comm, size_known := true,
                   flags := commonFlagSet, kind := .Object, align := some 4,
                   data_kind := .Unknown }]
            else outSyms : List ObjSymbol).length))
        ((symbol.address + symbol.size) % U32)
      have hlen1 : outSyms.length ≤
          (if split.common ∧ comm < symbol.address % U32 then
            outSyms ++
              [{ name := "pad_" ++ hexUpperPadS 10 comm,
                 demangled_name := none, address := 0, sectionIdx := none,
                 size := symbol.address - comm, size_known := true,
                 flags := commonFlagSet, kind := .Object, align := some 4,
                 data_kind := .Unknown }]
          else outSyms : List ObjSymbol).length := by
        split
        · simp [List.length_append]
        · exact Nat.le_refl _
      have hvnew : MapValidL
          (symIdxs.set symbolIdx
            (some (if split.common ∧ comm < symbol.address % U32 then
                outSyms ++
                  [{ name := "pad_" ++ hexUpperPadS 10 comm,
                     demangled_name := none, address := 0,
                     sectionIdx := none,
                     size := symbol.address - comm, size_known := true,
                     flags := commonFlagSet, kind := .Object,
                     align := some 4,
                     data_kind := .Unknown }]
              else outSyms : List ObjSymbol).length))
          (((if split.common ∧ comm < symbol.address % U32 then
              outSyms ++
                [({ name := "pad_" ++ hexUpperPadS 10 comm,
                    demangled_name := none, address := 0, sectionIdx := none,
                    size := symbol.address - comm, size_known := true,
                    flags := commonFlagSet, kind := .Object, align := some 4,
                    data_kind := .Unknown } : ObjSymbol)]
            else outSyms : List ObjSymbol) ++
            [({ name := symbol.name,
                demangled_name := symbol.demangled_name,
                address := if split.common then 4 else symbol.address - cur,
                sectionIdx := if split.common then none else some k,
                size := symbol.size, size_known := symbol.size_known,
                flags := if split.common then commonFlagSet
                  else symbol.flags,
                kind := symbol.kind,
                align := if split.common then some 4 else symbol.align,
                data_kind := symbol.data_kind } : ObjSymbol)]).length) := by
        intro i v hiv
        rw [List.get?_set] at hiv
        by_cases hieq : symbolIdx = i
        · rw [if_pos hieq] at hiv
          rcases hgi : symIdxs.get? i with _ | w
          · rw [hgi] at hiv
            exact Option.noConfusion hiv
          · rw [hgi] at hiv
            have hveq := Option.some.inj (Option.some.inj hiv)
            rw [← hveq]
            simp only [List.length_append, List.length_cons, List.length_nil]
            omega
        · rw [if_neg hieq] at hiv
          have := hv i v hiv
          simp only [List.length_append, List.length_cons, List.length_nil]
          omega
      obtain ⟨hv', hm'⟩ := hstep hvnew
      refine ⟨hv', Nat.le_trans ?_ hm'⟩
      simp only [List.length_append, List.length_cons, List.length_nil]
      omega

/-- One split's processing preserves map validity against the output
object's symbol table. -/
theorem processSplit_valid {obj : ObjInfo} {sec : ObjSection}
    {cur fileEnd : Nat} {split : ObjSplit} {file : ObjInfo}
    {symIdxs : List (Option Nat)} {out : ObjInfo × List (Option Nat)}
    (hok : processSplit obj sec cur fileEnd split file symIdxs = .ok out)
    (hv : MapValidL symIdxs file.symbols.length) :
    MapValidL out.2 out.1.symbols.length ∧
    file.symbols.length ≤ out.1.symbols.length := by
  unfold processSplit at hok
  rcases hca : computeAlign sec split cur with e | align
  · simp only [hca] at hok
    exact Except.noConfusion hok
  · simp only [hca] at hok
    obtain ⟨hcv, hcm⟩ := collectSymbols_valid
      (symbols_for_range obj.symbols cur fileEnd) file.symbols symIdxs cur hv
    by_cases hcom : split.common = true
    · rw [if_pos hcom] at hok
      have hout := Except.ok.inj hok
      rw [← hout]
      constructor
      · intro i v hiv
        refine Nat.lt_of_lt_of_le (hcv i v hiv) ?_
        split <;> exact Nat.le_refl _
      · refine Nat.le_trans hcm ?_
        split <;> exact Nat.le_refl _
    · rw [if_neg hcom] at hok
      rcases hsd : secData sec cur fileEnd with _ | data
      · simp only [hsd] at hok
        exact Except.noConfusion hok
      · simp only [hsd] at hok
        have hout := Except.ok.inj hok
        rw [← hout]
        constructor
        · intro i v hiv
          refine Nat.lt_of_lt_of_le (hcv i v hiv) ?_
          split <;> exact Nat.le_refl _
        · refine Nat.le_trans hcm ?_
          split <;> exact Nat.le_refl _

/-- Unfolding equation of `splitWalk` on an empty split list. -/
theorem splitWalk_nil (obj : ObjInfo) (sec : ObjSection)
    (sectionEnd cur : Nat) (ctx : SplitCtx) :
    splitWalk obj sec sectionEnd cur [] ctx =
      (if sectionEnd ≤ cur then .ok ctx
       else .error (.err "No file found")) := rfl

/-- Unfolding equation of `splitWalk` on a single remaining split. -/
theorem splitWalk_one (obj : ObjInfo) (sec : ObjSection)
    (sectionEnd cur fileAddr : Nat) (split : ObjSplit) (ctx : SplitCtx) :
    splitWalk obj sec sectionEnd cur [(fileAddr, split)] ctx =
      (if sectionEnd ≤ cur then .ok ctx
       else if cur < fileAddr then .error (.err "Gap in files")
       else
         match nameToObj obj.link_order split.unit with
         | none => .error (.err "Unit not in link order")
         | some objIdx =>
           match ctx.objects.get? objIdx, ctx.objectSymbols.get? objIdx with
           | some file, some symIdxs =>
             match processSplit obj sec cur sectionEnd split file
                 symIdxs with
             | .error e => .error e
             | .ok fs =>
               splitWalk obj sec sectionEnd sectionEnd []
                 { objects := ctx.objects.set objIdx fs.1,
                   objectSymbols := ctx.objectSymbols.set objIdx fs.2 }
           | _, _ => .error .panicked) := rfl

/-- Unfolding equation of `splitWalk` on two or more remaining splits. -/
theorem splitWalk_two (obj : ObjInfo) (sec : ObjSection)
    (sectionEnd cur fileAddr nextAddr : Nat) (split nsplit : ObjSplit)
    (rest2 : List (Nat × ObjSplit)) (ctx : SplitCtx) :
    splitWalk obj sec sectionEnd cur
        ((fileAddr, split) :: (nextAddr, nsplit) :: rest2) ctx =
      (if sectionEnd ≤ cur then .ok ctx
       else if cur < fileAddr then .error (.err "Gap in files")
       else
         match nameToObj obj.link_order split.unit with
         | none => .error (.err "Unit not in link order")
         | some objIdx =>
           match ctx.objects.get? objIdx, ctx.objectSymbols.get? objIdx with
           | some file, some symIdxs =>
             match processSplit obj sec cur (min nextAddr sectionEnd) split
                 file symIdxs with
             | .error e => .error e
             | .ok fs =>
               splitWalk obj sec sectionEnd (min nextAddr sectionEnd)
                 ((nextAddr, nsplit) :: rest2)
                 { objects := ctx.objects.set objIdx fs.1,
                   objectSymbols := ctx.objectSymbols.set objIdx fs.2 }
           | _, _ => .error .panicked) := rfl

/-- The inner step of the split walk preserves the bookkeeping invariant:
setting one unit's object and map to a processed split's result. -/
theorem splitWalk_step_valid {obj : ObjInfo} {sec : ObjSection}
    {cur nextEnd : Nat} {split : ObjSplit} {ctx : SplitCtx} {objIdx : Nat}
    {file : ObjInfo} {symIdxs : List (Option Nat)}
    {fs : ObjInfo × List (Option Nat)}
    (ho : ctx.objects.get? objIdx = some file)
    (hm : ctx.objectSymbols.get? objIdx = some symIdxs)
    (hp : processSplit obj sec cur nextEnd split file symIdxs = .ok fs)
    (hv : CtxValid ctx) :
    CtxValid { objects := ctx.objects.set objIdx fs.1,
               objectSymbols := ctx.objectSymbols.set objIdx fs.2 } := by
  intro k f m hkf hkm
  obtain ⟨hpv, _⟩ := processSplit_valid hp (hv objIdx file symIdxs ho hm)
  by_cases hkeq : objIdx = k
  · subst hkeq
    have hlt1 : objIdx < ctx.objects.length := by
      rcases Nat.lt_or_ge objIdx ctx.objects.length with h | h
      · exact h
      · rw [List.get?_eq_none.mpr h] at ho
        exact Option.noConfusion ho
    have hlt2 : objIdx < ctx.objectSymbols.length := by
      rcases Nat.lt_or_ge objIdx ctx.objectSymbols.length with h | h
      · exact h
      · rw [List.get?_eq_none.mpr h] at hm
        exact Option.noConfusion hm
    simp only at hkf hkm
    rw [List.get?_set_eq_of_lt _ hlt1] at hkf
    rw [List.get?_set_eq_of_lt _ hlt2] at hkm
    rw [← Option.some.inj hkf, ← Option.some.inj hkm]
    exact hpv
  · simp only at hkf hkm
    rw [List.get?_set_ne _ _ hkeq] at hkf
    rw [List.get?_set_ne _ _ hkeq] at hkm
    exact hv k f m hkf hkm

/-- The per-section split walk preserves the bookkeeping invariant. -/
theorem splitWalk_valid {obj : ObjInfo} {sec : ObjSection}
    {sectionEnd : Nat} :
    ∀ (splits : List (Nat × ObjSplit)) (cur : Nat) (ctx ctx' : SplitCtx),
      splitWalk obj sec sectionEnd cur splits ctx = .ok ctx' →
      CtxValid ctx → CtxValid ctx' := by
  intro splits
  induction splits with
  | nil =>
    intro cur ctx ctx' hok hv
    rw [splitWalk_nil] at hok
    by_cases hle : sectionEnd ≤ cur
    · rw [if_pos hle] at hok
      rw [← Except.ok.inj hok]
      exact hv
    · rw [if_neg hle] at hok
      exact Except.noConfusion hok
  | cons p rest ih =>
    obtain ⟨fileAddr, split⟩ := p
    intro cur ctx ctx' hok hv
    rcases rest with _ | ⟨⟨nextAddr, nsplit⟩, rest2⟩
    · rw [splitWalk_one] at hok
      by_cases hle : sectionEnd ≤ cur
      · rw [if_pos hle] at hok
        rw [← Except.ok.inj hok]
        exact hv
      · rw [if_neg hle] at hok
        by_cases hgap : cur < fileAddr
        · rw [if_pos hgap] at hok
          exact Except.noConfusion hok
        · rw [if_neg hgap] at hok
          rcases hn : nameToObj obj.link_order split.unit with _ | objIdx
          · simp only [hn] at hok
            exact Except.noConfusion hok
          · simp only [hn] at hok
            rcases ho : ctx.objects.get? objIdx with _ | file
            · simp only [ho] at hok
              exact Except.noConfusion hok
            · rcases hm : ctx.objectSymbols.get? objIdx with _ | symIdxs
              · simp only [ho, hm] at hok
                exact Except.noConfusion hok
              · simp only [ho, hm] at hok
                rcases hp : processSplit obj sec cur sectionEnd split file
                    symIdxs with e | fs
                · rw [hp] at hok
                  exact Except.noConfusion hok
                · rw [hp] at hok
                  exact ih _ _ _ hok (splitWalk_step_valid ho hm hp hv)
    · rw [splitWalk_two] at hok
      by_cases hle : sectionEnd ≤ cur
      · rw [if_pos hle] at hok
        rw [← Except.ok.inj hok]
        exact hv
      · rw [if_neg hle] at hok
        by_cases hgap : cur < fileAddr
        · rw [if_pos hgap] at hok
          exact Except.noConfusion hok
        · rw [if_neg hgap] at hok
          rcases hn : nameToObj obj.link_order split.unit with _ | objIdx
          · simp only [hn] at hok
            exact Except.noConfusion hok
          · simp only [hn] at hok
            rcases ho : ctx.objects.get? objIdx with _ | file
            · simp only [ho] at hok
              exact Except.noConfusion hok
            · rcases hm : ctx.objectSymbols.get? objIdx with _ | symIdxs
              · simp only [ho, hm] at hok
                exact Except.noConfusion hok
              · simp only [ho, hm] at hok
                rcases hp : processSplit obj sec cur
                    (min nextAddr sectionEnd) split file symIdxs with e | fs
                · rw [hp] at hok
                  exact Except.noConfusion hok
                · rw [hp] at hok
                  exact ih _ _ _ hok (splitWalk_step_valid ho hm hp hv)

/-- The section fold of the first phase preserves the bookkeeping
invariant. -/
theorem splitWalkSections_valid {obj : ObjInfo} :
    ∀ (secs : List ObjSection) (idx : Nat) (ctx ctx' : SplitCtx),
      splitWalkSections obj idx secs ctx = .ok ctx' →
      CtxValid ctx → CtxValid ctx' := by
  intro secs
  induction secs with
  | nil =>
    intro idx ctx ctx' hok hv
    rw [show splitWalkSections obj idx [] ctx = .ok ctx from rfl] at hok
    rw [← Except.ok.inj hok]
    exact hv
  | cons sec rest ih =>
    intro idx ctx ctx' hok hv
    rw [show splitWalkSections obj idx (sec :: rest) ctx =
      (match end_for_section obj idx with
       | none => .error .panicked
       | some sectionEnd =>
         match splitWalk obj sec sectionEnd (secStart sec)
             (splits_for_range obj (secStart sec) sectionEnd) ctx with
         | .error e => .error e
         | .ok ctx2 => splitWalkSections obj (idx + 1) rest ctx2) from
      rfl] at hok
    rcases he : end_for_section obj idx with _ | sectionEnd
    · simp only [he] at hok
      exact Except.noConfusion hok
    · simp only [he] at hok
      rcases hw : splitWalk obj sec sectionEnd (secStart sec)
          (splits_for_range obj (secStart sec) sectionEnd) ctx with e | ctx2
      · simp only [hw] at hok
        exact Except.noConfusion hok
      · simp only [hw] at hok
        exact ih (idx + 1) ctx2 ctx' hok
          (splitWalk_valid _ _ ctx ctx2 hw hv)

/-- The initial bookkeeping is valid: every symbol map is all-`None`. -/
theorem initCtx_valid (obj : ObjInfo) : CtxValid (initCtx obj) := by
  intro k file m hkf hkm i v hiv
  exfalso
  have hm : m = List.replicate obj.symbols.length none := by
    unfold initCtx at hkm
    simp only at hkm
    rcases hgm : obj.link_order.get? k with _ | u
    · rw [List.get?_map, hgm] at hkm
      exact Option.noConfusion hkm
    · rw [List.get?_map, hgm] at hkm
      exact (Option.some.inj hkm).symm
  subst hm
  rcases Nat.lt_or_ge i obj.symbols.length with hlt | hge
  · rw [List.get?_eq_get (by simpa using hlt)] at hiv
    have := List.get_replicate (none : Option Nat)
      (⟨i, by simpa using hlt⟩ : Fin (List.replicate obj.symbols.length
        (none : Option Nat)).length)
    rw [this] at hiv
    exact Option.noConfusion (Option.some.inj hiv)
  · rw [List.get?_eq_none.mpr (by simpa using hge)] at hiv
    exact Option.noConfusion hiv

/-- A pair of a zip is index-aligned: its parts appear at one common
position of the two lists. -/
theorem mem_zip_get? {α β : Type} :
    ∀ (l1 : List α) (l2 : List β) (p : α × β), p ∈ l1.zip l2 →
      ∃ i, l1.get? i = some p.1 ∧ l2.get? i = some p.2 := by
  intro l1
  induction l1 with
  | nil => intro l2 p h; exact absurd h (by simp)
  | cons a rest ih =>
    intro l2 p h
    cases l2 with
    | nil => exact absurd h (by simp)
    | cons b rest2 =>
      rw [show (a :: rest).zip (b :: rest2) =
        (a, b) :: rest.zip rest2 from rfl] at h
      rcases List.mem_cons.mp h with hh | hh
      · subst hh
        exact ⟨0, rfl, rfl⟩
      · obtain ⟨i, h1, h2⟩ := ih rest2 p hh
        exact ⟨i + 1, h1, h2⟩

/-- The globalisation pass changes neither the sections nor the symbol
count of an output object. -/
theorem applyGlobalizeObj_frame {symIdxs : List (Option Nat)} :
    ∀ (gs : List (Nat × String)) (f f' : ObjInfo),
      applyGlobalizeObj gs f symIdxs = .ok f' →
      f'.sections = f.sections ∧
      f'.symbols.length = f.symbols.length := by
  intro gs
  induction gs with
  | nil =>
    intro f f' hok
    rw [show applyGlobalizeObj [] f symIdxs = .ok f from rfl] at hok
    rw [← Except.ok.inj hok]
    exact ⟨rfl, rfl⟩
  | cons gp rest ih =>
    intro f f' hok
    unfold applyGlobalizeObj at hok
    rw [List.foldl_cons] at hok
    rcases hgd : symIdxs.getD gp.1 none with _ | sIdx
    · simp only [hgd] at hok
      exact ih f f' hok
    · simp only [hgd] at hok
      rcases hgs : f.symbols.get? sIdx with _ | symbol
      · simp only [hgs] at hok
        rw [foldl_error_absorb _ (fun e b => rfl)] at hok
        exact Except.noConfusion hok
      · simp only [hgs] at hok
        obtain ⟨h1, h2⟩ := ih _ f' hok
        refine ⟨h1, ?_⟩
        rw [h2]
        exact List.length_set f.symbols sIdx _

/-- The globalisation pass over all objects preserves relocation-index
validity. -/
theorem applyGlobalizeAll_valid {gs : List (Nat × String)} :
    ∀ (fs : List ObjInfo) (ms : List (List (Option Nat)))
      (fs' : List ObjInfo),
      applyGlobalizeAll gs fs ms = .ok fs' →
      (∀ f ∈ fs, relocsValid f) → ∀ f' ∈ fs', relocsValid f' := by
  intro fs
  induction fs with
  | nil =>
    intro ms fs' hok _
    rw [show applyGlobalizeAll gs [] ms = .ok [] from
      (by cases ms <;> rfl)] at hok
    rw [← Except.ok.inj hok]
    intro f' h
    exact absurd h (by simp)
  | cons f rest ih =>
    intro ms fs' hok hv
    cases ms with
    | nil =>
      rw [show applyGlobalizeAll gs (f :: rest) [] =
        .ok (f :: rest) from rfl] at hok
      rw [← Except.ok.inj hok]
      exact hv
    | cons m ms' =>
      rw [show applyGlobalizeAll gs (f :: rest) (m :: ms') =
        (match applyGlobalizeObj gs f m with
         | .error e => .error e
         | .ok f2 =>
           match applyGlobalizeAll gs rest ms' with
           | .error e => .error e
           | .ok fs2 => .ok (f2 :: fs2)) from rfl] at hok
      rcases h1 : applyGlobalizeObj gs f m with e | f2
      · simp only [h1] at hok
        exact Except.noConfusion hok
      · simp only [h1] at hok
        rcases h2 : applyGlobalizeAll gs rest ms' with e | fs2
        · simp only [h2] at hok
          exact Except.noConfusion hok
        · simp only [h2] at hok
          rw [← Except.ok.inj hok]
          intro f' hf'
          rcases List.mem_cons.mp hf' with hh | hh
          · subst hh
            obtain ⟨hsec, hlen⟩ := applyGlobalizeObj_frame gs f f' h1
            intro s hs r hr
            rw [hsec] at hs
            rw [hlen]
            exact hv f (List.mem_cons_self f rest) s hs r hr
          · exact ih ms' fs2 h2
              (fun x hx => hv x (List.mem_cons_of_mem f hx)) f' hh

/-- The extern pass changes neither the sections nor the symbol count. -/
theorem externObject_frame (file : ObjInfo) :
    (externObject file).sections = file.sections ∧
    (externObject file).symbols.length = file.symbols.length := by
  unfold externObject
  generalize ((file.symbols.enum.filter _).map _) = rs
  induction rs generalizing file with
  | nil => exact ⟨rfl, rfl⟩
  | cons r rest ih =>
    rw [List.foldl_cons]
    obtain ⟨h1, h2⟩ := ih { file with symbols := file.symbols.set r.1 r.2 }
    refine ⟨h1, ?_⟩
    rw [h2]
    exact List.length_set file.symbols r.1 r.2

/-- C5: when `split_obj` succeeds, every relocation of every section of
every output object targets a valid index of that object's own symbol
table. -/
theorem c5_split_obj_relocs_valid {obj : ObjInfo} {objs : List ObjInfo}
    (hok : split_obj obj = .ok objs) :
    ∀ o ∈ objs, relocsValid o := by
  unfold split_obj at hok
  by_cases hk : obj.kind ≠ ObjKind.Executable
  · rw [if_pos hk] at hok
    exact Except.noConfusion hok
  · rw [if_neg hk] at hok
    rcases h1 : splitWalkSections obj 0 obj.sections (initCtx obj)
        with e | ctx
    · simp only [h1] at hok
      exact Except.noConfusion hok
    · simp only [h1] at hok
      rcases h2 : rewritePhase obj (ctx.objects.zip ctx.objectSymbols) []
          with e | r
      · simp only [h2] at hok
        exact Except.noConfusion hok
      · simp only [h2] at hok
        rcases h3 : applyGlobalizeAll r.2 (r.1.map Prod.fst)
            (r.1.map Prod.snd) with e | objects2
        · simp only [h3] at hok
          exact Except.noConfusion hok
        · simp only [h3] at hok
          rw [← Except.ok.inj hok]
          have hctx : CtxValid ctx := splitWalkSections_valid obj.sections
            0 (initCtx obj) ctx h1 (initCtx_valid obj)
          have hpairs : ∀ p ∈ ctx.objects.zip ctx.objectSymbols,
              MapValidL p.2 p.1.symbols.length := by
            intro p hp
            obtain ⟨i, hif, him⟩ := mem_zip_get? _ _ p hp
            exact hctx i p.1 p.2 hif him
          have hrw : ∀ q ∈ r.1, relocsValid q.1 :=
            rewritePhase_valid (ctx.objects.zip ctx.objectSymbols) [] r
              h2 hpairs
          have hfs : ∀ f ∈ r.1.map Prod.fst, relocsValid f := by
            intro f hf
            rw [List.mem_map] at hf
            obtain ⟨q, hq, hfq⟩ := hf
            rw [← hfq]
            exact hrw q hq
          have hobj2 : ∀ f' ∈ objects2, relocsValid f' :=
            applyGlobalizeAll_valid (r.1.map Prod.fst) (r.1.map Prod.snd)
              objects2 h3 hfs
          intro o ho
          rw [List.mem_map] at ho
          obtain ⟨f', hf', hext⟩ := ho
          rw [← hext]
          obtain ⟨hsec, hlen⟩ := externObject_frame f'
          intro s hs rr hr
          rw [hsec] at hs
          rw [hlen]
          exact hobj2 f' hf' s hs rr hr

/-- C5 witness: `split_obj` on `c5ex` yields `[c5out]`, and the single
relocation of its single section targets index `0`, a valid index of the
one-symbol table. -/
theorem c5_split_obj_relocs_valid_witness :
    c5orel.target_symbol < c5out.symbols.length :=
  c5_split_obj_relocs_valid
    (show split_obj c5ex = .ok [c5out] from rfl)
    c5out (List.mem_singleton.mpr rfl) c5osec (List.mem_singleton.mpr rfl)
    c5orel (List.mem_singleton.mpr rfl)

/-- C3 counterexample: `write_splits` emits only `start`/`end`, so writing
`c3ex` — whose split carries `align := some 8`, `common := true` and a
renamed section `custom` — and reading the file back yields a split with
`align := none`, `common := false` and the section's original name
`.data`: the round trip is not the identity on those fields. -/
theorem c3_counterexample :
    write_splits c3ex c3ex.link_order = .ok c3lines ∧
    (apply_splits c3lines {}).toOption = some c3rt ∧
    c3rt.link_order = c3ex.link_order ∧
    c3rt.splits.map (fun p => (p.1, p.2.align, p.2.common)) =
      [(0, none, false)] ∧
    c3ex.splits.map (fun p => (p.1, p.2.align, p.2.common)) =
      [(0, some 8, true)] ∧
    lookupNamed c3rt.named_sections 0 = some ".data" ∧
    lookupNamed c3ex.named_sections 0 = some "custom" :=
  ⟨rfl, by decide, rfl, rfl, rfl, rfl, rfl⟩

/-- `takeWhile` passes over a block of satisfying characters. -/
theorem takeWhile_append_all {α : Type} {p : α → Bool} :
    ∀ (l1 l2 : List α), (∀ c ∈ l1, p c = true) →
      (l1 ++ l2).takeWhile p = l1 ++ l2.takeWhile p := by
  intro l1
  induction l1 with
  | nil => intro l2 _; rfl
  | cons a rest ih =>
    intro l2 h
    rw [List.cons_append, List.takeWhile_cons,
      h a (List.mem_cons_self a rest), if_pos rfl,
      ih l2 (fun c hc => h c (List.mem_cons_of_mem a hc))]
    rfl

/-- `dropWhile` consumes a block of satisfying characters. -/
theorem dropWhile_append_all {α : Type} {p : α → Bool} :
    ∀ (l1 l2 : List α), (∀ c ∈ l1, p c = true) →
      (l1 ++ l2).dropWhile p = l2.dropWhile p := by
  intro l1
  induction l1 with
  | nil => intro l2 _; rfl
  | cons a rest ih =>
    intro l2 h
    rw [List.cons_append, List.dropWhile_cons,
      h a (List.mem_cons_self a rest), if_pos rfl]
    exact ih l2 (fun c hc => h c (List.mem_cons_of_mem a hc))

/-- `dropWhile` stops at a failing head. -/
theorem dropWhile_cons_false {α : Type} {p : α → Bool} {a : α}
    (l : List α) (h : p a = false) :
    (a :: l).dropWhile p = a :: l := by
  rw [List.dropWhile_cons, h]
  simp

/-- `takeWhile` stops at a failing head. -/
theorem takeWhile_cons_false {α : Type} {p : α → Bool} {a : α}
    (l : List α) (h : p a = false) :
    (a :: l).takeWhile p = [] := by
  rw [List.takeWhile_cons, h]
  simp

/-- Every emitted hex digit is `hexDigitChar` of a value below 16. -/
theorem hexDigitsRev_mem :
    ∀ (fuel n : Nat) (c : Char), c ∈ hexDigitsRev fuel n →
      ∃ d, d < 16 ∧ c = hexDigitChar d := by
  intro fuel
  induction fuel with
  | zero => intro n c h; exact absurd h (by simp [hexDigitsRev])
  | succ fuel ih =>
    intro n c h
    rw [show hexDigitsRev (fuel + 1) n =
      (if n = 0 then [] else
        hexDigitChar (n % 16) :: hexDigitsRev fuel (n / 16)) from rfl] at h
    by_cases hz : n = 0
    · rw [if_pos hz] at h
      exact absurd h (by simp)
    · rw [if_neg hz] at h
      rcases List.mem_cons.mp h with hh | hh
      · exact ⟨n % 16, Nat.mod_lt n (by omega), hh⟩
      · exact ih (n / 16) c hh

/-- Every character of a padded hex literal is `hexDigitChar` of a value
below 16. -/
theorem hexUpperPad_mem (w n : Nat) (c : Char)
    (h : c ∈ hexUpperPad w n) : ∃ d, d < 16 ∧ c = hexDigitChar d := by
  unfold hexUpperPad at h
  rcases List.mem_append.mp h with hh | hh
  · refine ⟨0, by omega, ?_⟩
    have := List.eq_of_mem_replicate hh
    rw [this]
    rfl
  · exact hexDigitsRev_mem n n c (List.mem_reverse.mp hh)

/-- `hexVal` reads back `hexDigitChar`. -/
theorem hexVal_hexDigitChar : ∀ d, d < 16 →
    hexVal (hexDigitChar d) = some d := by
  intro d h
  interval_cases d <;> decide

/-- Character facts about emitted hex digits. -/
theorem hexDigitChar_props : ∀ d, d < 16 →
    isWsChar (hexDigitChar d) = false ∧ hexDigitChar d ≠ ':' ∧
    hexDigitChar d ≠ 'x' ∧ hexDigitChar d ≠ '+' ∧
    hexDigitChar d ≠ '/' ∧ hexDigitChar d ≠ '#' ∧
    hexDigitChar d ≠ ' ' := by
  intro d h
  interval_cases d <;> decide

/-- Splitting `parseHexGo` at an append. -/
theorem parseHexGo_append :
    ∀ (l1 l2 : List Char) (acc : Nat),
      parseHexGo (l1 ++ l2) acc =
        (parseHexGo l1 acc).bind (fun v => parseHexGo l2 v) := by
  intro l1
  induction l1 with
  | nil => intro l2 acc; rfl
  | cons c rest ih =>
    intro l2 acc
    rw [List.cons_append]
    rw [show parseHexGo (c :: (rest ++ l2)) acc =
      (match hexVal c with
       | none => none
       | some d => parseHexGo (rest ++ l2) (acc * 16 + d)) from rfl]
    rw [show parseHexGo (c :: rest) acc =
      (match hexVal c with
       | none => none
       | some d => parseHexGo rest (acc * 16 + d)) from rfl]
    rcases hv : hexVal c with _ | d
    · simp only [hv]
      rfl
    · simp only [hv]
      exact ih l2 (acc * 16 + d)

/-- Leading zeros do not change a zero-accumulated hex parse. -/
theorem parseHexGo_zeros :
    ∀ (k : Nat) (l : List Char),
      parseHexGo (List.replicate k '0' ++ l) 0 = parseHexGo l 0 := by
  intro k
  induction k with
  | zero => intro l; rfl
  | succ k ih =>
    intro l
    rw [List.replicate_succ, List.cons_append]
    rw [show parseHexGo ('0' :: (List.replicate k '0' ++ l)) 0 =
      parseHexGo (List.replicate k '0' ++ l) (0 * 16 + 0) from rfl]
    exact ih l

/-- Reading back the digits of `n` yields `n`, shifted onto the
accumulator. -/
theorem parseHexGo_digits :
    ∀ (fuel n acc : Nat), n ≤ fuel →
      parseHexGo (hexDigitsRev fuel n).reverse acc =
        some (acc * 16 ^ (hexDigitsRev fuel n).length + n) := by
  intro fuel
  induction fuel with
  | zero =>
    intro n acc h
    have hz : n = 0 := by omega
    subst hz
    rw [show hexDigitsRev 0 0 = [] from rfl]
    rw [show parseHexGo List.nil.reverse acc = some acc from rfl]
    norm_num
  | succ fuel ih =>
    intro n acc h
    rw [show hexDigitsRev (fuel + 1) n =
      (if n = 0 then [] else
        hexDigitChar (n % 16) :: hexDigitsRev fuel (n / 16)) from rfl]
    by_cases hz : n = 0
    · subst hz
      rw [if_pos rfl]
      rw [show parseHexGo List.nil.reverse acc = some acc from rfl]
      norm_num
    · rw [if_neg hz]
      rw [List.reverse_cons]
      rw [parseHexGo_append]
      have hdiv : n / 16 ≤ fuel := by
        have := Nat.div_lt_self (by omega : 0 < n) (by omega : 1 < 16)
        omega
      rw [ih (n / 16) acc hdiv, Option.some_bind]
      rw [show parseHexGo [hexDigitChar (n % 16)]
          (acc * 16 ^ (hexDigitsRev fuel (n / 16)).length + n / 16) =
        (match hexVal (hexDigitChar (n % 16)) with
         | none => none
         | some d => some
             ((acc * 16 ^ (hexDigitsRev fuel (n / 16)).length + n / 16) *
               16 + d)) from rfl]
      rw [hexVal_hexDigitChar (n % 16) (Nat.mod_lt n (by omega))]
      rw [show (match some (n % 16) with
          | none => (none : Option Nat)
          | some d => some
              ((acc * 16 ^ (hexDigitsRev fuel (n / 16)).length + n / 16) *
                16 + d)) = some
          ((acc * 16 ^ (hexDigitsRev fuel (n / 16)).length + n / 16) * 16 +
            n % 16) from rfl]
      congr 1
      rw [List.length_cons]
      have hdm : n / 16 * 16 + n % 16 = n := by
        have := Nat.div_add_mod n 16
        omega
      calc (acc * 16 ^ (hexDigitsRev fuel (n / 16)).length + n / 16) * 16 +
            n % 16
          = acc * (16 ^ (hexDigitsRev fuel (n / 16)).length * 16) +
            (n / 16 * 16 + n % 16) := by ring
        _ = acc * 16 ^ ((hexDigitsRev fuel (n / 16)).length + 1) + n := by
            rw [hdm, pow_succ]

/-- The padded hex literal never begins with the `0x` marker nor a sign. -/
theorem stripHex0x_hexUpperPad (w n : Nat) :
    stripHex0x (hexUpperPad w n) = hexUpperPad w n := by
  rcases hl : hexUpperPad w n with _ | ⟨c1, _ | ⟨c2, r⟩⟩
  · rfl
  · rfl
  · rw [show stripHex0x (c1 :: c2 :: r) =
      (if c1 = '0' ∧ c2 = 'x' then stripHex0x r else c1 :: c2 :: r) from
      rfl]
    rw [if_neg]
    intro ⟨_, h2⟩
    obtain ⟨d, hd, hcd⟩ := hexUpperPad_mem w n c2 (by rw [hl]; simp)
    exact absurd (hcd ▸ h2) (hexDigitChar_props d hd).2.2.1

/-- The padded hex literal is never empty. -/
theorem hexUpperPad_ne_nil (w n : Nat) (hw : 0 < w) :
    hexUpperPad w n ≠ [] := by
  simp only [hexUpperPad]
  intro h
  rw [List.append_eq_nil] at h
  obtain ⟨h1, h2⟩ := h
  have hr := congrArg List.length h1
  rw [List.length_replicate] at hr
  have hd := congrArg List.length h2
  simp only [List.length_nil, List.length_reverse] at hr hd
  omega

/-- `parse_hex` inverts the `{:#010X}` format on `u32` values. -/
theorem parse_hex_hex08 (n : Nat) (h : n < U32) :
    parse_hex (hex08 n) = some n := by
  unfold parse_hex hex08
  rw [String.data_append]
  rw [show ("0x" : String).data = ['0', 'x'] from rfl]
  rw [show (hexUpperPadS 8 n).data = hexUpperPad 8 n from rfl]
  rw [show (['0', 'x'] ++ hexUpperPad 8 n : List Char) =
    '0' :: 'x' :: hexUpperPad 8 n from rfl]
  rw [show stripHex0x ('0' :: 'x' :: hexUpperPad 8 n) =
    (if ('0' : Char) = '0' ∧ ('x' : Char) = 'x' then
      stripHex0x (hexUpperPad 8 n)
    else '0' :: 'x' :: hexUpperPad 8 n) from rfl]
  rw [if_pos ⟨rfl, rfl⟩, stripHex0x_hexUpperPad]
  have hplus : ¬((hexUpperPad 8 n).head? = some '+') := by
    rcases hl : hexUpperPad 8 n with _ | ⟨c1, r⟩
    · simp
    · obtain ⟨d, hd, hcd⟩ := hexUpperPad_mem 8 n c1 (by rw [hl]; simp)
      simp only [List.head?_cons]
      intro hc
      exact absurd (hcd ▸ Option.some.inj hc)
        (hexDigitChar_props d hd).2.2.2.1
  unfold parseHexSign
  rw [if_neg hplus]
  unfold parseHexCore
  rw [if_neg (by
    intro he
    exact absurd (List.isEmpty_iff.mp he) (hexUpperPad_ne_nil 8 n
      (by omega)))]
  simp only [hexUpperPad]
  rw [parseHexGo_zeros]
  rw [parseHexGo_digits n n 0 (Nat.le_refl n), Option.some_bind]
  rw [Nat.zero_mul, Nat.zero_add]
  rw [if_pos h]

/-- Appending text that does not begin with `/` to a non-comment,
whitespace-free, non-empty token cannot create a comment line. -/
theorem commentLineB_append_false {l1 l2 : List Char}
    (hne : l1 ≠ []) (hws : ∀ c ∈ l1, isWsChar c = false)
    (hcom : commentLineB l1 = false)
    (hl2 : l2.head? ≠ some '/') :
    commentLineB (l1 ++ l2) = false := by
  rcases l1 with _ | ⟨c1, rest⟩
  · exact absurd rfl hne
  · have hc1 : isWsChar c1 = false := hws c1 (List.mem_cons_self _ _)
    unfold commentLineB at hcom ⊢
    rw [dropWhile_cons_false rest hc1] at hcom
    rw [List.cons_append, dropWhile_cons_false (rest ++ l2) hc1]
    split
    · rename_i tail heq
      rw [List.cons.injEq] at heq
      obtain ⟨hceq, htail⟩ := heq
      subst hceq
      rcases rest with _ | ⟨c2, r2⟩
      · rw [List.nil_append] at htail
        rw [htail] at hl2
        exact absurd rfl hl2
      · rw [List.cons_append, List.cons.injEq] at htail
        obtain ⟨hc2, _⟩ := htail
        subst hc2
        simp at hcom
    · rename_i tail heq
      rw [List.cons.injEq] at heq
      obtain ⟨hceq, _⟩ := heq
      subst hceq
      simp at hcom
    · rfl

/-- A space-free block is one piece of `split(' ')`. -/
theorem splitSpaces_no_space :
    ∀ (l : List Char), (∀ c ∈ l, c ≠ ' ') → splitSpaces l = [l] := by
  intro l
  induction l with
  | nil => intro _; rfl
  | cons c rest ih =>
    intro h
    rw [show splitSpaces (c :: rest) =
      (if c = ' ' then [] :: splitSpaces rest
       else match splitSpaces rest with
         | p :: ps => (c :: p) :: ps
         | [] => [[c]]) from rfl]
    rw [if_neg (h c (List.mem_cons_self _ _))]
    rw [ih (fun x hx => h x (List.mem_cons_of_mem c hx))]

/-- `split(' ')` cuts at the first space after a space-free block. -/
theorem splitSpaces_append :
    ∀ (l1 l2 : List Char), (∀ c ∈ l1, c ≠ ' ') →
      splitSpaces (l1 ++ ' ' :: l2) = l1 :: splitSpaces l2 := by
  intro l1
  induction l1 with
  | nil =>
    intro l2 _
    rw [List.nil_append]
    rw [show splitSpaces (' ' :: l2) =
      (if (' ' : Char) = ' ' then [] :: splitSpaces l2
       else match splitSpaces l2 with
         | p :: ps => ((' ' : Char) :: p) :: ps
         | [] => [[' ']]) from rfl]
    rw [if_pos rfl]
  | cons c rest ih =>
    intro l2 h
    rw [List.cons_append]
    rw [show splitSpaces (c :: (rest ++ ' ' :: l2)) =
      (if c = ' ' then [] :: splitSpaces (rest ++ ' ' :: l2)
       else match splitSpaces (rest ++ ' ' :: l2) with
         | p :: ps => (c :: p) :: ps
         | [] => [[c]]) from rfl]
    rw [if_neg (h c (List.mem_cons_self _ _))]
    rw [ih l2 (fun x hx => h x (List.mem_cons_of_mem c hx))]

/-- `split_once(':')` on a key–value join with a colon-free key. -/
theorem splitOnceColon_join (k v : List Char)
    (hk : ∀ c ∈ k, c ≠ ':') :
    splitOnceColon ⟨k ++ ':' :: v⟩ = some (⟨k⟩, ⟨v⟩) := by
  unfold splitOnceColon
  rw [show (⟨k ++ ':' :: v⟩ : String).data = k ++ ':' :: v from rfl]
  rw [takeWhile_append_all k (':' :: v)
    (fun c hc => by simpa using hk c hc)]
  rw [takeWhile_cons_false v (by simp)]
  rw [List.append_nil]
  have hlen : k.length ≠ (k ++ ':' :: v).length := by
    rw [List.length_append, List.length_cons]
    omega
  rw [if_neg hlen]
  rw [show k.length + 1 = (k ++ [':']).length from by
    rw [List.length_append]; rfl]
  rw [show k ++ ':' :: v = (k ++ [':']) ++ v from by
    rw [List.append_assoc]; rfl]
  rw [List.drop_left]

/-- The character list of the `{:<11}` padding. -/
theorem padTo11_data (s : String) :
    (padTo11 s).data = s.data ++
      List.replicate (11 - s.data.length) ' ' := by
  unfold padTo11
  rw [String.data_append]

/-- `dropWhile` passes over one satisfying character. -/
theorem dropWhile_cons_true {α : Type} {p : α → Bool} {a : α}
    (l : List α) (h : p a = true) :
    (a :: l).dropWhile p = l.dropWhile p := by
  rw [List.dropWhile_cons, h]
  simp

/-- Leading whitespace does not affect the comment test. -/
theorem commentLineB_ws_cons {c : Char} (l : List Char)
    (h : isWsChar c = true) :
    commentLineB (c :: l) = commentLineB l := by
  unfold commentLineB
  rw [dropWhile_cons_true l h]

/-- The parse of a well-formed written unit line. -/
theorem parse_unit_line {u : String} (h : unitNameWF u) :
    parse_split_line (u ++ ":") = .ok (.unitLine u) := by
  obtain ⟨hne, hchars, hcom⟩ := h
  have hdata : (u ++ ":").data = u.data ++ [':'] := by
    rw [String.data_append]
  unfold parse_split_line
  rw [if_neg (by
    intro hq
    have hq2 := congrArg String.data hq
    rw [hdata] at hq2
    exact absurd hq2 (by simp))]
  rw [hdata]
  rw [commentLineB_append_false hne (fun c hc => (hchars c hc).1) hcom
    (by simp)]
  rw [if_neg (by simp)]
  have hunit : unitLineParse (u.data ++ [':']) = some u := by
    rcases hd : u.data with _ | ⟨c1, rest⟩
    · exact absurd hd hne
    · simp only [unitLineParse]
      have hcm : c1 ∈ u.data := by rw [hd]; simp
      have hallm : ∀ c ∈ c1 :: rest, c ∈ u.data := by
        intro c hc
        rw [hd]
        exact hc
      rw [List.cons_append]
      rw [dropWhile_cons_false (rest ++ [':']) (hchars c1 hcm).1]
      rw [show c1 :: (rest ++ [':']) = (c1 :: rest) ++ [':'] from rfl]
      rw [takeWhile_append_all (c1 :: rest) [':'] (fun c hc => by
        have hc2 := hchars c (hallm c hc)
        simp [hc2.1, hc2.2])]
      rw [takeWhile_cons_false ([] : List Char) (by decide)]
      rw [List.append_nil]
      rw [if_neg (by simp)]
      rw [List.drop_left]
      rw [dropWhile_cons_false ([] : List Char) (by decide)]
      show some (String.mk (c1 :: rest)) = some u
      rw [← hd]
  rw [hunit]

/-- A non-empty all-failing block stops `dropWhile` at its head. -/
theorem dropWhile_append_stop {α : Type} {p : α → Bool}
    (l1 l2 : List α) (hne : l1 ≠ []) (h : ∀ c ∈ l1, p c = false) :
    (l1 ++ l2).dropWhile p = l1 ++ l2 := by
  rcases l1 with _ | ⟨c, rest⟩
  · exact absurd rfl hne
  · rw [List.cons_append]
    exact dropWhile_cons_false (rest ++ l2) (h c (List.mem_cons_self _ _))

/-- `takeWhile` of a passing block followed by a failing region. -/
theorem takeWhile_append_stop {α : Type} {p : α → Bool}
    (l1 l2 : List α) (h1 : ∀ c ∈ l1, p c = true)
    (h2 : l2.takeWhile p = []) : (l1 ++ l2).takeWhile p = l1 := by
  rw [takeWhile_append_all l1 l2 h1, h2, List.append_nil]

/-- The head of the padding region is a space. -/
theorem replicate_space_head (k : Nat) (X : List Char) :
    (List.replicate k ' ' ++ ' ' :: X).head? = some ' ' := by
  cases k with
  | zero => rfl
  | succ k =>
    rw [List.replicate_succ, List.cons_append]
    rfl

/-- A predicate failing on the space character takes nothing from the
padding region. -/
theorem takeWhile_replicate_space {p : Char → Bool} (k : Nat)
    (X : List Char) (hp : p ' ' = false) :
    (List.replicate k ' ' ++ ' ' :: X).takeWhile p = [] := by
  cases k with
  | zero => exact takeWhile_cons_false _ hp
  | succ k =>
    rw [List.replicate_succ, List.cons_append]
    exact takeWhile_cons_false _ hp

/-- Whitespace skipping consumes the whole padding region. -/
theorem dropWhile_replicate_space (k : Nat) (X : List Char) :
    (List.replicate k ' ' ++ ' ' :: X).dropWhile isWsChar =
      X.dropWhile isWsChar := by
  induction k with
  | zero =>
    rw [List.replicate, List.nil_append]
    exact dropWhile_cons_true X (by decide)
  | succ k ih =>
    rw [List.replicate_succ, List.cons_append,
      dropWhile_cons_true _ (by decide)]
    exact ih

/-- One step of the split-attribute loop. -/
theorem parseSectionAttrs_cons (attr : String) (rest : List String)
    (name : String) (s9 e9 a9 : Option Nat) (c9 : Bool) :
    parseSectionAttrs (attr :: rest) (name, s9, e9, a9, c9) =
      (match splitOnceColon attr with
       | some (k, v) =>
         if k = "start" then
           match parse_hex v with
           | none => .error "ParseIntError"
           | some n => parseSectionAttrs rest (name, some n, e9, a9, c9)
         else if k = "end" then
           match parse_hex v with
           | none => .error "ParseIntError"
           | some n => parseSectionAttrs rest (name, s9, some n, a9, c9)
         else if k = "align" then
           match parseU32Dec v with
           | none => .error "ParseIntError"
           | some n => parseSectionAttrs rest (name, s9, e9, some n, c9)
         else if k = "rename" then
           parseSectionAttrs rest (v, s9, e9, a9, c9)
         else .error "Unknown split attribute"
       | none =>
         if attr = "common" then
           parseSectionAttrs rest
             (name, s9, e9, (if a9.isNone then some 4 else a9), true)
         else .error "Unknown split attribute") := rfl

/-- The parse of a well-formed written section line. -/
theorem parse_sec_line {sname : String} (hn : secNameWF sname)
    {a e : Nat} (ha : a < U32) (he : e < U32) :
    parse_split_line ("\t" ++ padTo11 sname ++ " start:" ++ hex08 a ++
      " end:" ++ hex08 e) = .ok (.secLine sname a e none false) := by
  obtain ⟨hne, hchars, hcom⟩ := hn
  have hwsD : ∀ c ∈ sname.data, isWsChar c = false :=
    fun c hc => (hchars c hc).1
  have hd0 : ("\t" ++ padTo11 sname ++ " start:" ++ hex08 a ++
      " end:" ++ hex08 e).data =
      '\t' :: (sname.data ++ (List.replicate (11 - sname.data.length) ' ' ++
        ' ' :: ('s' :: 't' :: 'a' :: 'r' :: 't' :: ':' ::
          ((hex08 a).data ++ (' ' :: 'e' :: 'n' :: 'd' :: ':' ::
            (hex08 e).data))))) := by
    simp only [String.data_append, padTo11_data,
      show ("\t" : String).data = ['\t'] from rfl,
      show (" start:" : String).data = [' ','s','t','a','r','t',':']
        from rfl,
      show (" end:" : String).data = [' ','e','n','d',':'] from rfl,
      List.append_assoc, List.cons_append, List.nil_append]
  have hAmem : ∀ c ∈ (hex08 a).data, c ≠ ' ' := by
    intro c hc
    rw [show (hex08 a).data = '0' :: 'x' :: hexUpperPad 8 a from by
      unfold hex08
      rw [String.data_append]
      rfl] at hc
    rcases List.mem_cons.mp hc with hh | hh
    · rw [hh]; decide
    · rcases List.mem_cons.mp hh with hh2 | hh2
      · rw [hh2]; decide
      · obtain ⟨d, hd, hcd⟩ := hexUpperPad_mem 8 a c hh2
        rw [hcd]
        exact (hexDigitChar_props d hd).2.2.2.2.2.2
  have hEmem : ∀ c ∈ (hex08 e).data, c ≠ ' ' := by
    intro c hc
    rw [show (hex08 e).data = '0' :: 'x' :: hexUpperPad 8 e from by
      unfold hex08
      rw [String.data_append]
      rfl] at hc
    rcases List.mem_cons.mp hc with hh | hh
    · rw [hh]; decide
    · rcases List.mem_cons.mp hh with hh2 | hh2
      · rw [hh2]; decide
      · obtain ⟨d, hd, hcd⟩ := hexUpperPad_mem 8 e c hh2
        rw [hcd]
        exact (hexDigitChar_props d hd).2.2.2.2.2.2
  have hlineNe : ¬("\t" ++ padTo11 sname ++ " start:" ++ hex08 a ++
      " end:" ++ hex08 e = "") := by
    intro hq
    have hq2 := congrArg String.data hq
    rw [hd0] at hq2
    exact absurd hq2 (by simp)
  have hcm : commentLineB ('\t' :: (sname.data ++
      (List.replicate (11 - sname.data.length) ' ' ++
        ' ' :: ('s' :: 't' :: 'a' :: 'r' :: 't' :: ':' ::
          ((hex08 a).data ++ (' ' :: 'e' :: 'n' :: 'd' :: ':' ::
            (hex08 e).data)))))) = false := by
    rw [commentLineB_ws_cons _ (by decide)]
    refine commentLineB_append_false hne hwsD hcom ?_
    rw [replicate_space_head]
    simp
  have hu : unitLineParse ('\t' :: (sname.data ++
      (List.replicate (11 - sname.data.length) ' ' ++
        ' ' :: ('s' :: 't' :: 'a' :: 'r' :: 't' :: ':' ::
          ((hex08 a).data ++ (' ' :: 'e' :: 'n' :: 'd' :: ':' ::
            (hex08 e).data)))))) = none := by
    simp only [unitLineParse]
    rw [dropWhile_cons_true _ (by decide)]
    rw [dropWhile_append_stop sname.data _ hne hwsD]
    rw [takeWhile_append_stop sname.data _
      (fun c hc => by simp [(hchars c hc).1, (hchars c hc).2])
      (takeWhile_replicate_space _ _ (by decide))]
    rw [if_neg (by simp [hne])]
    rw [List.drop_left]
    rw [dropWhile_replicate_space]
    rw [dropWhile_cons_false _ (by decide)]
    rfl
  have hss : sectionLineSplit ('\t' :: (sname.data ++
      (List.replicate (11 - sname.data.length) ' ' ++
        ' ' :: ('s' :: 't' :: 'a' :: 'r' :: 't' :: ':' ::
          ((hex08 a).data ++ (' ' :: 'e' :: 'n' :: 'd' :: ':' ::
            (hex08 e).data)))))) = some (sname,
      String.mk ('s' :: 't' :: 'a' :: 'r' :: 't' :: ':' ::
        ((hex08 a).data ++ (' ' :: 'e' :: 'n' :: 'd' :: ':' ::
          (hex08 e).data)))) := by
    simp only [sectionLineSplit]
    rw [dropWhile_cons_true _ (by decide)]
    rw [dropWhile_append_stop sname.data _ hne hwsD]
    rw [takeWhile_append_stop sname.data _
      (fun c hc => by simp [(hchars c hc).1])
      (takeWhile_replicate_space _ _ (by decide))]
    rw [if_neg (by simp [hne])]
    rw [List.drop_left]
    rw [dropWhile_replicate_space]
    rw [dropWhile_cons_false _ (by decide)]
  have hsplit : splitOnSpaceS (String.mk ('s' :: 't' :: 'a' :: 'r' ::
      't' :: ':' :: ((hex08 a).data ++ (' ' :: 'e' :: 'n' :: 'd' :: ':' ::
        (hex08 e).data)))) =
      [String.mk ('s' :: 't' :: 'a' :: 'r' :: 't' :: ':' ::
        (hex08 a).data),
       String.mk ('e' :: 'n' :: 'd' :: ':' :: (hex08 e).data)] := by
    unfold splitOnSpaceS
    rw [show ('s' :: 't' :: 'a' :: 'r' :: 't' :: ':' ::
        ((hex08 a).data ++ (' ' :: 'e' :: 'n' :: 'd' :: ':' ::
          (hex08 e).data)) : List Char) =
      ('s' :: 't' :: 'a' :: 'r' :: 't' :: ':' :: (hex08 a).data) ++
        ' ' :: ('e' :: 'n' :: 'd' :: ':' :: (hex08 e).data) from by
      simp [List.cons_append, List.append_assoc]]
    rw [splitSpaces_append _ _ (by
      intro c hc
      rcases List.mem_cons.mp hc with hh | hh
      · rw [hh]; decide
      · rcases List.mem_cons.mp hh with hh | hh
        · rw [hh]; decide
        · rcases List.mem_cons.mp hh with hh | hh
          · rw [hh]; decide
          · rcases List.mem_cons.mp hh with hh | hh
            · rw [hh]; decide
            · rcases List.mem_cons.mp hh with hh | hh
              · rw [hh]; decide
              · rcases List.mem_cons.mp hh with hh | hh
                · rw [hh]; decide
                · exact hAmem c hh)]
    rw [splitSpaces_no_space _ (by
      intro c hc
      rcases List.mem_cons.mp hc with hh | hh
      · rw [hh]; decide
      · rcases List.mem_cons.mp hh with hh | hh
        · rw [hh]; decide
        · rcases List.mem_cons.mp hh with hh | hh
          · rw [hh]; decide
          · rcases List.mem_cons.mp hh with hh | hh
            · rw [hh]; decide
            · exact hEmem c hh)]
    rfl
  have hattr1 : splitOnceColon (String.mk ('s' :: 't' :: 'a' :: 'r' ::
      't' :: ':' :: (hex08 a).data)) =
      some ("start", String.mk (hex08 a).data) := by
    rw [show ('s' :: 't' :: 'a' :: 'r' :: 't' :: ':' ::
        (hex08 a).data : List Char) =
      ['s','t','a','r','t'] ++ ':' :: (hex08 a).data from rfl]
    rw [splitOnceColon_join ['s','t','a','r','t'] (hex08 a).data
      (by decide)]
  have hattr2 : splitOnceColon (String.mk ('e' :: 'n' :: 'd' :: ':' ::
      (hex08 e).data)) = some ("end", String.mk (hex08 e).data) := by
    rw [show ('e' :: 'n' :: 'd' :: ':' :: (hex08 e).data : List Char) =
      ['e','n','d'] ++ ':' :: (hex08 e).data from rfl]
    rw [splitOnceColon_join ['e','n','d'] (hex08 e).data (by decide)]
  have hmkA : String.mk (hex08 a).data = hex08 a := rfl
  have hmkE : String.mk (hex08 e).data = hex08 e := rfl
  have hattrs : parseSectionAttrs
      [String.mk ('s' :: 't' :: 'a' :: 'r' :: 't' :: ':' ::
        (hex08 a).data),
       String.mk ('e' :: 'n' :: 'd' :: ':' :: (hex08 e).data)]
      (sname, none, none, none, false) =
      .ok (sname, some a, some e, none, false) := by
    rw [parseSectionAttrs_cons]
    simp only [hattr1, hmkA, parse_hex_hex08 a ha]
    rw [parseSectionAttrs_cons]
    simp only [hattr2, hmkE, parse_hex_hex08 e he]
    rfl
  unfold parse_split_line
  rw [if_neg hlineNe]
  rw [hd0]
  simp only [hcm, hu, hss, hsplit, hattrs]
  rw [if_neg (by simp)]

/-- Unfolding equation of `applyLines` on one line. -/
theorem applyLines_cons (l : String) (ls : List String)
    (st : CSplitState) (obj : CObj) :
    applyLines (l :: ls) st obj =
      (match parse_split_line l with
       | .error e => .error e
       | .ok sl =>
         match st, sl with
         | _, .unitLine name =>
           applyLines ls (.unit name)
             { obj with link_order := obj.link_order ++ [name] }
         | .none, .secLine _ _ _ _ _ =>
           .error "Section defined outside of unit"
         | .unit u, .secLine n s e a c =>
           applyLines ls (.unit u)
             { obj with
               splits := cInsertSplit obj.splits s
                 { unit := u, endAddr := e, align := a, common := c },
               named_sections := cInsertNamed obj.named_sections s n }
         | _, .noneLine => applyLines ls st obj) := rfl

/-- Unfolding equation of `writeUnitLines` on the last split. -/
theorem writeUnitLines_one (obj : CObj) (u : String) (k : Nat)
    (spl : CSplit) :
    writeUnitLines obj u [(k, spl)] =
      (if spl.unit == u then
        match csection_at obj k with
        | none => .error "section_at"
        | some sec =>
          .ok [("\t" ++ padTo11 sec.name ++ " start:" ++ hex08 k ++
            " end:" ++ hex08 (if 0 < spl.endAddr then spl.endAddr
              else 0))]
      else .ok []) := rfl

/-- Unfolding equation of `writeUnitLines` on two or more splits. -/
theorem writeUnitLines_two (obj : CObj) (u : String) (k : Nat)
    (spl : CSplit) (b : Nat) (bs : CSplit)
    (rest2 : List (Nat × CSplit)) :
    writeUnitLines obj u ((k, spl) :: (b, bs) :: rest2) =
      (if spl.unit == u then
        match csection_at obj k with
        | none => .error "section_at"
        | some sec =>
          match writeUnitLines obj u ((b, bs) :: rest2) with
          | .error e => .error e
          | .ok ls =>
            .ok (("\t" ++ padTo11 sec.name ++ " start:" ++ hex08 k ++
              " end:" ++ hex08 (if 0 < spl.endAddr then spl.endAddr
                else b)) :: ls)
      else writeUnitLines obj u ((b, bs) :: rest2)) := rfl

/-- Unfolding equation of `czip` on the last split. -/
theorem czip_one (obj : CObj) (k : Nat) (s : CSplit) :
    czip obj [(k, s)] =
      [(k, ({ unit := s.unit,
              endAddr := if 0 < s.endAddr then s.endAddr else 0,
              align := none, common := false },
            ((csection_at obj k).map (fun sec => sec.name)).getD ""))] :=
  rfl

/-- Unfolding equation of `czip` on two or more splits. -/
theorem czip_two (obj : CObj) (k : Nat) (s : CSplit) (b : Nat)
    (bs : CSplit) (rest2 : List (Nat × CSplit)) :
    czip obj ((k, s) :: (b, bs) :: rest2) =
      (k, ({ unit := s.unit,
             endAddr := if 0 < s.endAddr then s.endAddr else b,
             align := none, common := false },
           ((csection_at obj k).map (fun sec => sec.name)).getD "")) ::
        czip obj ((b, bs) :: rest2) := rfl

/-- Unfolding equation of `applyRecs` on one record. -/
theorem applyRecs_cons (acc : CObj) (k : Nat) (v : CSplit × String)
    (rest : List (Nat × (CSplit × String))) :
    applyRecs acc ((k, v) :: rest) =
      applyRecs { acc with
        splits := cInsertSplit acc.splits k v.1,
        named_sections := cInsertNamed acc.named_sections k v.2 } rest :=
  rfl

/-- One written section line replays as its combined record. -/
theorem applyLines_block_step {obj : CObj} {u : String} {k : Nat}
    {spl : CSplit} {sec : ObjSection} {eff : Nat}
    {tail : List (Nat × CSplit)} {ls2 : List String}
    (hcs : csection_at obj k = some sec)
    (hwf : secNameWF sec.name) (hk : k < U32) (heff : eff < U32)
    (hrec : ∀ (restLines : List String) (acc : CObj),
      applyLines (ls2 ++ restLines) (.unit u) acc =
        applyLines restLines (.unit u)
          (applyRecs acc ((czip obj tail).filter
            (fun r => r.2.1.unit == u))))
    (hueq : spl.unit = u) (restLines : List String) (acc : CObj) :
    applyLines ((("\t" ++ padTo11 sec.name ++ " start:" ++ hex08 k ++
        " end:" ++ hex08 eff) :: ls2) ++ restLines) (.unit u) acc =
      applyLines restLines (.unit u)
        (applyRecs acc
          (((k, ({ unit := spl.unit, endAddr := eff, align := none,
                   common := false },
                 ((csection_at obj k).map (fun s => s.name)).getD "")) ::
             czip obj tail).filter (fun r => r.2.1.unit == u))) := by
  rw [List.cons_append, applyLines_cons, parse_sec_line hwf hk heff]
  show applyLines (ls2 ++ restLines) (.unit u)
      { acc with
        splits := cInsertSplit acc.splits k
          { unit := u, endAddr := eff, align := none, common := false },
        named_sections := cInsertNamed acc.named_sections k sec.name } = _
  rw [hrec restLines]
  rw [List.filter_cons]
  rw [if_pos (by
    show (({ unit := spl.unit, endAddr := eff, align := none,
             common := false } : CSplit).unit == u) = true
    rw [show ({ unit := spl.unit, endAddr := eff, align := none,
                common := false } : CSplit).unit = spl.unit from rfl]
    rw [hueq]
    exact beq_self_eq_true u)]
  rw [applyRecs_cons]
  rw [show ((k, ({ unit := spl.unit, endAddr := eff, align := none,
                   common := false },
                 ((csection_at obj k).map (fun s => s.name)).getD "")) :
      Nat × CSplit × String).2.1 =
    { unit := spl.unit, endAddr := eff, align := none,
      common := false } from rfl]
  rw [show ((k, ({ unit := spl.unit, endAddr := eff, align := none,
                   common := false },
                 ((csection_at obj k).map (fun s => s.name)).getD "")) :
      Nat × CSplit × String).2.2 =
    ((csection_at obj k).map (fun s => s.name)).getD "" from rfl]
  rw [hcs]
  rw [show ((some sec).map (fun s => s.name)).getD "" = sec.name from rfl]
  rw [hueq]

/-- One written unit block replays as the unit's combined records. -/
theorem applyLines_block {obj : CObj} {u : String} :
    ∀ (sp : List (Nat × CSplit)) (ls : List String),
      writeUnitLines obj u sp = .ok ls →
      (∀ p ∈ sp, ∀ sec, csection_at obj p.1 = some sec →
        secNameWF sec.name) →
      (∀ p ∈ sp, p.1 < U32 ∧ p.2.endAddr < U32) →
      ∀ (restLines : List String) (acc : CObj),
        applyLines (ls ++ restLines) (.unit u) acc =
          applyLines restLines (.unit u)
            (applyRecs acc ((czip obj sp).filter
              (fun r => r.2.1.unit == u))) := by
  intro sp
  induction sp with
  | nil =>
    intro ls hok _ _ restLines acc
    have hls : ls = [] := (Except.ok.inj hok).symm
    subst hls
    rfl
  | cons p rest ih =>
    obtain ⟨k, spl⟩ := p
    intro ls hok hsec hbnd restLines acc
    have hsec2 : ∀ p ∈ rest, ∀ sec, csection_at obj p.1 = some sec →
        secNameWF sec.name :=
      fun q hq sec2 hcs2 => hsec q (List.mem_cons_of_mem _ hq) sec2 hcs2
    have hbnd2 : ∀ p ∈ rest, p.1 < U32 ∧ p.2.endAddr < U32 :=
      fun q hq => hbnd q (List.mem_cons_of_mem _ hq)
    have hU0 : (0 : Nat) < U32 := by
      unfold U32
      norm_num
    rcases rest with _ | ⟨⟨b, bs⟩, rest2⟩
    · rw [writeUnitLines_one] at hok
      rw [czip_one]
      by_cases hbe : (spl.unit == u) = true
      · rw [if_pos hbe] at hok
        have hueq : spl.unit = u := eq_of_beq hbe
        rcases hcs : csection_at obj k with _ | sec
        · rw [hcs] at hok
          exact Except.noConfusion hok
        · rw [hcs] at hok
          have hls := Except.ok.inj hok
          subst hls
          have heff : (if 0 < spl.endAddr then spl.endAddr else 0) <
              U32 := by
            by_cases hpos : 0 < spl.endAddr
            · rw [if_pos hpos]
              exact (hbnd (k, spl) (List.mem_cons_self _ _)).2
            · rw [if_neg hpos]
              exact hU0
          have hrec0 : ∀ (rl : List String) (ac : CObj),
              applyLines (([] : List String) ++ rl) (.unit u) ac =
                applyLines rl (.unit u)
                  (applyRecs ac
                    ((czip obj ([] : List (Nat × CSplit))).filter
                      (fun r => r.2.1.unit == u))) :=
            fun rl ac => rfl
          rw [← hcs]
          exact applyLines_block_step hcs
            (hsec (k, spl) (List.mem_cons_self _ _) sec hcs)
            (hbnd (k, spl) (List.mem_cons_self _ _)).1 heff
            hrec0
            hueq restLines acc
      · rw [if_neg hbe] at hok
        have hls := Except.ok.inj hok
        subst hls
        rw [List.filter_cons]
        rw [if_neg (by
          show ¬((({ unit := spl.unit,
                     endAddr := if 0 < spl.endAddr then spl.endAddr
                       else 0,
                     align := none,
                     common := false } : CSplit).unit == u) = true)
          rw [show ({ unit := spl.unit,
                      endAddr := if 0 < spl.endAddr then spl.endAddr
                        else 0,
                      align := none,
                      common := false } : CSplit).unit = spl.unit
            from rfl]
          exact hbe)]
        rfl
    · by_cases hbe : (spl.unit == u) = true
      · rw [writeUnitLines_two, if_pos hbe] at hok
        have hueq : spl.unit = u := eq_of_beq hbe
        rcases hcs : csection_at obj k with _ | sec
        · rw [hcs] at hok
          exact Except.noConfusion hok
        · rw [hcs] at hok
          rcases hwl : writeUnitLines obj u ((b, bs) :: rest2)
              with e2 | ls2
          · rw [hwl] at hok
            exact Except.noConfusion hok
          · rw [hwl] at hok
            have hls := Except.ok.inj hok
            subst hls
            rw [czip_two]
            have heff : (if 0 < spl.endAddr then spl.endAddr else b) <
                U32 := by
              by_cases hpos : 0 < spl.endAddr
              · rw [if_pos hpos]
                exact (hbnd (k, spl) (List.mem_cons_self _ _)).2
              · rw [if_neg hpos]
                exact (hbnd2 (b, bs) (List.mem_cons_self _ _)).1
            exact applyLines_block_step hcs
              (hsec (k, spl) (List.mem_cons_self _ _) sec hcs)
              (hbnd (k, spl) (List.mem_cons_self _ _)).1 heff
              (fun rl ac => ih ls2 hwl hsec2 hbnd2 rl ac)
              hueq restLines acc
      · rw [writeUnitLines_two, if_neg hbe] at hok
        rw [czip_two, List.filter_cons]
        rw [if_neg (by
          show ¬((({ unit := spl.unit,
                     endAddr := if 0 < spl.endAddr then spl.endAddr
                       else b,
                     align := none,
                     common := false } : CSplit).unit == u) = true)
          rw [show ({ unit := spl.unit,
                      endAddr := if 0 < spl.endAddr then spl.endAddr
                        else b,
                      align := none,
                      common := false } : CSplit).unit = spl.unit
            from rfl]
          exact hbe)]
        exact ih ls hok hsec2 hbnd2 restLines acc

/-- Unfolding equation of `write_splits` on one unit. -/
theorem write_splits_cons (obj : CObj) (u : String) (us : List String) :
    write_splits obj (u :: us) =
      (match writeUnitLines obj u obj.splits with
       | .error e => .error e
       | .ok ls =>
         match write_splits obj us with
         | .error e => .error e
         | .ok ls2 => .ok (((u ++ ":") :: ls ++ [""]) ++ ls2)) := rfl

/-- Unfolding equation of `applyUnits` on one unit. -/
theorem applyUnits_cons (obj : CObj) (acc : CObj) (u : String)
    (us : List String) :
    applyUnits obj acc (u :: us) =
      applyUnits obj
        (applyRecs { acc with link_order := acc.link_order ++ [u] }
          ((czip obj obj.splits).filter (fun r => r.2.1.unit == u))) us :=
  rfl

/-- The empty line parses as `None`. -/
theorem parse_empty_line : parse_split_line "" = .ok .noneLine := rfl

/-- A line parsing as a unit opens that unit from any state. -/
theorem applyLines_unit_step {l : String} {name : String}
    (hp : parse_split_line l = .ok (.unitLine name)) (ls : List String)
    (st : CSplitState) (obj : CObj) :
    applyLines (l :: ls) st obj =
      applyLines ls (.unit name)
        { obj with link_order := obj.link_order ++ [name] } := by
  rw [applyLines_cons, hp]
  cases st <;> rfl

/-- A line parsing as `None` is skipped from any state. -/
theorem applyLines_none_step {l : String}
    (hp : parse_split_line l = .ok .noneLine) (ls : List String)
    (st : CSplitState) (obj : CObj) :
    applyLines (l :: ls) st obj = applyLines ls st obj := by
  rw [applyLines_cons, hp]
  cases st <;> rfl

/-- A whole written splits file replays as `applyUnits`. -/
theorem applyLines_file {obj : CObj}
    (hsec : ∀ p ∈ obj.splits, ∀ sec, csection_at obj p.1 = some sec →
      secNameWF sec.name)
    (hbnd : ∀ p ∈ obj.splits, p.1 < U32 ∧ p.2.endAddr < U32) :
    ∀ (us : List String) (lines : List String),
      write_splits obj us = .ok lines →
      (∀ u ∈ us, unitNameWF u) →
      ∀ (st : CSplitState) (acc : CObj),
        applyLines lines st acc = .ok (applyUnits obj acc us) := by
  intro us
  induction us with
  | nil =>
    intro lines hok _ st acc
    have hl : lines = [] := (Except.ok.inj hok).symm
    subst hl
    rfl
  | cons u us ih =>
    intro lines hok hwf st acc
    rw [write_splits_cons] at hok
    rcases hwl : writeUnitLines obj u obj.splits with e | ls
    · rw [hwl] at hok
      exact Except.noConfusion hok
    · rw [hwl] at hok
      rcases hws : write_splits obj us with e | ls2
      · rw [hws] at hok
        exact Except.noConfusion hok
      · rw [hws] at hok
        have hl := Except.ok.inj hok
        subst hl
        rw [show (((u ++ ":") :: ls ++ [""]) ++ ls2 : List String) =
          (u ++ ":") :: (ls ++ ("" :: ls2)) from by simp]
        rw [applyLines_unit_step (parse_unit_line (hwf u
          (List.mem_cons_self u us))) _ st acc]
        rw [applyLines_block obj.splits ls hwl hsec hbnd ("" :: ls2) _]
        rw [applyLines_none_step parse_empty_line ls2 _ _]
        rw [ih ls2 hws (fun x hx => hwf x (List.mem_cons_of_mem u hx))]
        rw [applyUnits_cons]

/-- Unfolding equation of `cInsertSplit`. -/
theorem cInsertSplit_cons (k0 : Nat) (v0 : CSplit)
    (rest : List (Nat × CSplit)) (k : Nat) (v : CSplit) :
    cInsertSplit ((k0, v0) :: rest) k v =
      (if k < k0 then (k, v) :: (k0, v0) :: rest
       else (k0, v0) :: cInsertSplit rest k v) := rfl

/-- Unfolding equation of `cInsertNamed`. -/
theorem cInsertNamed_cons (k0 : Nat) (v0 : String)
    (rest : List (Nat × String)) (k : Nat) (v : String) :
    cInsertNamed ((k0, v0) :: rest) k v =
      (if k < k0 then (k, v) :: (k0, v0) :: rest
       else if k = k0 then (k, v) :: rest
       else (k0, v0) :: cInsertNamed rest k v) := rfl

/-- Inserting a key between a lower region and a higher region lands
exactly in the middle. -/
theorem cInsertSplit_mid :
    ∀ (P R : List (Nat × CSplit)) (k : Nat) (v : CSplit),
      (∀ x ∈ P, x.1 < k) → (∀ r ∈ R, k < r.1) →
      cInsertSplit (P ++ R) k v = P ++ (k, v) :: R := by
  intro P
  induction P with
  | nil =>
    intro R k v _ hR
    rcases R with _ | ⟨⟨r0, w0⟩, R2⟩
    · rfl
    · rw [List.nil_append, cInsertSplit_cons,
        if_pos (hR (r0, w0) (List.mem_cons_self _ _))]
      rfl
  | cons x P2 ih =>
    obtain ⟨k0, v0⟩ := x
    intro R k v hP hR
    rw [List.cons_append, cInsertSplit_cons,
      if_neg (by
        have := hP (k0, v0) (List.mem_cons_self _ _)
        omega)]
    rw [ih R k v (fun y hy => hP y (List.mem_cons_of_mem _ hy)) hR]
    rfl

/-- The named-section insert lands in the middle as well when the key is
fresh. -/
theorem cInsertNamed_mid :
    ∀ (P R : List (Nat × String)) (k : Nat) (v : String),
      (∀ x ∈ P, x.1 < k) → (∀ r ∈ R, k < r.1) →
      cInsertNamed (P ++ R) k v = P ++ (k, v) :: R := by
  intro P
  induction P with
  | nil =>
    intro R k v _ hR
    rcases R with _ | ⟨⟨r0, w0⟩, R2⟩
    · rfl
    · rw [List.nil_append, cInsertNamed_cons,
        if_pos (hR (r0, w0) (List.mem_cons_self _ _))]
      rfl
  | cons x P2 ih =>
    obtain ⟨k0, v0⟩ := x
    intro R k v hP hR
    have hk0 : k0 < k := hP (k0, v0) (List.mem_cons_self _ _)
    rw [List.cons_append, cInsertNamed_cons,
      if_neg (by omega), if_neg (by omega)]
    rw [ih R k v (fun y hy => hP y (List.mem_cons_of_mem _ hy)) hR]
    rfl

/-- Replaying a filtered slice of a sorted record list merges it into the
accumulated filtered slice: the two disjoint slices combine into the
slice of the disjunction. -/
theorem applyRecs_merge :
    ∀ (M : List (Nat × (CSplit × String)))
      (p q : Nat × (CSplit × String) → Bool)
      (P : List (Nat × CSplit)) (Q : List (Nat × String)) (acc : CObj),
      M.Pairwise (fun r s => r.1 < s.1) →
      (∀ r ∈ M, ¬(p r = true ∧ q r = true)) →
      (∀ x ∈ P, ∀ r ∈ M, x.1 < r.1) →
      (∀ x ∈ Q, ∀ r ∈ M, x.1 < r.1) →
      acc.splits = P ++ (M.filter p).map (fun r => (r.1, r.2.1)) →
      acc.named_sections = Q ++ (M.filter p).map (fun r => (r.1, r.2.2)) →
      applyRecs acc (M.filter q) =
        { acc with
          splits := P ++ (M.filter (fun r => p r || q r)).map
            (fun r => (r.1, r.2.1)),
          named_sections := Q ++ (M.filter (fun r => p r || q r)).map
            (fun r => (r.1, r.2.2)) } := by
  intro M
  induction M with
  | nil =>
    intro p q P Q acc _ _ _ _ hsp hnm
    rcases acc with ⟨se, sp, lo, ns⟩
    simp only [List.filter_nil, List.map_nil, List.append_nil] at hsp hnm
    subst hsp hnm
    simp only [List.filter_nil, List.map_nil, List.append_nil]
    rfl
  | cons x M2 ih =>
    intro p q P Q acc hsort hdis hP hQ hsp hnm
    rw [List.pairwise_cons] at hsort
    obtain ⟨hx, hsort2⟩ := hsort
    have hdis2 : ∀ r ∈ M2, ¬(p r = true ∧ q r = true) :=
      fun r hr => hdis r (List.mem_cons_of_mem _ hr)
    have hmapkey1 : ∀ y ∈ (M2.filter p).map (fun r => (r.1, r.2.1)),
        x.1 < y.1 := by
      intro y hy
      rw [List.mem_map] at hy
      obtain ⟨r, hr, hry⟩ := hy
      rw [← hry]
      exact hx r (List.mem_of_mem_filter hr)
    have hmapkey2 : ∀ y ∈ (M2.filter p).map (fun r => (r.1, r.2.2)),
        x.1 < y.1 := by
      intro y hy
      rw [List.mem_map] at hy
      obtain ⟨r, hr, hry⟩ := hy
      rw [← hry]
      exact hx r (List.mem_of_mem_filter hr)
    rw [List.filter_cons]
    by_cases hq : q x = true
    · have hp : p x = false := by
        cases hpx : p x with
        | false => rfl
        | true => exact absurd ⟨hpx, hq⟩ (hdis x (List.mem_cons_self _ _))
      rw [if_pos hq, applyRecs_cons]
      rw [List.filter_cons, hp] at hsp hnm
      simp only [Bool.false_eq_true, if_false] at hsp hnm
      have hsp1 : cInsertSplit acc.splits x.1 x.2.1 =
          (P ++ [(x.1, x.2.1)]) ++
            (M2.filter p).map (fun r => (r.1, r.2.1)) := by
        rw [hsp, cInsertSplit_mid P _ x.1 x.2.1
          (fun y hy => hP y hy x (List.mem_cons_self _ _)) hmapkey1]
        rw [List.append_assoc]
        rfl
      have hnm1 : cInsertNamed acc.named_sections x.1 x.2.2 =
          (Q ++ [(x.1, x.2.2)]) ++
            (M2.filter p).map (fun r => (r.1, r.2.2)) := by
        rw [hnm, cInsertNamed_mid Q _ x.1 x.2.2
          (fun y hy => hQ y hy x (List.mem_cons_self _ _)) hmapkey2]
        rw [List.append_assoc]
        rfl
      rw [ih p q (P ++ [(x.1, x.2.1)]) (Q ++ [(x.1, x.2.2)])
        { acc with
          splits := cInsertSplit acc.splits x.1 x.2.1,
          named_sections := cInsertNamed acc.named_sections x.1 x.2.2 }
        hsort2 hdis2
        (by
          intro y hy r hr
          rcases List.mem_append.mp hy with hh | hh
          · exact Nat.lt_trans (hP y hh x (List.mem_cons_self _ _))
              (hx r hr)
          · rw [List.mem_singleton.mp hh]
            exact hx r hr)
        (by
          intro y hy r hr
          rcases List.mem_append.mp hy with hh | hh
          · exact Nat.lt_trans (hQ y hh x (List.mem_cons_self _ _))
              (hx r hr)
          · rw [List.mem_singleton.mp hh]
            exact hx r hr)
        hsp1 hnm1]
      rw [List.filter_cons, show (p x || q x) = true from by
        rw [hq, Bool.or_true]]
      rw [if_pos rfl]
      simp only [List.map_cons, List.append_assoc, List.cons_append,
        List.nil_append]
    · rw [if_neg hq]
      by_cases hp : p x = true
      · rw [List.filter_cons, hp, if_pos rfl] at hsp hnm
        simp only [List.map_cons] at hsp hnm
        have hsp1 : acc.splits = (P ++ [(x.1, x.2.1)]) ++
            (M2.filter p).map (fun r => (r.1, r.2.1)) := by
          rw [hsp, List.append_assoc]
          rfl
        have hnm1 : acc.named_sections = (Q ++ [(x.1, x.2.2)]) ++
            (M2.filter p).map (fun r => (r.1, r.2.2)) := by
          rw [hnm, List.append_assoc]
          rfl
        rw [ih p q (P ++ [(x.1, x.2.1)]) (Q ++ [(x.1, x.2.2)]) acc
          hsort2 hdis2
          (by
            intro y hy r hr
            rcases List.mem_append.mp hy with hh | hh
            · exact Nat.lt_trans (hP y hh x (List.mem_cons_self _ _))
                (hx r hr)
            · rw [List.mem_singleton.mp hh]
              exact hx r hr)
          (by
            intro y hy r hr
            rcases List.mem_append.mp hy with hh | hh
            · exact Nat.lt_trans (hQ y hh x (List.mem_cons_self _ _))
                (hx r hr)
            · rw [List.mem_singleton.mp hh]
              exact hx r hr)
          hsp1 hnm1]
        rw [List.filter_cons, show (p x || q x) = true from by
          rw [hp, Bool.true_or]]
        rw [if_pos rfl]
        simp only [List.map_cons, List.append_assoc, List.cons_append,
          List.nil_append]
      · rw [Bool.not_eq_true] at hp hq
        rw [List.filter_cons, hp] at hsp hnm
        simp only [Bool.false_eq_true, if_false] at hsp hnm
        rw [ih p q P Q acc hsort2 hdis2
          (fun y hy r hr => hP y hy r (List.mem_cons_of_mem _ hr))
          (fun y hy r hr => hQ y hy r (List.mem_cons_of_mem _ hr))
          hsp hnm]
        rw [List.filter_cons, show (p x || q x) = false from by
          rw [hp, hq, Bool.or_self]]
        simp only [Bool.false_eq_true, if_false]

/-- Unfolding equation of `cExpected` on the last split. -/
theorem cExpected_one (k : Nat) (s : CSplit) :
    cExpected [(k, s)] =
      [(k, { unit := s.unit,
             endAddr := if 0 < s.endAddr then s.endAddr else 0,
             align := none, common := false })] := rfl

/-- Unfolding equation of `cExpected` on two or more splits. -/
theorem cExpected_two (k : Nat) (s : CSplit) (b : Nat) (bs : CSplit)
    (rest2 : List (Nat × CSplit)) :
    cExpected ((k, s) :: (b, bs) :: rest2) =
      (k, { unit := s.unit,
            endAddr := if 0 < s.endAddr then s.endAddr else b,
            align := none, common := false }) ::
        cExpected ((b, bs) :: rest2) := rfl

/-- Unfolding equation of `cExpectedNamed`. -/
theorem cExpectedNamed_cons (obj : CObj) (k : Nat) (s : CSplit)
    (rest : List (Nat × CSplit)) :
    cExpectedNamed obj ((k, s) :: rest) =
      (k, (((csection_at obj k).map (fun sec => sec.name)).getD "")) ::
        cExpectedNamed obj rest := rfl

/-- The combined records keep the split keys. -/
theorem czip_map_fst (obj : CObj) :
    ∀ (sp : List (Nat × CSplit)),
      (czip obj sp).map Prod.fst = sp.map Prod.fst := by
  intro sp
  induction sp with
  | nil => rfl
  | cons p rest ih =>
    obtain ⟨k, s⟩ := p
    rcases rest with _ | ⟨⟨b, bs⟩, rest2⟩
    · rw [czip_one]
      rfl
    · rw [czip_two, List.map_cons, List.map_cons, ih]

/-- The combined records are key-sorted when the splits are. -/
theorem czip_sorted (obj : CObj) {sp : List (Nat × CSplit)}
    (h : sp.Pairwise (fun a b => a.1 < b.1)) :
    (czip obj sp).Pairwise (fun a b => a.1 < b.1) := by
  have h1 : (sp.map Prod.fst).Pairwise (· < ·) := by
    rw [List.pairwise_map]
    exact h
  rw [← czip_map_fst obj sp] at h1
  rw [List.pairwise_map] at h1
  exact h1

/-- Projecting the split components of the combined records gives the
expected read-back splits. -/
theorem czip_proj1 (obj : CObj) :
    ∀ (sp : List (Nat × CSplit)),
      (czip obj sp).map (fun r => (r.1, r.2.1)) = cExpected sp := by
  intro sp
  induction sp with
  | nil => rfl
  | cons p rest ih =>
    obtain ⟨k, s⟩ := p
    rcases rest with _ | ⟨⟨b, bs⟩, rest2⟩
    · rw [czip_one, cExpected_one]
      rfl
    · rw [czip_two, cExpected_two, List.map_cons, ih]

/-- Projecting the named components of the combined records gives the
expected read-back named sections. -/
theorem czip_proj2 (obj : CObj) :
    ∀ (sp : List (Nat × CSplit)),
      (czip obj sp).map (fun r => (r.1, r.2.2)) = cExpectedNamed obj sp := by
  intro sp
  induction sp with
  | nil => rfl
  | cons p rest ih =>
    obtain ⟨k, s⟩ := p
    rcases rest with _ | ⟨⟨b, bs⟩, rest2⟩
    · rw [czip_one, cExpectedNamed_cons]
      rfl
    · rw [czip_two, cExpectedNamed_cons, List.map_cons, ih]

/-- Every combined record's unit comes from its source split. -/
theorem czip_units {obj : CObj} {L : List String} :
    ∀ (sp : List (Nat × CSplit)), (∀ p ∈ sp, p.2.unit ∈ L) →
      ∀ r ∈ czip obj sp, r.2.1.unit ∈ L := by
  intro sp
  induction sp with
  | nil =>
    intro _ r hr
    exact absurd hr (by simp [czip])
  | cons p rest ih =>
    obtain ⟨k, s⟩ := p
    intro hall r hr
    rcases rest with _ | ⟨⟨b, bs⟩, rest2⟩
    · rw [czip_one] at hr
      rw [List.mem_singleton.mp hr]
      exact hall (k, s) (List.mem_cons_self _ _)
    · rw [czip_two] at hr
      rcases List.mem_cons.mp hr with hh | hh
      · rw [hh]
        exact hall (k, s) (List.mem_cons_self _ _)
      · exact ih (fun q hq => hall q (List.mem_cons_of_mem _ hq)) r hh

/-- `contains` over an appended singleton. -/
theorem contains_append_one (pus : List String) (u x : String) :
    (pus ++ [u]).contains x = (pus.contains x || x == u) := by
  induction pus with
  | nil =>
    rw [List.nil_append, List.contains_cons,
      show (([] : List String).contains x) = false from rfl,
      Bool.or_false, Bool.false_or]
  | cons a t ih =>
    rw [List.cons_append, List.contains_cons, List.contains_cons, ih,
      Bool.or_assoc]

/-- Replaying every unit accumulates the filtered slices of the combined
records in link order. -/
theorem applyUnits_merge {obj : CObj}
    (hsort : (czip obj obj.splits).Pairwise (fun r s => r.1 < s.1)) :
    ∀ (us pus : List String) (acc : CObj),
      (pus ++ us).Nodup →
      acc.splits = ((czip obj obj.splits).filter
        (fun r => pus.contains r.2.1.unit)).map (fun r => (r.1, r.2.1)) →
      acc.named_sections = ((czip obj obj.splits).filter
        (fun r => pus.contains r.2.1.unit)).map (fun r => (r.1, r.2.2)) →
      applyUnits obj acc us =
        { acc with
          splits := ((czip obj obj.splits).filter
            (fun r => (pus ++ us).contains r.2.1.unit)).map
            (fun r => (r.1, r.2.1)),
          named_sections := ((czip obj obj.splits).filter
            (fun r => (pus ++ us).contains r.2.1.unit)).map
            (fun r => (r.1, r.2.2)),
          link_order := acc.link_order ++ us } := by
  intro us
  induction us with
  | nil =>
    intro pus acc _ hsp hnm
    rcases acc with ⟨se, sp, lo, ns⟩
    simp only at hsp hnm
    subst hsp hnm
    simp only [List.append_nil]
    rfl
  | cons u us ih =>
    intro pus acc hnd hsp hnm
    rw [applyUnits_cons]
    have hdisj : ∀ r ∈ czip obj obj.splits,
        ¬((pus.contains r.2.1.unit) = true ∧
          (r.2.1.unit == u) = true) := by
      intro r _ hcontra
      obtain ⟨h1, h2⟩ := hcontra
      have hru : r.2.1.unit = u := eq_of_beq h2
      rw [hru] at h1
      have hmem : u ∈ pus := List.mem_of_elem_eq_true h1
      exact absurd hmem (fun hm =>
        List.disjoint_of_nodup_append hnd hm (List.mem_cons_self u us))
    rw [applyRecs_merge (czip obj obj.splits)
      (fun r => pus.contains r.2.1.unit) (fun r => r.2.1.unit == u)
      [] [] { acc with link_order := acc.link_order ++ [u] }
      hsort hdisj (by simp) (by simp)
      (by rw [List.nil_append]; exact hsp)
      (by rw [List.nil_append]; exact hnm)]
    have hpred : ∀ r ∈ czip obj obj.splits,
        ((fun r => pus.contains r.2.1.unit || r.2.1.unit == u) r) =
          ((fun r => (pus ++ [u]).contains r.2.1.unit) r) := by
      intro r _
      exact (contains_append_one pus u r.2.1.unit).symm
    rw [List.filter_congr hpred]
    rw [ih (pus ++ [u])
      { acc with
        link_order := acc.link_order ++ [u],
        splits := [] ++ ((czip obj obj.splits).filter
          (fun r => (pus ++ [u]).contains r.2.1.unit)).map
          (fun r => (r.1, r.2.1)),
        named_sections := [] ++ ((czip obj obj.splits).filter
          (fun r => (pus ++ [u]).contains r.2.1.unit)).map
          (fun r => (r.1, r.2.2)) }
      (by
        rw [List.append_assoc]
        exact hnd)
      (by simp)
      (by simp)]
    simp only [List.nil_append, List.append_assoc]
    rfl

/-- C3 (amended): writing a well-formed image's splits file and reading it
back into an empty image reproduces the unit list and, for every split,
a record with the same start, the same unit and the materialised end —
but with `align := none`, `common := false`, and the section's own name:
the `align`, `common` and `rename` data are not round-tripped, because
`write_splits` emits only `start` and `end`. -/
theorem c3_round_trip {obj : CObj} {lines : List String}
    (hw : write_splits obj obj.link_order = .ok lines)
    (hsorted : obj.splits.Pairwise (fun p q => p.1 < q.1))
    (hnodup : obj.link_order.Nodup)
    (hwfu : ∀ u ∈ obj.link_order, unitNameWF u)
    (hcover : ∀ p ∈ obj.splits, p.2.unit ∈ obj.link_order)
    (hsec : ∀ p ∈ obj.splits, ∀ sec, csection_at obj p.1 = some sec →
      secNameWF sec.name)
    (hbnd : ∀ p ∈ obj.splits, p.1 < U32 ∧ p.2.endAddr < U32) :
    apply_splits lines
      { sections := [], splits := [], link_order := [],
        named_sections := [] } =
      .ok { sections := [], splits := cExpected obj.splits,
            link_order := obj.link_order,
            named_sections := cExpectedNamed obj obj.splits } := by
  unfold apply_splits
  rw [applyLines_file hsec hbnd obj.link_order lines hw hwfu .none _]
  congr 1
  rw [applyUnits_merge (czip_sorted obj hsorted) obj.link_order []
    { sections := [], splits := [], link_order := [],
      named_sections := [] }
    (by rw [List.nil_append]; exact hnodup)
    (by simp [show ∀ y : String, (([] : List String).contains y) = false
      from fun _ => rfl])
    (by simp [show ∀ y : String, (([] : List String).contains y) = false
      from fun _ => rfl])]
  have hfull : (czip obj obj.splits).filter
      (fun r => (([] : List String) ++ obj.link_order).contains
        r.2.1.unit) = czip obj obj.splits := by
    rw [List.nil_append]
    refine List.filter_eq_self.mpr ?_
    intro r hr
    exact List.elem_eq_true_of_mem
      (czip_units obj.splits hcover r hr)
  rw [hfull, czip_proj1, czip_proj2]
  rfl

/-- C3 witness: the amended theorem applied to `c3ex` — the written file
`c3lines` reads back as the expected transformed records. -/
theorem c3_round_trip_witness :
    apply_splits c3lines
      { sections := [], splits := [], link_order := [],
        named_sections := [] } =
      .ok { sections := [], splits := cExpected c3ex.splits,
            link_order := c3ex.link_order,
            named_sections := cExpectedNamed c3ex c3ex.splits } :=
  c3_round_trip
    (show write_splits c3ex c3ex.link_order = .ok c3lines from rfl)
    (by decide) (by decide) (by decide) (by decide)
    (by
      intro p hp sec hs
      rw [List.mem_singleton.mp hp] at hs
      have h0 : csection_at c3ex ((0,
          ({ unit := "A", endAddr := 8, align := some 8,
             common := true } : CSplit)) : Nat × CSplit).1 =
          some { name := ".data", kind := ObjSectionKind.Data,
                 address := 0, size := 8 } := rfl
      rw [h0] at hs
      rw [← Option.some.inj hs]
      decide)
    (by decide)


/-- C9: `parse_symbol_line` is not total.  The well-formed line
`"foo = 0x1234;"` matches `SYMBOL_LINE` with the optional `attrs` group
absent, so the unconditional indexing `captures["attrs"]` panics instead
of returning a symbol or an error — while the same line with an attribute
comment appended parses into the expected symbol. -/
theorem c9_parse_symbol_line_panics :
    (parse_symbol_line (fun _ => none) "foo = 0x1234;" c9obj).1 =
      SymLineOutcome.panicked ∧
    (parse_symbol_line (fun _ => none) "foo = 0x1234; // type:function"
        c9obj).1 =
      SymLineOutcome.parsed
        { name := "foo", address := 0x1234, kind := .Function } :=
  ⟨rfl, rfl⟩

end DT
